import Mathlib

/-!
# Buddy page allocator (`coursework/buddy.cpp`)

A shallow embedding of `BuddyPageAllocator`.

* A page descriptor pointer is `Option Nat`: `none` is the null pointer and
  `some p` is the descriptor of page frame number `p` (the external
  `pgd_to_pfn` / `pfn_to_pgd` pair is the identity on descriptors that exist).
* The mutable store is the array `_free_areas[MAX_ORDER + 1]` together with the
  `next_free` field of every descriptor.
* `assert` failures, null dereferences and out-of-bounds array reads are
  results of type `Fault`; loops that walk `next_free` links take a `fuel`
  bound and report `Fault.outOfFuel` when it is used up.
* Orders are naturals: every entry point of the source rejects a negative
  order through `checkOrder`, and the one place where the source computes
  `source_order - 1` is modelled with the failing assertion at `0`.
* Frame numbers are naturals. Where the source keeps a frame number in a
  32-bit `int` (`buddy_of`, `splitUntillPoint`), the model keeps the low 32
  bits, read as a signed number: `intToPfn` and `intOrd`. Below frame
  `2 ^ 31` both conversions change nothing.
* The page-allocator services the source only calls (`pfn_to_pgd`, the `type`
  field) are the parameter `Frames`; logging is left out.
-/

namespace Buddy

/-- The constant of `#define MAX_ORDER 18`. -/
def MAX_ORDER : Nat := 18

/-- Ways in which a call does not return normally. -/
inductive Fault where
  | assertion
  | nullPointer
  | outOfBounds
  | outOfFuel
  deriving DecidableEq

/-- The `type` field of an external page descriptor. -/
inductive PageDescriptorType where
  | INVALID
  | RESERVED
  | AVAILABLE
  | ALLOCATED
  deriving DecidableEq

/-- The external collaborators the allocator only reads: which page frame
numbers have a descriptor (`pfn_to_pgd` is non-null) and the `type` field of
each descriptor. -/
structure Frames where
  present : Nat → Bool
  type : Nat → PageDescriptorType

/-- The mutable store: the heads `_free_areas[order]` and the `next_free`
link of every descriptor. -/
structure State where
  _free_areas : Nat → Option Nat
  next_free : Nat → Option Nat

/-- A `PageDescriptor **`: either `&_free_areas[order]` or `&pgd->next_free`. -/
inductive Slot where
  | area (order : Nat)
  | link (pgd : Nat)
  deriving DecidableEq

/-- Reading `*slot`; `_free_areas` has `MAX_ORDER + 1` entries. -/
def State.load (s : State) : Slot → Except Fault (Option Nat)
  | .area order => if order ≤ MAX_ORDER then .ok (s._free_areas order) else .error .outOfBounds
  | .link pgd => .ok (s.next_free pgd)

/-- Writing `*slot = v`. -/
def State.store (s : State) (v : Option Nat) : Slot → Except Fault State
  | .area order =>
    if order ≤ MAX_ORDER then .ok { s with _free_areas := Function.update s._free_areas order v }
    else .error .outOfBounds
  | .link pgd => .ok { s with next_free := Function.update s.next_free pgd v }

/-- Writing `pgd->next_free = v`. -/
def State.setNext (s : State) (pgd : Nat) (v : Option Nat) : State :=
  { s with next_free := Function.update s.next_free pgd v }

/-- The external `pgd_to_pfn`; a null descriptor has no frame number. -/
def pgd_to_pfn : Option Nat → Except Fault Nat
  | none => .error .nullPointer
  | some p => .ok p

/-- The external `pfn_to_pgd`, null when the frame has no descriptor. -/
def pfn_to_pgd (F : Frames) (pfn : Nat) : Option Nat :=
  if F.present pfn then some pfn else none

/-- The function `checkOrder`: `assert(order <= MAX_ORDER && order >= 0)`. -/
def checkOrder (order : Nat) : Except Fault Unit :=
  if order ≤ MAX_ORDER then .ok () else .error .assertion

/-- The function `blockPages`: `1 << order` after `checkOrder`. -/
def blockPages (order : Nat) : Except Fault Nat := do
  checkOrder order
  pure (1 <<< order)

/-- The function `alignment`: the frame number is divisible by `blockPages(order)`. -/
def alignment (pgd : Option Nat) (order : Nat) : Except Fault Bool := do
  checkOrder order
  let pfn ← pgd_to_pfn pgd
  let block ← blockPages order
  pure (pfn % block == 0)

/-- The frame number that `pfn_to_pgd` receives when the source stores the frame
number `v` in an `int` (32 bits, signed) and passes the `int` on as a `pfn_t`
(64 bits, unsigned): the low 32 bits of `v`, sign-extended. -/
def intToPfn (v : Nat) : Nat :=
  if v % 2 ^ 32 < 2 ^ 31 then v % 2 ^ 32 else v % 2 ^ 32 + (2 ^ 64 - 2 ^ 32)

/-- The value of the `int` (32 bits, signed) that holds the low 32 bits of `v`,
moved up by `2 ^ 31`: two such `int`s compare as these numbers do. -/
def intOrd (v : Nat) : Nat :=
  (v + 2 ^ 31) % 2 ^ 32

/-- The function `buddy_of`. The sum or difference is computed as a `pfn_t` and
stored in `int buddy`, which `pfn_to_pgd` then receives: `intToPfn`. The
subtraction is exact: a frame aligned to `order` but not to `order + 1` is at
least `blockPages(order)`. -/
def buddy_of (F : Frames) (pgd : Option Nat) (order : Nat) : Except Fault (Option Nat) := do
  let a ← alignment pgd order
  if !a then pure none
  else do
    let pfn ← pgd_to_pfn pgd
    let block ← blockPages order
    let low ← alignment pgd (order + 1)
    let buddy := intToPfn (if low then pfn + block else pfn - block)
    pure (pfn_to_pgd F buddy)

/-- The `while` loop of `insertFree`: advance while `*position` is `pgd`. -/
def insertFree.loop (s : State) (pgd : Option Nat) : Nat → Slot → Except Fault Slot
  | 0, _ => .error .outOfFuel
  | n + 1, position => do
    match (← s.load position) with
    | none => pure position
    | some q => if pgd = some q then insertFree.loop s pgd n (.link q) else pure position

/-- The function `insertFree`: the loop, then `pgd->next_free = *position; *position = pgd;`. -/
def insertFree (s : State) (pgd : Option Nat) (order : Nat) (fuel : Nat) : Except Fault State := do
  let position ← insertFree.loop s pgd fuel (.area order)
  let cur ← s.load position
  let p ← pgd_to_pfn pgd
  (s.setNext p cur).store (some p) position

/-- The `while` loop of `removeFree`: advance to the slot holding `pgd`, or to
the null slot that ends the list. -/
def removeFree.loop (s : State) (pgd : Option Nat) : Nat → Slot → Except Fault Slot
  | 0, _ => .error .outOfFuel
  | n + 1, slot => do
    match (← s.load slot) with
    | none => pure slot
    | some q => if pgd ≠ some q then removeFree.loop s pgd n (.link q) else pure slot

/-- The function `removeFree`: the loop, then `*slot = pgd->next_free; pgd->next_free = nullptr;`. -/
def removeFree (s : State) (pgd : Option Nat) (order : Nat) (fuel : Nat) : Except Fault State := do
  let slot ← removeFree.loop s pgd fuel (.area order)
  let p ← pgd_to_pfn pgd
  let s1 ← s.store (s.next_free p) slot
  pure (s1.setNext p none)

/-- The function `split_block`. At `source_order = 0` the call `buddy_of(original, -1)`
fails the assertion of `checkOrder`. -/
def split_block (F : Frames) (s : State) (block_pointer : Option Nat) (source_order : Nat)
    (fuel : Nat) : Except Fault (Option Nat × State) := do
  let original := block_pointer
  let a ← alignment original source_order
  if !a then pure (none, s)
  else do
    let o ← pgd_to_pfn original
    if F.type o ≠ PageDescriptorType.AVAILABLE then pure (none, s)
    else
      match source_order with
      | 0 => .error .assertion
      | lOrder + 1 => do
        let other ← buddy_of F original lOrder
        let s1 ← removeFree s original (lOrder + 1) fuel
        let s2 ← insertFree s1 original lOrder fuel
        let s3 ← insertFree s2 other lOrder fuel
        pure (original, s3)

/-- The function `merge_block`. -/
def merge_block (F : Frames) (s : State) (block_pointer : Option Nat) (source_order : Nat)
    (fuel : Nat) : Except Fault (Option Nat × State) := do
  if ¬ (source_order ≤ MAX_ORDER - 1) then .error .assertion
  else do
    let a ← alignment block_pointer source_order
    if !a then pure (none, s)
    else do
      let nOrder := source_order + 1
      let original := block_pointer
      let other ← buddy_of F original source_order
      let s1 ← removeFree s original source_order fuel
      let s2 ← removeFree s1 other source_order fuel
      let lower ← alignment original nOrder
      if lower then do
        let s3 ← insertFree s2 original nOrder fuel
        pure (original, s3)
      else do
        let upper ← alignment other nOrder
        if upper then do
          let s3 ← insertFree s2 other nOrder fuel
          pure (other, s3)
        else pure (none, s2)

/-- The inner `while (free_pgd != NULL)` loop of `mergingOfPgd`. The result
carries whether the function executed `return`, the store, `buddy_pgd` and
`free_pgd`. `temp_order` is restored by the body before the next iteration. -/
def mergingOfPgd.whileLoop (F : Frames) (fuel : Nat) (temp_order : Nat) :
    Nat → State → Option Nat → Option Nat → Except Fault (Bool × State × Option Nat × Option Nat)
  | 0, _, _, _ => .error .outOfFuel
  | n + 1, s, buddy_pgd, free_pgd =>
    match free_pgd with
    | none => pure (false, s, buddy_pgd, none)
    | some f =>
      if buddy_pgd ≠ some f then
        mergingOfPgd.whileLoop F fuel temp_order n s buddy_pgd (s.next_free f)
      else do
        let (merge_pgd, s1) ← merge_block F s buddy_pgd temp_order fuel
        let buddy1 ← buddy_of F merge_pgd (temp_order + 1)
        if buddy1 ≠ none then pure (true, s1, buddy1, free_pgd)
        else do
          let free1 ← s1.load (.area (temp_order + 1))
          mergingOfPgd.whileLoop F fuel temp_order n s1 buddy1 free1

/-- The `for (temp_order = order; temp_order < MAX_ORDER; temp_order++)` loop
of `mergingOfPgd`; the first argument counts the remaining iterations. -/
def mergingOfPgd.forLoop (F : Frames) (fuel : Nat) :
    Nat → Nat → State → Option Nat → Option Nat → Except Fault State
  | 0, _, s, _, _ => pure s
  | n + 1, temp_order, s, buddy_pgd, free_pgd => do
    let (returned, s1, buddy1, free1) ←
      mergingOfPgd.whileLoop F fuel temp_order fuel s buddy_pgd free_pgd
    if returned then pure s1
    else mergingOfPgd.forLoop F fuel n (temp_order + 1) s1 buddy1 free1

/-- The function `mergingOfPgd`. -/
def mergingOfPgd (F : Frames) (s : State) (pgd : Option Nat) (order : Nat) (fuel : Nat) :
    Except Fault State := do
  if ¬ (order < MAX_ORDER) then .error .assertion
  else do
    let buddy_pgd ← buddy_of F pgd order
    let free_pgd ← s.load (.area order)
    mergingOfPgd.forLoop F fuel (MAX_ORDER - order) order s buddy_pgd free_pgd

/-- The loop `for (i = hi; i > lo; i--) pgd = split_block(&pgd, i)` shared by
`allocate_pages` and `splitUntillPoint`; the first numeric argument is
`hi - lo`. The guard `if (i != 0)` of `allocate_pages` always holds inside
the loop, where `i > order >= 0`. -/
def splitDown (F : Frames) (fuel : Nat) (lo : Nat) :
    Nat → State → Option Nat → Except Fault (Option Nat × State)
  | 0, s, pgd => pure (pgd, s)
  | n + 1, s, pgd => do
    let (pgd1, s1) ← split_block F s pgd (lo + n + 1) fuel
    splitDown F fuel lo n s1 pgd1

/-- The order search of `allocate_pages`:
`for (i = temp_order; i <= MAX_ORDER; i++) if (_free_areas[temp_order] == NULL) temp_order++;`
The first argument counts the remaining iterations. -/
def allocate_pages.search (s : State) : Nat → Nat → Except Fault Nat
  | 0, temp_order => pure temp_order
  | n + 1, temp_order => do
    let head ← s.load (.area temp_order)
    allocate_pages.search s n (if head = none then temp_order + 1 else temp_order)

/-- The function `allocate_pages`. -/
def allocate_pages (F : Frames) (s : State) (order : Nat) (fuel : Nat) :
    Except Fault (Option Nat × State) := do
  checkOrder order
  let temp_order ← allocate_pages.search s (MAX_ORDER + 1 - order) order
  let pgd ← s.load (.area temp_order)
  let (pgd1, s1) ← splitDown F fuel order (temp_order - order) s pgd
  let s2 ← removeFree s1 pgd1 order fuel
  pure (pgd1, s2)

/-- The function `free_pages`; `assert(alignment(pgd, order))` comes first. -/
def free_pages (F : Frames) (s : State) (pgd : Option Nat) (order : Nat) (fuel : Nat) :
    Except Fault State := do
  let a ← alignment pgd order
  if !a then .error .assertion
  else do
    let s1 ← insertFree s pgd order fuel
    if order < MAX_ORDER then mergingOfPgd F s1 pgd order fuel
    else pure s1

/-- The condition `blockPages(order_Count) > count || !alignment(start, order_Count)`. -/
def insert_page_range.tooBig (start : Option Nat) (count : Nat) (order_Count : Nat) :
    Except Fault Bool := do
  let block ← blockPages order_Count
  if block > count then pure true
  else do
    let a ← alignment start order_Count
    pure (!a)

/-- The inner `while (...) order_Count--;` loop of `insert_page_range`. -/
def insert_page_range.pick (start : Option Nat) (count : Nat) : Nat → Except Fault Nat
  | 0 => do
    if (← insert_page_range.tooBig start count 0) then .error .assertion
    else pure 0
  | k + 1 => do
    if (← insert_page_range.tooBig start count (k + 1)) then insert_page_range.pick start count k
    else pure (k + 1)

/-- The outer `while (count > 0)` loop of `insert_page_range`. -/
def insert_page_range.loop (fuel : Nat) : Nat → State → Option Nat → Nat → Except Fault State
  | 0, _, _, _ => .error .outOfFuel
  | n + 1, s, start, count =>
    if count > 0 then do
      let order_Count ← insert_page_range.pick start count MAX_ORDER
      let a ← alignment start order_Count
      if !a then .error .assertion
      else do
        let s1 ← insertFree s start order_Count fuel
        let block ← blockPages order_Count
        insert_page_range.loop fuel n s1 (start.map (· + block)) (count - block)
    else pure s

/-- The function `insert_page_range`. -/
def insert_page_range (s : State) (start : Option Nat) (count : Nat) (fuel : Nat) :
    Except Fault State :=
  insert_page_range.loop fuel fuel s start count

/-- The `while (pgd != NULL)` scan of one free list in `splitUntillPoint`;
`none` means the list was walked to its end without a hit. The source keeps
`pfn`, `intStart` and `endOfBlock` in `int`s, so `intStart < endOfBlock`
compares the low 32 bits as signed numbers (`intOrd`); `start >= pgd`
compares the descriptor pointers, which are ordered as their frame numbers. -/
def splitUntillPoint.scan (F : Frames) (fuel : Nat) (start : Option Nat) (searchingOrder : Nat) :
    Nat → State → Option Nat → Except Fault (Option State)
  | 0, _, _ => .error .outOfFuel
  | n + 1, s, pgd =>
    match pgd with
    | none => pure none
    | some q => do
      let pfn ← pgd_to_pfn (some q)
      let intStart ← pgd_to_pfn start
      let endOfBlock := pfn + (← blockPages searchingOrder)
      if intOrd intStart < intOrd endOfBlock ∧ intStart ≥ q then do
        let (_, s1) ← splitDown F fuel 0 searchingOrder s (some q)
        pure (some s1)
      else splitUntillPoint.scan F fuel start searchingOrder n s (s.next_free q)

/-- The `for (searchingOrder = 0; searchingOrder <= MAX_ORDER; searchingOrder++)`
loop of `splitUntillPoint`; the first argument counts the remaining iterations. -/
def splitUntillPoint.forLoop (F : Frames) (fuel : Nat) (start : Option Nat) :
    Nat → Nat → State → Except Fault State
  | 0, _, s => pure s
  | n + 1, searchingOrder, s => do
    let head ← s.load (.area searchingOrder)
    match (← splitUntillPoint.scan F fuel start searchingOrder fuel s head) with
    | some s1 => pure s1
    | none => splitUntillPoint.forLoop F fuel start n (searchingOrder + 1) s

/-- The function `splitUntillPoint`. -/
def splitUntillPoint (F : Frames) (s : State) (start : Option Nat) (fuel : Nat) :
    Except Fault State :=
  splitUntillPoint.forLoop F fuel start (MAX_ORDER + 1) 0 s

/-- The first loop of `remove_page_range`:
`while (count > 1) { splitUntillPoint(start); removeFree(start, 0); start++; count--; }`. -/
def remove_page_range.carve (F : Frames) (fuel : Nat) :
    Nat → State → Nat → Nat → Except Fault (State × Nat)
  | 0, _, _, _ => .error .outOfFuel
  | n + 1, s, start, count =>
    if count > 1 then do
      let s1 ← splitUntillPoint F s (some start) fuel
      let s2 ← removeFree s1 (some start) 0 fuel
      remove_page_range.carve F fuel n s2 (start + 1) (count - 1)
    else pure (s, start)

/-- The `while (pgd != NULL) { mergingOfPgd(pgd, i); pgd = pgd->next_free; }`
walk of `remove_page_range`. -/
def remove_page_range.walk (F : Frames) (fuel : Nat) (i : Nat) :
    Nat → State → Option Nat → Except Fault State
  | 0, _, _ => .error .outOfFuel
  | n + 1, s, pgd =>
    match pgd with
    | none => pure s
    | some q => do
      let s1 ← mergingOfPgd F s (some q) i fuel
      remove_page_range.walk F fuel i n s1 (s1.next_free q)

/-- The `for (unsigned i = 0; i < MAX_ORDER - 1; i++)` loop of
`remove_page_range`; the first argument counts the remaining iterations. -/
def remove_page_range.coalesce (F : Frames) (fuel : Nat) : Nat → Nat → State → Except Fault State
  | 0, _, s => pure s
  | n + 1, i, s => do
    let head ← s.load (.area i)
    let s1 ← remove_page_range.walk F fuel i fuel s head
    remove_page_range.coalesce F fuel n (i + 1) s1

/-- The function `remove_page_range`, for a non-null `start`. -/
def remove_page_range (F : Frames) (s : State) (start : Nat) (count : Nat) (fuel : Nat) :
    Except Fault State := do
  let (s1, start1) ← remove_page_range.carve F fuel fuel s start count
  let start2 := start1 + 1
  let s2 ← removeFree s1 (some start2) 0 fuel
  remove_page_range.coalesce F fuel (MAX_ORDER - 1) 0 s2

/-- The function `init`: the store after the call and the returned flag. -/
def init (s : State) (page_descriptors : Option Nat) (nr_page_descriptors : Nat) : State × Bool :=
  ({ s with _free_areas := Function.update s._free_areas (MAX_ORDER - 1) page_descriptors },
    decide (nr_page_descriptors > 0) && decide (page_descriptors ≠ none))

/-! ## Reading a store -/

/-- Follow `next_free` links from `head`, collecting the descriptors met;
`none` when the walk does not reach null within `fuel` steps. -/
def walkList (next : Nat → Option Nat) : Nat → Option Nat → Option (List Nat)
  | 0, _ => none
  | _ + 1, none => some []
  | n + 1, some p => (walkList next n (next p)).map (p :: ·)

/-- The free list of one order, as the list of starting frame numbers. -/
def State.freeList (s : State) (fuel : Nat) (order : Nat) : Option (List Nat) :=
  walkList s.next_free fuel (s._free_areas order)

/-- All `MAX_ORDER + 1` free lists. -/
def State.dump (s : State) (fuel : Nat) : List (Option (List Nat)) :=
  (List.range (MAX_ORDER + 1)).map (s.freeList fuel)

/-- A store with the given heads and every `next_free` null. -/
def State.seed (heads : Nat → Option Nat) : State :=
  { _free_areas := heads, next_free := fun _ => none }

/-- Every frame has a descriptor of type `AVAILABLE`. -/
def Frames.all : Frames :=
  { present := fun _ => true, type := fun _ => PageDescriptorType.AVAILABLE }

/-! ## Free lists as lists -/

/-- The predicate `Chain next head l`: following `next` from `head` meets exactly the
descriptors of `l`, in order, and then null. -/
def Chain (next : Nat → Option Nat) : Option Nat → List Nat → Prop
  | h, [] => h = none
  | h, p :: l => h = some p ∧ Chain next (next p) l

/-- The store `s` holds the free lists `L`: for every order of the array,
`_free_areas[order]` heads a null-terminated chain listing `L order`. -/
def Models (s : State) (L : Nat → List Nat) : Prop :=
  ∀ j, j ≤ MAX_ORDER → Chain s.next_free (s._free_areas j) (L j)

/-- The last element of `r :: l`. -/
def lastLink : Nat → List Nat → Nat
  | r, [] => r
  | _, x :: l => lastLink x l

/-- The slot reached from `slot` after stepping over every descriptor of `l`. -/
def lastSlot (slot : Slot) : List Nat → Slot
  | [] => slot
  | r :: l => .link (lastLink r l)

/-! ## Well-formed free lists -/

/-- The frame `f` lies in the block of `2 ^ order` frames that starts at `p`. -/
def InBlock (p order f : Nat) : Prop :=
  p ≤ f ∧ f < p + 2 ^ order

/-- Alignment invariant: every block on free list `j` starts at a multiple of
`2 ^ j`. -/
def Aligned (L : Nat → List Nat) : Prop :=
  ∀ j, j ≤ MAX_ORDER → ∀ p, p ∈ L j → 2 ^ j ∣ p

/-- Disjointness invariant: no descriptor is listed twice on a free list, and
a frame that lies in two free-list entries lies in one and the same entry. -/
def DisjointBlocks (L : Nat → List Nat) : Prop :=
  (∀ j, j ≤ MAX_ORDER → (L j).Nodup) ∧
  ∀ i j p q f, i ≤ MAX_ORDER → j ≤ MAX_ORDER → p ∈ L i → q ∈ L j →
    InBlock p i f → InBlock q j f → i = j ∧ p = q

/-- A well-formed collection of free lists: aligned, pairwise disjoint blocks
whose starting descriptor has type `AVAILABLE`, whose frames all have a
descriptor, and which start below frame `2 ^ 31`, so that the `int` of
`buddy_of` holds every frame number the allocator computes from them. -/
structure WellFormed (F : Frames) (L : Nat → List Nat) : Prop where
  aligned : Aligned L
  disjoint : DisjointBlocks L
  available : ∀ j, j ≤ MAX_ORDER → ∀ p, p ∈ L j → F.type p = PageDescriptorType.AVAILABLE
  present : ∀ j, j ≤ MAX_ORDER → ∀ p, p ∈ L j → ∀ f, InBlock p j f → F.present f = true
  bounded : ∀ j, j ≤ MAX_ORDER → ∀ p, p ∈ L j → p < 2 ^ 31

/-! ## Concrete stores -/

/-- Free lists holding the single block `p` on free list `k`. -/
def oneBlock (k p : Nat) : Nat → List Nat :=
  fun j => if j = k then [p] else []

/-- The store with the single block `p` on free list `k` and every
`next_free` null. -/
def State.single (k p : Nat) : State :=
  State.seed (fun j => if j = k then some p else none)

/-! ## The blocks chosen by `insert_page_range` -/

/-- The `(start, order_Count)` pairs that the successive iterations of the
outer loop of `insert_page_range` pass to `insertFree`: the loop of
`insert_page_range.loop` with the store left out. -/
def insert_page_range.blocks : Nat → Nat → Nat → List (Nat × Nat)
  | 0, _, _ => []
  | n + 1, start, count =>
    if count > 0 then
      match insert_page_range.pick (some start) count MAX_ORDER with
      | .ok order_Count =>
        (start, order_Count) ::
          insert_page_range.blocks n (start + 2 ^ order_Count) (count - 2 ^ order_Count)
      | .error _ => []
    else []

/-- A greedy partition of `count` frames from `start`: each block starts where
the previous one ended, is aligned to its order, fits in the remaining count,
has the largest order at most `MAX_ORDER` with these two properties, and the
blocks use up the count exactly. -/
def GreedyPartition : Nat → Nat → List (Nat × Nat) → Prop
  | _, count, [] => count = 0
  | start, count, b :: bs =>
    b.1 = start ∧ b.2 ≤ MAX_ORDER ∧ 2 ^ b.2 ≤ count ∧ 2 ^ b.2 ∣ b.1 ∧
      (∀ o, o ≤ MAX_ORDER → 2 ^ o ≤ count → 2 ^ o ∣ b.1 → o ≤ b.2) ∧
      GreedyPartition (start + 2 ^ b.2) (count - 2 ^ b.2) bs

/-! ## Membership of a free list in an arbitrary store -/

/-- The descriptor `p` is on free list `j` of the store: it is reachable from
`_free_areas[j]` through `next_free` links. -/
inductive OnFreeList (s : State) (j : Nat) : Nat → Prop where
  | head {p : Nat} : s._free_areas j = some p → OnFreeList s j p
  | next {p q : Nat} : OnFreeList s j p → s.next_free p = some q → OnFreeList s j q

/-! ## Free-frame total -/

/-- The free-frame total: the sum over the orders `j` of `2 ^ j` times the
number of blocks on free list `j`. -/
def freeFrames (L : Nat → List Nat) : Nat :=
  Finset.sum (Finset.range (MAX_ORDER + 1)) (fun j => 2 ^ j * (L j).length)

/-- Free lists holding the two order-1 buddies 0 and 2 on free list 1. -/
def twoBlocks : Nat → List Nat :=
  fun j => if j = 1 then [0, 2] else []

/-- The store with the two order-1 buddies 0 and 2 on free list 1. -/
def State.buddies : State :=
  { _free_areas := fun j => if j = 1 then some 0 else none,
    next_free := fun p => if p = 0 then some 2 else none }

/-- Free lists holding block 1 on free list 0 and block 2 on free list 1. -/
def stepBlocks : Nat → List Nat :=
  fun j => if j = 0 then [1] else if j = 1 then [2] else []

/-- The store with block 1 on free list 0 and block 2 on free list 1. -/
def State.steps : State :=
  State.seed (fun j => if j = 0 then some 1 else if j = 1 then some 2 else none)

/-! ## Stores outside the invariants -/

/-- The descriptor `p` is met within two steps of a walk of free list `i`: it
is the head of the list or the `next_free` of the head. -/
def Near (s : State) (i p : Nat) : Prop :=
  s._free_areas i = some p ∨
    ∃ o, o ≠ p ∧ s._free_areas i = some o ∧ s.next_free o = some p

/-- Only the frames 0 and 1 have a descriptor; both are `AVAILABLE`. -/
def Frames.pair : Frames :=
  { present := fun p => decide (p < 2), type := fun _ => PageDescriptorType.AVAILABLE }

/-- Free lists 0 and 1 both holding the one descriptor 0. -/
def sharedBlocks : Nat → List Nat :=
  fun j => if j ≤ 1 then [0] else []

/-- The store whose heads `_free_areas[0]` and `_free_areas[1]` both point to
descriptor 0, with every `next_free` null. -/
def State.shared : State :=
  State.seed (fun j => if j ≤ 1 then some 0 else none)

/-- The function `buddy_of` at a signed `order`, as the source declares it
(`int order`). A negative order fails `assert(order <= MAX_ORDER && order >= 0)`
in `checkOrder`, which `alignment` calls before it reads the descriptor. -/
def buddy_of.signed (F : Frames) (pgd : Option Nat) (order : Int) :
    Except Fault (Option Nat) :=
  if order < 0 then .error .assertion else buddy_of F pgd order.toNat

/-- Only the frames 0, 1 and `2 ^ 32` have a descriptor; all are `AVAILABLE`. -/
def Frames.wrapped : Frames :=
  { present := fun p => decide (p = 0 ∨ p = 1 ∨ p = 2 ^ 32),
    type := fun _ => PageDescriptorType.AVAILABLE }

/-- Free lists holding block 1 on free list 0 and block 0 on free list 1. -/
def crossedBlocks : Nat → List Nat :=
  fun j => if j = 0 then [1] else if j = 1 then [0] else []

/-- The store with block 1 on free list 0 and block 0 on free list 1. -/
def State.crossed : State :=
  State.seed (fun j => if j = 0 then some 1 else if j = 1 then some 0 else none)

end Buddy

/-!
# Priority scheduler (`coursework/sched-mq.cpp`)

A shallow embedding of `MultipleQueuePriorityScheduler::pick_next_entity`.
A scheduling entity is identified by a natural number. The external `List`
of the kernel is a Lean list used as a FIFO queue: `enqueue` appends at the
tail, `dequeue` pops the head, `last` reads the tail. The interrupt lock
`UniqueIRQLock` and logging are left out.
-/

namespace MultipleQueuePriorityScheduler

/-- The five queues of the scheduler. -/
structure Queues where
  runqueue : List Nat
  realtime : List Nat
  interactive : List Nat
  normal : List Nat
  daemon : List Nat
  deriving DecidableEq

/-- The external `List::enqueue`: append at the tail. -/
def enqueue (q : List Nat) (e : Nat) : List Nat :=
  q ++ [e]

/-- The external `List::dequeue`: pop the head; `none` on an empty queue. -/
def dequeue : List Nat → Option (Nat × List Nat)
  | [] => none
  | e :: q => some (e, q)

/-- The external `List::last`: the element at the tail. -/
def last (q : List Nat) : Option Nat :=
  q.getLast?

/-- The statement pair `q.enqueue(q.dequeue()); return q.last();`: the
rotated queue and the returned entity. -/
def rotate (q : List Nat) : List Nat × Option Nat :=
  match dequeue q with
  | none => (q, last q)
  | some (e, q1) => (enqueue q1 e, last (enqueue q1 e))

/-- The function `pick_next_entity`: the returned entity (null is `none`) and
the queues after the call. -/
def pick_next_entity (s : Queues) : Option Nat × Queues :=
  if s.runqueue.isEmpty then (none, s)
  else if !s.realtime.isEmpty then
    ((rotate s.realtime).2, { s with realtime := (rotate s.realtime).1 })
  else if !s.interactive.isEmpty then
    ((rotate s.interactive).2, { s with interactive := (rotate s.interactive).1 })
  else if !s.normal.isEmpty then
    ((rotate s.normal).2, { s with normal := (rotate s.normal).1 })
  else if !s.daemon.isEmpty then
    ((rotate s.daemon).2, { s with daemon := (rotate s.daemon).1 })
  else (none, s)

/-- The entities returned by `n` consecutive calls of `pick_next_entity`, and
the queues after them. -/
def picks : Nat → Queues → List (Option Nat) × Queues
  | 0, s => ([], s)
  | n + 1, s =>
    ((pick_next_entity s).1 :: (picks n (pick_next_entity s).2).1,
      (picks n (pick_next_entity s).2).2)

end MultipleQueuePriorityScheduler

namespace Buddy

/-! ## Basic facts -/

theorem checkOrder_ok {k : Nat} (h : k ≤ MAX_ORDER) : checkOrder k = .ok () := by
  simp [checkOrder, h]

theorem blockPages_ok {k : Nat} (h : k ≤ MAX_ORDER) : blockPages k = .ok (2 ^ k) := by
  simp [blockPages, checkOrder, h, Nat.shiftLeft_eq, bind, Except.bind, pure, Except.pure]

theorem alignment_ok {k : Nat} (p : Nat) (h : k ≤ MAX_ORDER) :
    alignment (some p) k = .ok (decide (2 ^ k ∣ p)) := by
  have e : (p % 2 ^ k == 0) = decide (2 ^ k ∣ p) := by
    rw [Bool.eq_iff_iff]; simp [Nat.dvd_iff_mod_eq_zero]
  simp [alignment, blockPages, checkOrder, pgd_to_pfn, h, Nat.shiftLeft_eq, bind, Except.bind, pure, Except.pure, e]

theorem intToPfn_of_lt {v : Nat} (h : v < 2 ^ 31) : intToPfn v = v := by
  have h1 : v % 2 ^ 32 = v := Nat.mod_eq_of_lt (lt_trans h (by norm_num))
  unfold intToPfn
  rw [h1, if_pos h]

theorem intToPfn_mod (v : Nat) : intToPfn v % 2 ^ 32 = v % 2 ^ 32 := by
  unfold intToPfn
  split
  · exact Nat.mod_mod _ _
  · have e : (2 : Nat) ^ 64 - 2 ^ 32 = 2 ^ 32 * (2 ^ 32 - 1) := by norm_num
    rw [e, Nat.add_mul_mod_self_left, Nat.mod_mod]

theorem buddy_of_eq (F : Frames) {k : Nat} (p : Nat) (h : k < MAX_ORDER) (ha : 2 ^ k ∣ p) :
    buddy_of F (some p) k
      = .ok (pfn_to_pgd F (intToPfn (if 2 ^ (k + 1) ∣ p then p + 2 ^ k else p - 2 ^ k))) := by
  have h1 : k ≤ MAX_ORDER := Nat.le_of_lt h
  have h2 : k + 1 ≤ MAX_ORDER := h
  by_cases hd : 2 ^ (k + 1) ∣ p <;>
    simp [buddy_of, alignment_ok p h1, alignment_ok p h2, blockPages_ok h1, pgd_to_pfn, ha, hd,
      bind, Except.bind, pure, Except.pure]

/-- Below frame `2 ^ 31` the buddy frame number of an aligned block is below
`2 ^ 31` as well. -/
theorem buddy_lt {k p : Nat} (h : k < MAX_ORDER) (hp : p < 2 ^ 31) :
    (if 2 ^ (k + 1) ∣ p then p + 2 ^ k else p - 2 ^ k) < 2 ^ 31 := by
  by_cases hd : 2 ^ (k + 1) ∣ p
  · simp only [hd, if_true]
    have hk : k + 1 ≤ 31 := by unfold MAX_ORDER at h; omega
    obtain ⟨c, rfl⟩ := hd
    have e : (2 : Nat) ^ 31 = 2 ^ (k + 1) * 2 ^ (31 - (k + 1)) := by
      rw [← pow_add]; congr 1; omega
    rw [e] at hp ⊢
    have hc : c < 2 ^ (31 - (k + 1)) := Nat.lt_of_mul_lt_mul_left hp
    have h2 : (2 : Nat) ^ k < 2 ^ (k + 1) := Nat.pow_lt_pow_right (by decide) (Nat.lt_succ_self k)
    calc 2 ^ (k + 1) * c + 2 ^ k < 2 ^ (k + 1) * c + 2 ^ (k + 1) := by omega
      _ = 2 ^ (k + 1) * (c + 1) := by ring
      _ ≤ 2 ^ (k + 1) * 2 ^ (31 - (k + 1)) := Nat.mul_le_mul_left _ hc
  · simp only [hd, if_false]
    omega

theorem buddy_of_ok (F : Frames) {k : Nat} (p : Nat) (h : k < MAX_ORDER) (ha : 2 ^ k ∣ p)
    (hp : p < 2 ^ 31) :
    buddy_of F (some p) k
      = .ok (pfn_to_pgd F (if 2 ^ (k + 1) ∣ p then p + 2 ^ k else p - 2 ^ k)) := by
  rw [buddy_of_eq F p h ha, intToPfn_of_lt (buddy_lt h hp)]

/-! ## Chains of `next_free` links -/

theorem Chain.update_of_not_mem {next : Nat → Option Nat} {q : Nat} (v : Option Nat) :
    ∀ {l : List Nat} {h : Option Nat}, q ∉ l → Chain next h l →
      Chain (Function.update next q v) h l
  | [], _, _, hc => hc
  | p :: l, _, hq, hc => by
    have hpq : p ≠ q := fun e => hq (by simp [e])
    have hq' : q ∉ l := fun e => hq (List.mem_cons_of_mem _ e)
    refine ⟨hc.1, ?_⟩
    rw [Function.update_noteq hpq]
    exact Chain.update_of_not_mem v hq' hc.2

theorem Chain.unique {next : Nat → Option Nat} :
    ∀ {l l' : List Nat} {h : Option Nat}, Chain next h l → Chain next h l' → l = l'
  | [], [], _, _, _ => rfl
  | [], _ :: _, _, h1, h2 => by
    have h1' : _ = none := h1
    rw [h1'] at h2; exact absurd h2.1 (by simp)
  | _ :: _, [], _, h1, h2 => by
    have h2' : _ = none := h2
    rw [h2'] at h1; exact absurd h1.1 (by simp)
  | p :: l, q :: l', _, h1, h2 => by
    have e : p = q := by
      have := h1.1.symm.trans h2.1
      exact Option.some.inj this
    subst e
    rw [Chain.unique h1.2 h2.2]

theorem Chain.after {next : Nat → Option Nat} {q : Nat} {l2 : List Nat} :
    ∀ (l1 : List Nat) {h : Option Nat}, Chain next h (l1 ++ q :: l2) → Chain next (next q) l2
  | [], _, hc => hc.2
  | _ :: l1, _, hc => Chain.after l1 hc.2

theorem Chain.not_mem_tail {next : Nat → Option Nat} {p : Nat} {l : List Nat} {h : Option Nat}
    (hc : Chain next h (p :: l)) : p ∉ l := by
  intro hp
  obtain ⟨l1, l2, e⟩ := List.append_of_mem hp
  have h1 : Chain next (next p) l := hc.2
  have h2 : Chain next (next p) l2 := by
    rw [e] at h1; exact Chain.after _ h1
  have e2 := Chain.unique h1 h2
  have : l.length = l2.length := by rw [← e2]
  rw [e] at this
  simp at this
  omega

theorem Chain.nodup {next : Nat → Option Nat} :
    ∀ {l : List Nat} {h : Option Nat}, Chain next h l → l.Nodup
  | [], _, _ => List.nodup_nil
  | _ :: _, _, hc => List.nodup_cons.mpr ⟨Chain.not_mem_tail hc, Chain.nodup hc.2⟩

/-! ## `insertFree` and `removeFree` on modelled stores -/

theorem lastLink_mem (r : Nat) (l : List Nat) : lastLink r l ∈ r :: l := by
  induction l generalizing r with
  | nil => simp [lastLink]
  | cons x l ih =>
    simp only [lastLink]
    exact List.mem_cons_of_mem _ (ih x)

theorem removeFree_loop_spec (s : State) (p : Nat) (l2 : List Nat) :
    ∀ (l1 : List Nat) (slot : Slot) (h : Option Nat) (fuel : Nat),
      s.load slot = .ok h → Chain s.next_free h (l1 ++ p :: l2) → p ∉ l1 → l1.length < fuel →
      removeFree.loop s (some p) fuel slot = .ok (lastSlot slot l1)
  | [], slot, h, fuel, hl, hc, _, hf => by
    obtain ⟨n, rfl⟩ : ∃ n, fuel = n + 1 := ⟨fuel - 1, by simp at hf; omega⟩
    have hh : h = some p := hc.1
    simp [removeFree.loop, hl, hh, lastSlot, bind, Except.bind, pure, Except.pure]
  | r :: l1, slot, h, fuel, hl, hc, hp, hf => by
    obtain ⟨n, rfl⟩ : ∃ n, fuel = n + 1 := ⟨fuel - 1, by simp at hf; omega⟩
    have hh : h = some r := hc.1
    have hpr : p ≠ r := fun e => hp (by simp [e])
    have hp' : p ∉ l1 := fun e => hp (List.mem_cons_of_mem _ e)
    have ih := removeFree_loop_spec s p l2 l1 (.link r) (s.next_free r) n rfl hc.2 hp'
      (by simp at hf; omega)
    simp only [removeFree.loop, hl, hh, bind, Except.bind]
    simp only [ne_eq, Option.some.injEq, hpr, not_false_eq_true, if_true, ih]
    cases l1 <;> simp [lastSlot, lastLink]

theorem Chain.unlink {next : Nat → Option Nat} {p : Nat} {l2 : List Nat} :
    ∀ (l1 : List Nat) (r : Nat), Chain next (some r) (r :: l1 ++ p :: l2) →
      (r :: l1 ++ p :: l2).Nodup →
      Chain (Function.update (Function.update next (lastLink r l1) (next p)) p none)
        (some r) (r :: l1 ++ l2)
  | [], r, hc, hn => by
    have hrp : r ≠ p := by
      intro e; subst e; simp at hn
    have hr2 : r ∉ l2 := by
      intro e; simp at hn; exact hn.1.2 e
    have hp2 : p ∉ l2 := by
      intro e; simp at hn; exact hn.2.1 e
    refine ⟨rfl, ?_⟩
    simp only [lastLink]
    rw [Function.update_noteq hrp, Function.update_same]
    exact Chain.update_of_not_mem _ hp2 (Chain.update_of_not_mem _ hr2 (Chain.after [r] hc))
  | x :: l1, r, hc, hn => by
    have hn' : (x :: l1 ++ p :: l2).Nodup := (List.nodup_cons.mp hn).2
    have hrp : r ≠ p := by
      intro e; subst e; simp at hn
    have hrl : r ≠ lastLink x l1 := by
      intro e
      have hm := lastLink_mem x l1
      rw [← e] at hm
      have : r ∉ x :: l1 ++ p :: l2 := (List.nodup_cons.mp hn).1
      exact this (by
        rw [List.cons_append]
        exact List.mem_append_left _ hm)
    refine ⟨rfl, ?_⟩
    simp only [lastLink]
    rw [Function.update_noteq hrp, Function.update_noteq hrl]
    have hx : next r = some x := hc.2.1
    rw [hx]
    have hc' : Chain next (some x) (x :: l1 ++ p :: l2) := by
      have := hc.2
      rw [hx] at this
      exact this
    exact Chain.unlink l1 x hc' hn'

theorem insertFree_spec {s : State} {L : Nat → List Nat} {p j fuel : Nat}
    (hM : Models s L) (hj : j ≤ MAX_ORDER) (hp : ∀ i, i ≤ MAX_ORDER → p ∉ L i) (hf : 0 < fuel) :
    ∃ s', insertFree s (some p) j fuel = .ok s' ∧ Models s' (Function.update L j (p :: L j)) := by
  obtain ⟨n, rfl⟩ : ∃ n, fuel = n + 1 := ⟨fuel - 1, by omega⟩
  have hc := hM j hj
  have hloop : insertFree.loop s (some p) (n + 1) (.area j) = .ok (.area j) := by
    cases hl : L j with
    | nil =>
      rw [hl] at hc
      have hh : s._free_areas j = none := hc
      simp [insertFree.loop, State.load, hj, hh, bind, Except.bind, pure, Except.pure]
    | cons q l =>
      rw [hl] at hc
      have hh : s._free_areas j = some q := hc.1
      have hpq : p ≠ q := by
        intro e
        exact hp j hj (by rw [hl, e]; simp)
      simp [insertFree.loop, State.load, hj, hh, hpq, bind, Except.bind, pure, Except.pure]
  refine ⟨_, by
    simp only [insertFree, hloop, State.load, hj, if_true, pgd_to_pfn, State.store, bind,
      Except.bind]; rfl, ?_⟩
  intro i hi
  by_cases hij : i = j
  · subst hij
    simp only [State.setNext, Function.update_same]
    exact ⟨rfl, by
      rw [Function.update_same]
      exact Chain.update_of_not_mem _ (hp i hi) hc⟩
  · simp only [State.setNext, Function.update_noteq hij]
    exact Chain.update_of_not_mem _ (hp i hi) (hM i hi)

theorem removeFree_spec {s : State} {L : Nat → List Nat} {p j fuel : Nat} {l1 l2 : List Nat}
    (hM : Models s L) (hj : j ≤ MAX_ORDER) (hl : L j = l1 ++ p :: l2)
    (hsep : ∀ i, i ≤ MAX_ORDER → i ≠ j → ∀ q, q ∈ l1 ++ [p] → q ∉ L i)
    (hf : l1.length < fuel) :
    ∃ s', removeFree s (some p) j fuel = .ok s' ∧ Models s' (Function.update L j (l1 ++ l2)) := by
  have hc := hM j hj
  rw [hl] at hc
  have hn := Chain.nodup hc
  have hp1 : p ∉ l1 := by
    intro e
    have := List.nodup_append.mp hn
    exact this.2.2 e (by simp)
  have hp2 : p ∉ l2 := by
    have := (List.nodup_append.mp hn).2.1
    exact (List.nodup_cons.mp this).1
  have hloop := removeFree_loop_spec s p l2 l1 (.area j) (s._free_areas j) fuel
    (by simp [State.load, hj]) hc hp1 hf
  cases l1 with
  | nil =>
    refine ⟨_, by
      simp only [removeFree, hloop, lastSlot, pgd_to_pfn, State.store, hj, if_true, bind,
        Except.bind, pure, Except.pure]; rfl, ?_⟩
    intro i hi
    by_cases hij : i = j
    · subst hij
      simp only [State.setNext, Function.update_same, List.nil_append]
      exact Chain.update_of_not_mem _ hp2 hc.2
    · simp only [State.setNext, Function.update_noteq hij]
      exact Chain.update_of_not_mem _ (hsep i hi hij p (by simp)) (hM i hi)
  | cons r l1 =>
    refine ⟨_, by
      simp only [removeFree, hloop, lastSlot, pgd_to_pfn, State.store, bind,
        Except.bind, pure, Except.pure]; rfl, ?_⟩
    intro i hi
    by_cases hij : i = j
    · subst hij
      simp only [State.setNext, Function.update_same]
      have hh : s._free_areas i = some r := hc.1
      rw [hh]
      rw [hh] at hc
      exact Chain.unlink l1 r hc hn
    · simp only [State.setNext, Function.update_noteq hij]
      have hlast : lastLink r l1 ∉ L i :=
        hsep i hi hij _ (List.mem_append_left _ (lastLink_mem r l1))
      exact Chain.update_of_not_mem _ (hsep i hi hij p (by simp))
        (Chain.update_of_not_mem _ hlast (hM i hi))

/-! ## `split_block` and the split loop -/

theorem pow_dvd_of_succ {l p : Nat} (h : 2 ^ (l + 1) ∣ p) : 2 ^ l ∣ p :=
  Dvd.dvd.trans (pow_dvd_pow 2 (Nat.le_succ l)) h

theorem split_block_spec {F : Frames} {s : State} {L : Nat → List Nat} {p l fuel : Nat}
    {l1 l2 : List Nat}
    (hM : Models s L) (hl : l + 1 ≤ MAX_ORDER) (hL : L (l + 1) = l1 ++ p :: l2)
    (hal : 2 ^ (l + 1) ∣ p) (hty : F.type p = PageDescriptorType.AVAILABLE)
    (hpr : F.present (p + 2 ^ l) = true)
    (hsep : ∀ i, i ≤ MAX_ORDER → i ≠ l + 1 → ∀ q, q ∈ l1 ++ [p] → q ∉ L i)
    (hother : ∀ i, i ≤ MAX_ORDER → p + 2 ^ l ∉ L i)
    (hf : l1.length < fuel) (hp31 : p < 2 ^ 31) :
    ∃ s', split_block F s (some p) (l + 1) fuel = .ok (some p, s') ∧
      Models s' (Function.update (Function.update L (l + 1) (l1 ++ l2)) l
        ((p + 2 ^ l) :: p :: L l)) := by
  have hl0 : l ≤ MAX_ORDER := by omega
  have hl1 : l < MAX_ORDER := by omega
  have hne : l ≠ l + 1 := by omega
  have hfpos : 0 < fuel := by omega
  have hn : (l1 ++ p :: l2).Nodup := by
    have := Chain.nodup (hM (l + 1) hl)
    rwa [hL] at this
  have hp12 : p ∉ l1 ++ l2 := by
    intro e
    rcases List.mem_append.mp e with e | e
    · exact (List.nodup_append.mp hn).2.2 e (by simp)
    · exact (List.nodup_cons.mp (List.nodup_append.mp hn).2.1).1 e
  obtain ⟨s1, h1, hM1⟩ := removeFree_spec hM hl hL hsep hf
  have hp1 : ∀ i, i ≤ MAX_ORDER → p ∉ Function.update L (l + 1) (l1 ++ l2) i := by
    intro i hi
    by_cases hi' : i = l + 1
    · subst hi'; rw [Function.update_same]; exact hp12
    · rw [Function.update_noteq hi']; exact hsep i hi hi' p (by simp)
  obtain ⟨s2, h2, hM2⟩ := insertFree_spec hM1 hl0 hp1 hfpos
  have ho2 : ∀ i, i ≤ MAX_ORDER →
      p + 2 ^ l ∉ Function.update (Function.update L (l + 1) (l1 ++ l2)) l
        (p :: Function.update L (l + 1) (l1 ++ l2) l) i := by
    intro i hi
    have hpos : 0 < 2 ^ l := Nat.two_pow_pos l
    by_cases hi0 : i = l
    · subst hi0
      rw [Function.update_same, Function.update_noteq hne]
      intro e
      rcases List.mem_cons.mp e with e | e
      · omega
      · exact hother i hi e
    · rw [Function.update_noteq hi0]
      by_cases hi' : i = l + 1
      · subst hi'
        rw [Function.update_same]
        intro e
        apply hother (l + 1) hi
        rw [hL]
        rcases List.mem_append.mp e with e | e
        · exact List.mem_append_left _ e
        · exact List.mem_append_right _ (List.mem_cons_of_mem _ e)
      · rw [Function.update_noteq hi']; exact hother i hi
  obtain ⟨s3, h3, hM3⟩ := insertFree_spec hM2 hl0 ho2 hfpos
  have hdv : 2 ^ l ∣ p := pow_dvd_of_succ hal
  refine ⟨s3, ?_, ?_⟩
  · simp [split_block, alignment_ok p hl, hal, pgd_to_pfn, hty, buddy_of_ok F p hl1 hdv hp31,
      pfn_to_pgd, hpr, h1, h2, h3, bind, Except.bind, pure, Except.pure]
  · have e : Function.update (Function.update L (l + 1) (l1 ++ l2)) l
        ((p + 2 ^ l) :: p :: L l) =
        Function.update (Function.update (Function.update L (l + 1) (l1 ++ l2)) l
          (p :: Function.update L (l + 1) (l1 ++ l2) l)) l
          ((p + 2 ^ l) :: Function.update (Function.update L (l + 1) (l1 ++ l2)) l
          (p :: Function.update L (l + 1) (l1 ++ l2) l) l) := by
      simp [Function.update_noteq hne]
    rw [e]; exact hM3

theorem Models.congr {s : State} {L L' : Nat → List Nat} (hM : Models s L)
    (h : ∀ j, j ≤ MAX_ORDER → L j = L' j) : Models s L' := by
  intro j hj
  rw [← h j hj]; exact hM j hj

/-- Splitting the block `p` of free list `order + n` down to `order` and then
taking it off free list `order`: the free list `order + n` loses `p`, and each
free list in between receives the upper half `p + 2 ^ j`. -/
theorem splitDown_removeFree_spec {F : Frames} {p order fuel : Nat}
    (hty : F.type p = PageDescriptorType.AVAILABLE) (hf2 : 2 ≤ fuel) (hp31 : p < 2 ^ 31) :
    ∀ (n : Nat) (s : State) (L : Nat → List Nat) (l1 l2 : List Nat),
      Models s L → order + n ≤ MAX_ORDER → L (order + n) = l1 ++ p :: l2 →
      (∀ j, order ≤ j → j < order + n → L j = []) →
      (∀ i, i ≤ MAX_ORDER → i ≠ order + n → ∀ q, q ∈ l1 ++ [p] → q ∉ L i) →
      (∀ i, i ≤ MAX_ORDER → ∀ j, order ≤ j → j < order + n → p + 2 ^ j ∉ L i) →
      2 ^ (order + n) ∣ p →
      (∀ j, order ≤ j → j < order + n → F.present (p + 2 ^ j) = true) →
      l1.length < fuel →
      ∃ s1 s2, splitDown F fuel order n s (some p) = .ok (some p, s1) ∧
        removeFree s1 (some p) order fuel = .ok s2 ∧
        Models s2 (fun j => if j = order + n then l1 ++ l2
          else if order ≤ j ∧ j < order + n then [p + 2 ^ j] else L j)
  | 0, s, L, l1, l2, hM, hk, hL, _, hsep, _, _, _, hf => by
    obtain ⟨s2, h2, hM2⟩ := removeFree_spec hM hk hL hsep hf
    refine ⟨s, s2, rfl, h2, hM2.congr ?_⟩
    intro j _
    by_cases hj : j = order + 0
    · subst hj; simp
    · rw [Function.update_noteq hj, if_neg hj, if_neg (by omega)]
  | n + 1, s, L, l1, l2, hM, hk, hL, hempty, hsep, hhalf, hal, hpr, hf => by
    have hk' : (order + n) + 1 ≤ MAX_ORDER := hk
    have hL' : L (order + n + 1) = l1 ++ p :: l2 := hL
    have hlow : L (order + n) = [] := hempty _ (by omega) (by omega)
    obtain ⟨s1, h1, hM1⟩ := split_block_spec (F := F) (l := order + n) hM hk' hL hal hty
      (hpr _ (by omega) (by omega)) hsep (fun i hi => hhalf i hi _ (by omega) (by omega)) hf
      hp31
    rw [hlow] at hM1
    have hn : (l1 ++ p :: l2).Nodup := by
      have := Chain.nodup (hM (order + n + 1) hk)
      rwa [hL'] at this
    have hp12 : p ∉ l1 ++ l2 := by
      intro e
      rcases List.mem_append.mp e with e | e
      · exact (List.nodup_append.mp hn).2.2 e (by simp)
      · exact (List.nodup_cons.mp (List.nodup_append.mp hn).2.1).1 e
    have hsub : ∀ q, q ∈ l1 ++ l2 → q ∈ L (order + n + 1) := by
      intro q e
      rw [hL']
      rcases List.mem_append.mp e with e | e
      · exact List.mem_append_left _ e
      · exact List.mem_append_right _ (List.mem_cons_of_mem _ e)
    have hne : order + n ≠ order + n + 1 := by omega
    obtain ⟨s2, s3, h2, h3, hM3⟩ := splitDown_removeFree_spec hty hf2 hp31 n s1 _
      [p + 2 ^ (order + n)] [] hM1 (by omega) (by simp)
      (by
        intro j hj1 hj2
        rw [Function.update_noteq (by omega), Function.update_noteq (by omega)]
        exact hempty j hj1 (by omega))
      (by
        intro i hi hin q hq
        rw [Function.update_noteq hin]
        have hq' : q = p + 2 ^ (order + n) ∨ q = p := by simpa using hq
        by_cases hi' : i = order + n + 1
        · subst hi'
          rw [Function.update_same]
          intro e
          rcases hq' with rfl | rfl
          · exact hhalf _ hi (order + n) (by omega) (by omega) (hsub _ e)
          · exact hp12 e
        · rw [Function.update_noteq hi']
          rcases hq' with rfl | rfl
          · exact hhalf i hi (order + n) (by omega) (by omega)
          · exact hsep i hi hi' q (by simp))
      (by
        intro i hi j hj1 hj2
        have hpos : 0 < 2 ^ j := Nat.two_pow_pos j
        have hlt : 2 ^ j < 2 ^ (order + n) := Nat.pow_lt_pow_right (by decide) hj2
        by_cases hin : i = order + n
        · subst hin
          rw [Function.update_same]
          intro e
          have : p + 2 ^ j = p + 2 ^ (order + n) ∨ p + 2 ^ j = p := by simpa using e
          omega
        · rw [Function.update_noteq hin]
          by_cases hi' : i = order + n + 1
          · subst hi'
            rw [Function.update_same]
            intro e
            exact hhalf _ hi j hj1 (by omega) (hsub _ e)
          · rw [Function.update_noteq hi']
            exact hhalf i hi j hj1 (by omega))
      (pow_dvd_of_succ hal)
      (fun j hj1 hj2 => hpr j hj1 (by omega))
      (by simpa using hf2)
    refine ⟨s2, s3, ?_, h3, hM3.congr ?_⟩
    · simp only [splitDown, h1, bind, Except.bind]
      exact h2
    · intro j _
      by_cases hj1 : j = order + n
      · subst hj1
        simp
      · by_cases hj2 : j = order + (n + 1)
        · subst hj2
          rw [if_neg hj1, if_neg (by omega), Function.update_noteq hj1]
          simp only [if_true]
          exact Function.update_same _ _ _
        · have hj2' : j ≠ order + n + 1 := hj2
          rw [if_neg hj1, if_neg hj2, Function.update_noteq hj1, Function.update_noteq hj2']
          by_cases hj3 : order ≤ j ∧ j < order + n
          · rw [if_pos hj3, if_pos ⟨hj3.1, by omega⟩]
          · rw [if_neg hj3, if_neg (by omega)]

/-! ## `allocate_pages` -/

theorem search_found (s : State) {k : Nat} (hk : k ≤ MAX_ORDER) (hne : s._free_areas k ≠ none) :
    ∀ (n t : Nat), t ≤ k → k - t ≤ n → (∀ j, t ≤ j → j < k → s._free_areas j = none) →
      allocate_pages.search s n t = .ok k
  | 0, t, h1, h2, _ => by
    have : t = k := by omega
    subst this; rfl
  | n + 1, t, h1, h2, h3 => by
    have ht : t ≤ MAX_ORDER := le_trans h1 hk
    by_cases htk : t = k
    · subst htk
      simp only [allocate_pages.search, State.load, ht, if_true, bind, Except.bind, hne, if_false]
      exact search_found s hk hne n t (le_refl _) (by omega) (fun j a b => absurd b (by omega))
    · have hnone := h3 t (le_refl _) (by omega)
      simp only [allocate_pages.search, State.load, ht, if_true, bind, Except.bind, hnone]
      exact search_found s hk hne n (t + 1) (by omega) (by omega)
        (fun j a b => h3 j (by omega) b)

theorem search_exhausted (s : State) :
    ∀ (n t : Nat), t + n = MAX_ORDER + 1 →
      (∀ j, t ≤ j → j ≤ MAX_ORDER → s._free_areas j = none) →
      allocate_pages.search s n t = .ok (MAX_ORDER + 1)
  | 0, t, h1, _ => by
    have : t = MAX_ORDER + 1 := by omega
    subst this; rfl
  | n + 1, t, h1, h2 => by
    have ht : t ≤ MAX_ORDER := by omega
    have hnone := h2 t (le_refl _) ht
    simp only [allocate_pages.search, State.load, ht, if_true, bind, Except.bind, hnone]
    exact search_exhausted s n (t + 1) (by omega) (fun j a b => h2 j (by omega) b)

theorem DisjointBlocks.sep {L : Nat → List Nat} (hD : DisjointBlocks L) {i j p : Nat}
    (hi : i ≤ MAX_ORDER) (hj : j ≤ MAX_ORDER) (hij : i ≠ j) (hp : p ∈ L j) : p ∉ L i := by
  intro e
  have hpos : 0 < 2 ^ i := Nat.two_pow_pos i
  have hpos' : 0 < 2 ^ j := Nat.two_pow_pos j
  exact hij (hD.2 i j p p p hi hj e hp ⟨le_refl _, by omega⟩ ⟨le_refl _, by omega⟩).1

theorem DisjointBlocks.inner {L : Nat → List Nat} (hD : DisjointBlocks L) {i k p d : Nat}
    (hi : i ≤ MAX_ORDER) (hk : k ≤ MAX_ORDER) (hp : p ∈ L k) (hd0 : 0 < d) (hd : d < 2 ^ k) :
    p + d ∉ L i := by
  intro e
  have hpos : 0 < 2 ^ i := Nat.two_pow_pos i
  have := (hD.2 i k (p + d) p (p + d) hi hk e hp ⟨le_refl _, by omega⟩ ⟨by omega, by omega⟩).2
  omega

/-- What `allocate_pages(order)` does on a well-formed store whose smallest
non-empty free list at or above `order` is `k`, with head `p`. -/
theorem allocate_pages_spec {F : Frames} {s : State} {L : Nat → List Nat}
    {order k p fuel : Nat} {tail : List Nat}
    (hM : Models s L) (hW : WellFormed F L) (hok : order ≤ k) (hk : k ≤ MAX_ORDER)
    (hmin : ∀ j, order ≤ j → j < k → L j = []) (hhead : L k = p :: tail) (hf : 2 ≤ fuel) :
    ∃ s', allocate_pages F s order fuel = .ok (some p, s') ∧
      Models s' (fun j => if j = k then tail
        else if order ≤ j ∧ j < k then [p + 2 ^ j] else L j) := by
  obtain ⟨n, rfl⟩ : ∃ n, k = order + n := ⟨k - order, by omega⟩
  have hpk : p ∈ L (order + n) := by rw [hhead]; simp
  have hheadk : s._free_areas (order + n) = some p := by
    have := hM _ hk
    rw [hhead] at this
    exact this.1
  have hsearch : allocate_pages.search s (MAX_ORDER + 1 - order) order = .ok (order + n) := by
    apply search_found s hk (by rw [hheadk]; simp) _ _ (by omega) (by omega)
    intro j hj1 hj2
    have := hM j (by omega)
    rw [hmin j hj1 hj2] at this
    exact this
  obtain ⟨s1, s2, h1, h2, hM2⟩ := splitDown_removeFree_spec
    (hW.available _ hk p hpk) hf (hW.bounded _ hk p hpk) n s L [] tail hM hk
    (by simpa using hhead) hmin
    (by
      intro i hi hin q hq
      have : q = p := by simpa using hq
      subst this
      exact hW.disjoint.sep hi hk hin hpk)
    (by
      intro i hi j hj1 hj2
      exact hW.disjoint.inner hi hk hpk (Nat.two_pow_pos j)
        (Nat.pow_lt_pow_right (by decide) hj2))
    (hW.aligned _ hk p hpk)
    (by
      intro j hj1 hj2
      have hlt : 2 ^ j < 2 ^ (order + n) := Nat.pow_lt_pow_right (by decide) hj2
      have hpos : 0 < 2 ^ j := Nat.two_pow_pos j
      exact hW.present _ hk p hpk _ ⟨by omega, by omega⟩)
    (by simp; omega)
  refine ⟨s2, ?_, hM2.congr (fun j _ => by simp)⟩
  have hsub : order + n - order = n := by omega
  simp only [allocate_pages, checkOrder_ok (show order ≤ MAX_ORDER by omega), hsearch,
    State.load, hk, if_true, hheadk, hsub, h1, h2, bind, Except.bind, pure, Except.pure]

theorem models_single (k p : Nat) : Models (State.single k p) (oneBlock k p) := by
  intro j _
  by_cases h : j = k <;> simp [State.single, State.seed, oneBlock, h, Chain]

theorem wellFormed_oneBlock {k p : Nat} (h : 2 ^ k ∣ p) (hp31 : p < 2 ^ 31) :
    WellFormed Frames.all (oneBlock k p) where
  aligned := by
    intro j _ q hq
    by_cases hj : j = k
    · subst hj
      have : q = p := by simpa [oneBlock] using hq
      subst this; exact h
    · simp [oneBlock, hj] at hq
  disjoint := by
    refine ⟨?_, ?_⟩
    · intro j _
      by_cases hj : j = k <;> simp [oneBlock, hj]
    · intro i j a b f _ _ ha hb _ _
      by_cases hi : i = k
      · by_cases hj : j = k
        · subst hi; subst hj
          have h1 : a = p := by simpa [oneBlock] using ha
          have h2 : b = p := by simpa [oneBlock] using hb
          exact ⟨rfl, h1.trans h2.symm⟩
        · simp [oneBlock, hj] at hb
      · simp [oneBlock, hi] at ha
  available := fun _ _ _ _ => rfl
  present := fun _ _ _ _ _ _ => rfl
  bounded := by
    intro j _ q hq
    by_cases hj : j = k
    · subst hj
      have : q = p := by simpa [oneBlock] using hq
      subst this; exact hp31
    · simp [oneBlock, hj] at hq

/-- C1, amended. On a well-formed store (aligned, pairwise disjoint free
blocks of type `AVAILABLE`, below frame `2 ^ 31`, every frame of which has a
descriptor), when `k` is the smallest order at or above
`order` with a non-empty free list and `p` is the head of that list,
`allocate_pages(order)` returns the descriptor of `p`; afterwards free list
`k` is its old tail, every free list `j` with `order ≤ j < k` holds exactly
the block starting at `p + 2 ^ j`, every other free list is unchanged, and `p`
is on no free list. -/
theorem allocate_pages_effect {F : Frames} {s : State} {L : Nat → List Nat}
    {order k p fuel : Nat} {tail : List Nat}
    (hM : Models s L) (hW : WellFormed F L) (hok : order ≤ k) (hk : k ≤ MAX_ORDER)
    (hmin : ∀ j, order ≤ j → j < k → L j = []) (hhead : L k = p :: tail) (hf : 2 ≤ fuel) :
    ∃ s' L', allocate_pages F s order fuel = .ok (some p, s') ∧ Models s' L' ∧
      L' k = tail ∧
      (∀ j, order ≤ j → j < k → L' j = [p + 2 ^ j]) ∧
      (∀ j, j ≤ MAX_ORDER → j < order ∨ k < j → L' j = L j) ∧
      (∀ j, j ≤ MAX_ORDER → p ∉ L' j) := by
  obtain ⟨s', h, hM'⟩ := allocate_pages_spec hM hW hok hk hmin hhead hf
  have hpk : p ∈ L k := by rw [hhead]; simp
  refine ⟨s', _, h, hM', by simp, ?_, ?_, ?_⟩
  · intro j h1 h2
    simp [h1, h2, Nat.ne_of_lt h2]
  · intro j _ h1
    have h2 : j ≠ k := by omega
    have h3 : ¬ (order ≤ j ∧ j < k) := by omega
    simp [h2, h3]
  · intro j hj
    by_cases h1 : j = k
    · subst h1
      simp only [if_true]
      have := hW.disjoint.1 j hj
      rw [hhead] at this
      exact (List.nodup_cons.mp this).1
    · by_cases h2 : order ≤ j ∧ j < k
      · simp only [h1, h2, if_false, and_self, if_true]
        have := Nat.two_pow_pos j
        simp
      · simp only [h1, h2, if_false]
        exact hW.disjoint.sep hj hk h1 hpk

/-- C1, amended, at the seeded store: one block at frame 0 on free list 17;
`allocate_pages(0)` returns frame 0 and leaves the block `2 ^ j` on every free
list `j < 17`. -/
theorem allocate_pages_effect_seeded :
    ∃ s' L', allocate_pages Frames.all (State.single 17 0) 0 2 = .ok (some 0, s') ∧
      Models s' L' ∧ L' 17 = [] ∧
      (∀ j, 0 ≤ j → j < 17 → L' j = [0 + 2 ^ j]) ∧
      (∀ j, j ≤ MAX_ORDER → j < 0 ∨ 17 < j → L' j = oneBlock 17 0 j) ∧
      (∀ j, j ≤ MAX_ORDER → 0 ∉ L' j) :=
  allocate_pages_effect (models_single 17 0) (wellFormed_oneBlock (dvd_zero _) (by norm_num)) (Nat.zero_le _)
    (by decide) (fun j _ h => by simp [oneBlock, Nat.ne_of_lt h]) rfl (le_refl _)

/-! ## The merge driver stops after one merge -/

/-- C2, at the seeded store (one block at frame 0 on free list 17):
`allocate_pages(0)` returns frame 0, and `free_pages(frame 0, 0)` right after
it merges once and returns. The store then holds the blocks 0 and 2 on free
list 1 and one block on each of the free lists 2 to 16, while free list 17,
which held the only block before the allocation, is empty. The round trip
does not restore the store. -/
theorem allocate_free_round_trip_seeded :
    ∃ s1 s2, allocate_pages Frames.all (State.single 17 0) 0 3 = .ok (some 0, s1) ∧
      free_pages Frames.all s1 (some 0) 0 3 = .ok s2 ∧
      (State.single 17 0).dump 3 =
        [some [], some [], some [], some [], some [], some [], some [], some [], some [],
         some [], some [], some [], some [], some [], some [], some [], some [], some [0],
         some []] ∧
      s2.dump 3 =
        [some [], some [0, 2], some [4], some [8], some [16], some [32], some [64],
         some [128], some [256], some [512], some [1024], some [2048], some [4096],
         some [8192], some [16384], some [32768], some [65536], some [], some []] :=
  ⟨_, _, rfl, rfl, rfl, rfl⟩

/-- C3, with block 1 free at order 0 and block 2 free at order 1:
`free_pages(frame 0, 0)` merges frames 0 and 1 into the order-1 block 0 and
returns, although the buddy of that block at order 1, block 2, is on free
list 1 and order 1 is below `MAX_ORDER`. The merge does not cascade. -/
theorem free_pages_stops_after_one_merge :
    ∃ s', free_pages Frames.all
        (State.seed (fun j => if j = 0 then some 1 else if j = 1 then some 2 else none))
        (some 0) 0 3 = .ok s' ∧
      s'.dump 3 =
        [some [], some [0, 2], some [], some [], some [], some [], some [], some [], some [],
         some [], some [], some [], some [], some [], some [], some [], some [], some [],
         some []] ∧
      buddy_of Frames.all (some 0) 1 = .ok (some 2) :=
  ⟨_, rfl, rfl, rfl⟩

/-! ## Exhaustion -/

/-- C4. When every free list from `order` to `MAX_ORDER` is empty,
`allocate_pages(order)` does not return null: its order search ends at
`MAX_ORDER + 1` and the next statement reads `_free_areas[MAX_ORDER + 1]`,
outside the array. -/
theorem allocate_pages_exhausted {F : Frames} {s : State} {order : Nat} (fuel : Nat)
    (ho : order ≤ MAX_ORDER)
    (hempty : ∀ j, order ≤ j → j ≤ MAX_ORDER → s._free_areas j = none) :
    allocate_pages F s order fuel = .error Fault.outOfBounds := by
  have hs := search_exhausted s (MAX_ORDER + 1 - order) order (by omega) hempty
  have hn : ¬ (MAX_ORDER + 1 ≤ MAX_ORDER) := by omega
  simp only [allocate_pages, checkOrder_ok ho, hs, State.load, hn, if_false, bind, Except.bind]

/-- C4 on the empty store at order 0. -/
theorem allocate_pages_exhausted_empty :
    allocate_pages Frames.all (State.seed (fun _ => none)) 0 3 = .error Fault.outOfBounds :=
  allocate_pages_exhausted 3 (Nat.zero_le _) (fun _ _ _ => rfl)

/-! ## `merge_block` and the split/merge inverse law -/

theorem buddy_low_aligned {O b : Nat} (h1 : 2 ^ O ∣ b) (h2 : ¬ 2 ^ (O + 1) ∣ b) :
    2 ^ O ≤ b ∧ 2 ^ (O + 1) ∣ b - 2 ^ O := by
  obtain ⟨m, rfl⟩ := h1
  have hpos : 0 < 2 ^ O := Nat.two_pow_pos O
  rcases Nat.even_or_odd m with ⟨t, ht⟩ | ⟨t, ht⟩
  · exfalso
    apply h2
    refine ⟨t, ?_⟩
    rw [ht, pow_succ]; ring
  · subst ht
    refine ⟨Nat.le_mul_of_pos_right _ (by omega), ⟨t, ?_⟩⟩
    have : 2 ^ O * (2 * t + 1) = 2 ^ (O + 1) * t + 2 ^ O := by rw [pow_succ]; ring
    rw [this, Nat.add_sub_cancel]

theorem mem_of_mem_remove {α : Type} {l1 l2 : List α} {p q : α} (h : q ∈ l1 ++ l2) :
    q ∈ l1 ++ p :: l2 := by
  rcases List.mem_append.mp h with e | e
  · exact List.mem_append_left _ e
  · exact List.mem_append_right _ (List.mem_cons_of_mem _ e)

theorem not_mem_remove_of_nodup {α : Type} {l1 l2 : List α} {p : α}
    (hn : (l1 ++ p :: l2).Nodup) : p ∉ l1 ++ l2 := by
  intro e
  rcases List.mem_append.mp e with e | e
  · exact (List.nodup_append.mp hn).2.2 e (by simp)
  · exact (List.nodup_cons.mp (List.nodup_append.mp hn).2.1).1 e

/-- What `merge_block(b, O)` does when `b` and its buddy are both on free list
`O`: both leave that list and the lower of the two joins free list `O + 1`. -/
theorem merge_block_spec {F : Frames} {s : State} {L : Nat → List Nat} {b O fuel : Nat}
    {l1 l2 m1 m2 : List Nat}
    (hM : Models s L) (hO : O < MAX_ORDER) (hal : 2 ^ O ∣ b)
    (hpr : F.present (if 2 ^ (O + 1) ∣ b then b + 2 ^ O else b - 2 ^ O) = true)
    (hL : L O = l1 ++ b :: l2)
    (hL2 : l1 ++ l2 = m1 ++ (if 2 ^ (O + 1) ∣ b then b + 2 ^ O else b - 2 ^ O) :: m2)
    (hsep : ∀ i, i ≤ MAX_ORDER → i ≠ O → ∀ q, q ∈ L O → q ∉ L i)
    (hf1 : l1.length < fuel) (hf2 : m1.length < fuel) (hb31 : b < 2 ^ 31) :
    ∃ s', merge_block F s (some b) O fuel
        = .ok (some (if 2 ^ (O + 1) ∣ b then b else b - 2 ^ O), s') ∧
      Models s' (Function.update (Function.update L O (m1 ++ m2)) (O + 1)
        ((if 2 ^ (O + 1) ∣ b then b else b - 2 ^ O) :: L (O + 1))) := by
  have hO0 : O ≤ MAX_ORDER := by omega
  have hO1 : O + 1 ≤ MAX_ORDER := hO
  have hO2 : O ≤ MAX_ORDER - 1 := by omega
  have hne : O + 1 ≠ O := by omega
  have hfpos : 0 < fuel := by omega
  have hn : (l1 ++ b :: l2).Nodup := by
    have := Chain.nodup (hM O hO0)
    rwa [hL] at this
  generalize hbud : (if 2 ^ (O + 1) ∣ b then b + 2 ^ O else b - 2 ^ O) = bud at hpr hL2
  obtain ⟨s1, h1, hM1⟩ := removeFree_spec hM hO0 hL
    (fun i hi hin q hq => hsep i hi hin q (by
      rw [hL]
      rcases List.mem_append.mp hq with e | e
      · exact List.mem_append_left _ e
      · have : q = b := by simpa using e
        subst this; simp)) hf1
  have hbudL : ∀ q, q ∈ m1 ++ [bud] → q ∈ L O := by
    intro q hq
    rw [hL]
    apply mem_of_mem_remove
    rw [hL2]
    rcases List.mem_append.mp hq with e | e
    · exact List.mem_append_left _ e
    · have : q = bud := by simpa using e
      subst this; simp
  have hL1 : Function.update L O (l1 ++ l2) O = m1 ++ bud :: m2 := by
    rw [Function.update_same]; exact hL2
  obtain ⟨s2, h2, hM2⟩ := removeFree_spec hM1 hO0 hL1
    (fun i hi hin q hq => by
      rw [Function.update_noteq hin]
      exact hsep i hi hin q (hbudL q hq)) hf2
  rw [Function.update_idem] at hM2
  have hn2 : (m1 ++ bud :: m2).Nodup := by
    have := Chain.nodup (hM1 O hO0)
    rwa [hL1] at this
  have hlowmem : ∀ low, low = b ∨ low = bud → ∀ i, i ≤ MAX_ORDER →
      low ∉ Function.update L O (m1 ++ m2) i := by
    intro low hlow i hi
    by_cases hi' : i = O
    · subst hi'
      rw [Function.update_same]
      rcases hlow with rfl | rfl
      · intro e
        apply not_mem_remove_of_nodup hn
        rw [hL2]; exact mem_of_mem_remove e
      · exact not_mem_remove_of_nodup hn2
    · rw [Function.update_noteq hi']
      apply hsep i hi hi'
      rcases hlow with rfl | rfl
      · rw [hL]; simp
      · exact hbudL _ (by simp)
  by_cases hlo : 2 ^ (O + 1) ∣ b
  · obtain ⟨s3, h3, hM3⟩ := insertFree_spec hM2 hO1 (hlowmem b (Or.inl rfl)) hfpos
    rw [Function.update_noteq hne] at hM3
    simp only [hlo, if_true] at hbud
    refine ⟨s3, ?_, by simpa [hlo] using hM3⟩
    simp [merge_block, hO2, alignment_ok b hO0, alignment_ok b hO1, hal, hlo,
      buddy_of_ok F b hO hal hb31, pfn_to_pgd, hbud, hpr, h1, h2, h3, bind, Except.bind, pure,
      Except.pure]
  · obtain ⟨s3, h3, hM3⟩ := insertFree_spec hM2 hO1 (hlowmem bud (Or.inr rfl)) hfpos
    rw [Function.update_noteq hne] at hM3
    simp only [hlo, if_false] at hbud
    have hbl := (buddy_low_aligned hal hlo).2
    rw [hbud] at hbl
    refine ⟨s3, ?_, by simpa [hlo, hbud] using hM3⟩
    simp [merge_block, hO2, alignment_ok b hO0, alignment_ok b hO1, alignment_ok bud hO1, hal,
      hlo, hbl, buddy_of_ok F b hO hal hb31, pfn_to_pgd, hbud, hpr, h1, h2, h3, bind,
      Except.bind, pure, Except.pure]

theorem tooBig_ok (p count : Nat) {k : Nat} (hk : k ≤ MAX_ORDER) :
    insert_page_range.tooBig (some p) count k
      = .ok (decide (count < 2 ^ k) || !decide (2 ^ k ∣ p)) := by
  by_cases h : count < 2 ^ k
  · simp [insert_page_range.tooBig, blockPages_ok hk, h, bind, Except.bind, pure, Except.pure]
  · simp [insert_page_range.tooBig, blockPages_ok hk, alignment_ok p hk, h, bind, Except.bind,
      pure, Except.pure]

/-- The order search of `insert_page_range` started at `k` stops at the
largest order at most `k` that fits the count and is aligned; it never steps
below order 0. -/
theorem pick_spec (p count : Nat) (hc : 0 < count) :
    ∀ k, k ≤ MAX_ORDER → ∃ o, insert_page_range.pick (some p) count k = .ok o ∧ o ≤ k ∧
      2 ^ o ≤ count ∧ 2 ^ o ∣ p ∧ ∀ o', o' ≤ k → 2 ^ o' ≤ count → 2 ^ o' ∣ p → o' ≤ o
  | 0, hk => by
    refine ⟨0, ?_, le_refl _, by simpa using hc, by simp, fun o' h _ _ => h⟩
    have h1 : ¬ count < 1 := by omega
    simp [insert_page_range.pick, tooBig_ok p count hk, h1, bind, Except.bind, pure, Except.pure]
  | k + 1, hk => by
    by_cases h : 2 ^ (k + 1) ≤ count ∧ 2 ^ (k + 1) ∣ p
    · refine ⟨k + 1, ?_, le_refl _, h.1, h.2, fun o' h' _ _ => h'⟩
      have h1 : ¬ count < 2 ^ (k + 1) := by omega
      simp [insert_page_range.pick, tooBig_ok p count hk, h1, h.2, bind, Except.bind, pure,
        Except.pure]
    · obtain ⟨o, h1, h2, h3, h4, h5⟩ := pick_spec p count hc k (by omega)
      refine ⟨o, ?_, by omega, h3, h4, ?_⟩
      · have hb : (decide (count < 2 ^ (k + 1)) || !decide (2 ^ (k + 1) ∣ p)) = true := by
          by_cases hlt : count < 2 ^ (k + 1)
          · simp [hlt]
          · have : ¬ 2 ^ (k + 1) ∣ p := fun e => h ⟨by omega, e⟩
            simp [this]
        simp only [insert_page_range.pick, tooBig_ok p count hk, hb, bind, Except.bind, if_true]
        exact h1
      · intro o' ho' hc' hd'
        by_cases he : o' = k + 1
        · subst he; exact absurd ⟨hc', hd'⟩ h
        · exact h5 o' (by omega) hc' hd'

theorem loop_eq_foldlM (fuel : Nat) :
    ∀ (n : Nat) (s : State) (start count : Nat), count < n →
      insert_page_range.loop fuel n s (some start) count
        = (insert_page_range.blocks n start count).foldlM
            (fun st b => insertFree st (some b.1) b.2 fuel) s
  | 0, _, _, _, h => absurd h (by omega)
  | n + 1, s, start, count, h => by
    by_cases hc : 0 < count
    · obtain ⟨o, h1, h2, h3, h4, _⟩ := pick_spec start count hc MAX_ORDER (le_refl _)
      have hpos : 0 < 2 ^ o := Nat.two_pow_pos o
      simp only [insert_page_range.loop, insert_page_range.blocks, gt_iff_lt, hc, if_true, h1,
        alignment_ok start h2, h4, decide_True, Bool.not_true, blockPages_ok h2, bind,
        Except.bind, List.foldlM_cons]
      cases hi : insertFree s (some start) o fuel with
      | error e => rfl
      | ok s1 =>
        simp only [Bool.false_eq_true, if_false, Option.map_some']
        exact loop_eq_foldlM fuel n s1 (start + 2 ^ o) (count - 2 ^ o) (by omega)
    · have : count = 0 := by omega
      subst this
      simp [insert_page_range.loop, insert_page_range.blocks, pure, Except.pure]

theorem blocks_greedy :
    ∀ (n start count : Nat), count < n →
      GreedyPartition start count (insert_page_range.blocks n start count) ∧
      ((insert_page_range.blocks n start count).map (fun b => 2 ^ b.2)).sum = count
  | 0, _, _, h => absurd h (by omega)
  | n + 1, start, count, h => by
    by_cases hc : 0 < count
    · obtain ⟨o, h1, h2, h3, h4, h5⟩ := pick_spec start count hc MAX_ORDER (le_refl _)
      have hpos : 0 < 2 ^ o := Nat.two_pow_pos o
      have ih := blocks_greedy n (start + 2 ^ o) (count - 2 ^ o) (by omega)
      simp only [insert_page_range.blocks, gt_iff_lt, hc, if_true, h1]
      refine ⟨⟨rfl, h2, h3, h4, h5, ih.1⟩, ?_⟩
      simp only [List.map_cons, List.sum_cons, ih.2]
      omega
    · have : count = 0 := by omega
      subst this
      simp [insert_page_range.blocks, GreedyPartition]


/-- C6. The call `insert_page_range(start, count)` is the sequence of
`insertFree` calls on the blocks `(p_i, o_i)` of a greedy partition:
`p_0 = start`, `p_{i+1} = p_i + 2 ^ o_i`, every `p_i` is divisible by
`2 ^ o_i`, every `o_i` is the largest order at most `MAX_ORDER` with `2 ^ o_i`
at most the remaining count and `p_i` divisible by `2 ^ o_i`, and the sizes
`2 ^ o_i` sum to `count`. The order search never steps below order 0: for a
positive count it returns an order instead of failing `checkOrder`. -/
theorem insert_page_range_greedy (s : State) (start count fuel : Nat) (hf : count < fuel) :
    insert_page_range s (some start) count fuel
      = (insert_page_range.blocks fuel start count).foldlM
          (fun st b => insertFree st (some b.1) b.2 fuel) s ∧
    GreedyPartition start count (insert_page_range.blocks fuel start count) ∧
    ((insert_page_range.blocks fuel start count).map (fun b => 2 ^ b.2)).sum = count ∧
    (∀ p c, 0 < c → ∃ o, insert_page_range.pick (some p) c MAX_ORDER = .ok o) :=
  ⟨loop_eq_foldlM fuel fuel s start count hf, (blocks_greedy fuel start count hf).1,
    (blocks_greedy fuel start count hf).2,
    fun p c hc => (pick_spec p c hc MAX_ORDER (le_refl _)).imp (fun _ h => h.1)⟩

/-- C6 for `start = 0`, `count = 3` on the empty store: block 0 at order 1,
then block 2 at order 0. -/
theorem insert_page_range_greedy_three :
    insert_page_range.blocks 4 0 3 = [(0, 1), (2, 0)] ∧
    (∃ s', insert_page_range (State.seed (fun _ => none)) (some 0) 3 4 = .ok s' ∧
      s'.freeList 4 0 = some [2] ∧ s'.freeList 4 1 = some [0] ∧ s'.freeList 4 2 = some []) ∧
    (insert_page_range (State.seed (fun _ => none)) (some 0) 3 4
      = (insert_page_range.blocks 4 0 3).foldlM
          (fun st b => insertFree st (some b.1) b.2 4) (State.seed (fun _ => none)) ∧
    GreedyPartition 0 3 (insert_page_range.blocks 4 0 3) ∧
    ((insert_page_range.blocks 4 0 3).map (fun b => 2 ^ b.2)).sum = 3 ∧
    (∀ p c, 0 < c → ∃ o, insert_page_range.pick (some p) c MAX_ORDER = .ok o)) :=
  ⟨by decide, ⟨_, rfl, rfl, rfl, rfl⟩, insert_page_range_greedy _ 0 3 4 (by decide)⟩

/-! ## `remove_page_range` -/

/-- C7, with the single frames 1 and 2 free at order 0:
`remove_page_range(1, 1)` leaves frame 1, the only frame of the range, on
free list 0 and takes frame 2, the first frame after the range, off it. -/
theorem remove_page_range_off_by_one :
    ∃ s', remove_page_range Frames.all
        { _free_areas := fun j => if j = 0 then some 1 else none,
          next_free := fun p => if p = 1 then some 2 else none } 1 1 3 = .ok s' ∧
      State.dump { _free_areas := fun j => if j = 0 then some 1 else none,
                   next_free := fun p => if p = 1 then some 2 else none } 3 =
        [some [1, 2], some [], some [], some [], some [], some [], some [], some [], some [],
         some [], some [], some [], some [], some [], some [], some [], some [], some [],
         some []] ∧
      s'.dump 3 =
        [some [1], some [], some [], some [], some [], some [], some [], some [], some [],
         some [], some [], some [], some [], some [], some [], some [], some [], some [],
         some []] :=
  ⟨_, rfl, rfl, rfl⟩

/-! ## Alignment of allocated blocks -/

theorem search_ge (s : State) :
    ∀ (n t r : Nat), allocate_pages.search s n t = .ok r → t ≤ r
  | 0, t, r, h => by
    have : t = r := by simpa [allocate_pages.search, pure, Except.pure] using h
    omega
  | n + 1, t, r, h => by
    simp only [allocate_pages.search, bind, Except.bind] at h
    cases hl : s.load (.area t) with
    | error e => rw [hl] at h; simp at h
    | ok head =>
      rw [hl] at h
      have := search_ge s n _ r h
      split at this <;> omega

theorem split_block_result {F : Frames} {s s1 : State} {pgd r : Option Nat} {i fuel : Nat}
    (h : split_block F s pgd i fuel = .ok (r, s1)) : r = none ∨ r = pgd := by
  unfold split_block at h
  simp only [bind, Except.bind, pure, Except.pure] at h
  cases ha : alignment pgd i with
  | error e => rw [ha] at h; simp at h
  | ok a =>
    rw [ha] at h
    cases a with
    | false =>
      simp at h
      exact Or.inl h.1.symm
    | true =>
      simp only [Bool.not_true, Bool.false_eq_true, if_false] at h
      cases hp : pgd_to_pfn pgd with
      | error e => rw [hp] at h; simp at h
      | ok o =>
        rw [hp] at h
        simp only at h
        split at h
        · simp at h
          exact Or.inl h.1.symm
        · cases i with
          | zero => simp at h
          | succ l =>
            simp only at h
            cases hb : buddy_of F pgd l with
            | error e => rw [hb] at h; simp at h
            | ok other =>
              rw [hb] at h
              simp only at h
              cases h1 : removeFree s pgd (l + 1) fuel with
              | error e => rw [h1] at h; simp at h
              | ok s1 =>
                rw [h1] at h
                simp only at h
                cases h2 : insertFree s1 pgd l fuel with
                | error e => rw [h2] at h; simp at h
                | ok s2 =>
                  rw [h2] at h
                  simp only at h
                  cases h3 : insertFree s2 other l fuel with
                  | error e => rw [h3] at h; simp at h
                  | ok s3 =>
                    rw [h3] at h
                    simp at h
                    exact Or.inr h.1.symm

theorem alignment_null (i : Nat) : ∀ a, alignment none i ≠ .ok a := by
  intro a h
  unfold alignment at h
  simp only [bind, Except.bind, pgd_to_pfn] at h
  cases hc : checkOrder i with
  | error e => rw [hc] at h; simp at h
  | ok u => rw [hc] at h; simp at h

theorem split_block_null {F : Frames} {s : State} {i fuel : Nat} :
    ∀ x, split_block F s none i fuel ≠ .ok x := by
  intro x h
  unfold split_block at h
  simp only [bind, Except.bind] at h
  cases ha : alignment none i with
  | error e => rw [ha] at h; simp at h
  | ok a => exact alignment_null i a ha

theorem splitDown_result {F : Frames} {fuel lo : Nat} :
    ∀ (n : Nat) (s s1 : State) (pgd r : Option Nat),
      splitDown F fuel lo n s pgd = .ok (r, s1) → r = pgd ∨ (r = none ∧ n ≠ 0)
  | 0, s, s1, pgd, r, h => by
    simp [splitDown, pure, Except.pure] at h
    exact Or.inl h.1.symm
  | n + 1, s, s1, pgd, r, h => by
    simp only [splitDown, bind, Except.bind] at h
    cases hs : split_block F s pgd (lo + n + 1) fuel with
    | error e => rw [hs] at h; simp at h
    | ok x =>
      obtain ⟨r1, s2⟩ := x
      rw [hs] at h
      simp only at h
      rcases split_block_result hs with e | e
      · subst e
        cases n with
        | zero =>
          simp [splitDown, pure, Except.pure] at h
          exact Or.inr ⟨h.1.symm, by simp⟩
        | succ m =>
          simp only [splitDown, bind, Except.bind] at h
          cases hs2 : split_block F s2 none (lo + m + 1) fuel with
          | error e => rw [hs2] at h; simp at h
          | ok y => exact absurd hs2 (split_block_null y)
      · subst e
        rcases splitDown_result n s2 s1 r1 r h with e | e
        · exact Or.inl e
        · exact Or.inr ⟨e.1, by simp⟩


theorem removeFree_null {s : State} {j fuel : Nat} : ∀ x, removeFree s none j fuel ≠ .ok x := by
  intro x h
  unfold removeFree at h
  simp only [bind, Except.bind, pgd_to_pfn] at h
  cases hl : removeFree.loop s none fuel (.area j) with
  | error e => rw [hl] at h; simp at h
  | ok slot => rw [hl] at h; simp at h

/-- A block returned by `allocate_pages(order)` is the head of a free list
whose order is at least `order`. -/
theorem allocate_pages_result {F : Frames} {s s' : State} {order fuel b : Nat}
    (h : allocate_pages F s order fuel = .ok (some b, s')) :
    ∃ k, order ≤ k ∧ k ≤ MAX_ORDER ∧ s._free_areas k = some b := by
  unfold allocate_pages at h
  simp only [bind, Except.bind, pure, Except.pure] at h
  cases hc : checkOrder order with
  | error e => rw [hc] at h; simp at h
  | ok u =>
    rw [hc] at h
    simp only at h
    cases hs : allocate_pages.search s (MAX_ORDER + 1 - order) order with
    | error e => rw [hs] at h; simp at h
    | ok k =>
      rw [hs] at h
      simp only at h
      have hk := search_ge s _ _ _ hs
      by_cases hk2 : k ≤ MAX_ORDER
      · simp only [State.load, hk2, if_true] at h
        cases hd : splitDown F fuel order (k - order) s (s._free_areas k) with
        | error e => rw [hd] at h; simp at h
        | ok x =>
          obtain ⟨r, s1⟩ := x
          rw [hd] at h
          simp only at h
          cases hr : removeFree s1 r order fuel with
          | error e => rw [hr] at h; simp at h
          | ok s2 =>
            rw [hr] at h
            simp at h
            have hb : r = some b := h.1
            rcases splitDown_result _ _ _ _ _ hd with e | e
            · exact ⟨k, hk, hk2, by rw [← e, hb]⟩
            · rw [e.1] at hb; simp at hb
      · simp [State.load, hk2] at h

/-- C10. In a store where every block on a free list `j` starts at a frame
number divisible by `2 ^ j`, a non-null block returned by
`allocate_pages(order)` starts at a frame number divisible by `2 ^ order`. -/
theorem allocate_pages_aligned {F : Frames} {s s' : State} {order fuel b : Nat}
    (hA : ∀ j, j ≤ MAX_ORDER → ∀ p, OnFreeList s j p → 2 ^ j ∣ p)
    (h : allocate_pages F s order fuel = .ok (some b, s')) : 2 ^ order ∣ b := by
  obtain ⟨k, h1, h2, h3⟩ := allocate_pages_result h
  exact Dvd.dvd.trans (pow_dvd_pow 2 h1) (hA k h2 b (OnFreeList.head h3))


theorem onFreeList_single {k p j q : Nat} (h : OnFreeList (State.single k p) j q) :
    j = k ∧ q = p := by
  induction h with
  | head h0 =>
    by_cases hj : j = k
    · simp [State.single, State.seed, hj] at h0
      exact ⟨hj, h0.symm⟩
    · simp [State.single, State.seed, hj] at h0
  | next _ h1 _ => simp [State.single, State.seed] at h1

/-- C10 on the store whose only free block is block 8 of order 3:
`allocate_pages(1)` returns frame 8, which is divisible by `2 ^ 1`. -/
theorem allocate_pages_aligned_single :
    ∃ s', allocate_pages Frames.all (State.single 3 8) 1 2 = .ok (some 8, s') ∧ 2 ^ 1 ∣ 8 := by
  obtain ⟨s', h⟩ : ∃ s', allocate_pages Frames.all (State.single 3 8) 1 2 = .ok (some 8, s') :=
    ⟨_, rfl⟩
  refine ⟨s', h, allocate_pages_aligned ?_ h⟩
  intro j _ q hq
  obtain ⟨rfl, rfl⟩ := onFreeList_single hq
  decide

/-! ## `free_pages` and `mergingOfPgd` on well-formed stores -/

theorem alignment_out_of_range (pgd : Option Nat) {k : Nat} (h : MAX_ORDER < k) :
    alignment pgd k = .error Fault.assertion := by
  have h1 : ¬ (k ≤ MAX_ORDER) := by omega
  simp [alignment, checkOrder, h1, bind, Except.bind]

/-- At `order = MAX_ORDER`, `buddy_of` on an aligned block evaluates
`alignment(pgd, MAX_ORDER + 1)`, whose `checkOrder` assertion fails. -/
theorem buddy_of_max_order (F : Frames) (p : Nat) (h : 2 ^ MAX_ORDER ∣ p) :
    buddy_of F (some p) MAX_ORDER = .error Fault.assertion := by
  simp [buddy_of, alignment_ok p (le_refl MAX_ORDER), h, pgd_to_pfn,
    blockPages_ok (le_refl MAX_ORDER),
    alignment_out_of_range (some p) (Nat.lt_succ_self MAX_ORDER), bind, Except.bind]

/-- The buddy of the buddy is the block itself. -/
theorem buddy_involution {O b : Nat} (hal : 2 ^ O ∣ b) :
    2 ^ O ∣ (if 2 ^ (O + 1) ∣ b then b + 2 ^ O else b - 2 ^ O) ∧
    (if 2 ^ (O + 1) ∣ (if 2 ^ (O + 1) ∣ b then b + 2 ^ O else b - 2 ^ O)
      then (if 2 ^ (O + 1) ∣ b then b + 2 ^ O else b - 2 ^ O) + 2 ^ O
      else (if 2 ^ (O + 1) ∣ b then b + 2 ^ O else b - 2 ^ O) - 2 ^ O) = b ∧
    (if 2 ^ (O + 1) ∣ (if 2 ^ (O + 1) ∣ b then b + 2 ^ O else b - 2 ^ O)
      then (if 2 ^ (O + 1) ∣ b then b + 2 ^ O else b - 2 ^ O)
      else (if 2 ^ (O + 1) ∣ b then b + 2 ^ O else b - 2 ^ O) - 2 ^ O)
      = (if 2 ^ (O + 1) ∣ b then b else b - 2 ^ O) := by
  have hpos : 0 < 2 ^ O := Nat.two_pow_pos O
  by_cases h : 2 ^ (O + 1) ∣ b
  · have hn : ¬ 2 ^ (O + 1) ∣ b + 2 ^ O := by
      intro e
      have h1 : 2 ^ (O + 1) ∣ 2 ^ O := (Nat.dvd_add_right h).mp e
      have h2 := Nat.le_of_dvd hpos h1
      have h3 : 2 ^ O < 2 ^ (O + 1) := Nat.pow_lt_pow_right (by decide) (Nat.lt_succ_self O)
      omega
    simp only [h, hn, if_true, if_false]
    exact ⟨Dvd.dvd.add hal (dvd_refl _), by omega, by omega⟩
  · obtain ⟨h1, h2⟩ := buddy_low_aligned hal h
    simp only [h, h2, if_true, if_false]
    exact ⟨Dvd.dvd.trans (pow_dvd_pow 2 (Nat.le_succ O)) h2, by omega, trivial⟩

theorem whileLoop_skip {F : Frames} {fuel t q : Nat} {s : State} {buddy : Option Nat}
    {l2 : List Nat} (m : Nat) :
    ∀ (l1 : List Nat) (free : Option Nat), Chain s.next_free free (l1 ++ q :: l2) →
      (∀ f, f ∈ l1 → buddy ≠ some f) →
      mergingOfPgd.whileLoop F fuel t (l1.length + m) s buddy free
        = mergingOfPgd.whileLoop F fuel t m s buddy (some q)
  | [], free, hc, _ => by
    have : free = some q := hc.1
    subst this; simp
  | r :: l1, free, hc, hne => by
    have hf : free = some r := hc.1
    subst hf
    have hr : buddy ≠ some r := hne r (by simp)
    have e : (r :: l1).length + m = (l1.length + m) + 1 := by simp; omega
    rw [e]
    simp only [mergingOfPgd.whileLoop, ne_eq, hr, not_false_eq_true, if_true]
    exact whileLoop_skip m l1 _ hc.2 (fun f hf => hne f (List.mem_cons_of_mem _ hf))

theorem whileLoop_miss {F : Frames} {fuel t : Nat} {s : State} {buddy : Option Nat} (m : Nat) :
    ∀ (l : List Nat) (free : Option Nat), Chain s.next_free free l →
      (∀ f, f ∈ l → buddy ≠ some f) →
      mergingOfPgd.whileLoop F fuel t (l.length + m + 1) s buddy free
        = .ok (false, s, buddy, none)
  | [], free, hc, _ => by
    have : free = none := hc
    subst this
    simp [mergingOfPgd.whileLoop, pure, Except.pure]
  | r :: l, free, hc, hne => by
    have hf : free = some r := hc.1
    subst hf
    have hr : buddy ≠ some r := hne r (by simp)
    have e : (r :: l).length + m + 1 = (l.length + m + 1) + 1 := by simp; omega
    rw [e]
    simp only [mergingOfPgd.whileLoop, ne_eq, hr, not_false_eq_true, if_true]
    exact whileLoop_miss m l _ hc.2 (fun f hf => hne f (List.mem_cons_of_mem _ hf))

theorem forLoop_idle {F : Frames} {fuel : Nat} (hf : 0 < fuel) (s : State) (buddy : Option Nat) :
    ∀ (n t : Nat), mergingOfPgd.forLoop F fuel n t s buddy none = .ok s
  | 0, _ => rfl
  | n + 1, t => by
    obtain ⟨k, rfl⟩ : ∃ k, fuel = k + 1 := ⟨fuel - 1, by omega⟩
    simp only [mergingOfPgd.forLoop, mergingOfPgd.whileLoop, bind, Except.bind, pure, Except.pure]
    exact forLoop_idle hf s buddy n (t + 1)

theorem whileLoop_hit (F : Frames) (fuel t n q : Nat) (s : State) :
    mergingOfPgd.whileLoop F fuel t (n + 1) s (some q) (some q)
      = (do
          let x ← merge_block F s (some q) t fuel
          let buddy1 ← buddy_of F x.1 (t + 1)
          if buddy1 ≠ none then pure (true, x.2, buddy1, some q)
          else do
            let free1 ← x.2.load (.area (t + 1))
            mergingOfPgd.whileLoop F fuel t n x.2 buddy1 free1) := by
  conv => lhs; unfold mergingOfPgd.whileLoop
  simp only [ne_eq, not_true_eq_false, if_false]

/-- The call `mergingOfPgd(b, O)` when the buddy of `b` is on free list `O` together
with `b`: the two are merged; then the function either fails the assertion of
`buddy_of` at `MAX_ORDER` (when `O + 1 = MAX_ORDER`) or ends with this single
merge done. -/
theorem mergingOfPgd_hit {F : Frames} {s : State} {L : Nat → List Nat} {b O fuel : Nat}
    {a1 a2 : List Nat}
    (hM : Models s L) (hO : O < MAX_ORDER) (hal : 2 ^ O ∣ b)
    (hL : L O = (b :: a1) ++ (if 2 ^ (O + 1) ∣ b then b + 2 ^ O else b - 2 ^ O) :: a2)
    (hpb : F.present b = true)
    (hpbud : F.present (if 2 ^ (O + 1) ∣ b then b + 2 ^ O else b - 2 ^ O) = true)
    (hsep : ∀ i, i ≤ MAX_ORDER → i ≠ O → ∀ q, q ∈ L O → q ∉ L i)
    (hf : a1.length + (L (O + 1)).length + 5 ≤ fuel) (hb31 : b < 2 ^ 31) :
    (O + 1 = MAX_ORDER → mergingOfPgd F s (some b) O fuel = .error Fault.assertion) ∧
    (O + 1 < MAX_ORDER → ∃ s', mergingOfPgd F s (some b) O fuel = .ok s' ∧
      Models s' (Function.update (Function.update L O (a1 ++ a2)) (O + 1)
        ((if 2 ^ (O + 1) ∣ b then b else b - 2 ^ O) :: L (O + 1)))) := by
  have hO0 : O ≤ MAX_ORDER := by omega
  have hO1 : O + 1 ≤ MAX_ORDER := hO
  obtain ⟨hbal, hinv, hlow⟩ := buddy_involution hal
  have hbud31 : (if 2 ^ (O + 1) ∣ b then b + 2 ^ O else b - 2 ^ O) < 2 ^ 31 := buddy_lt hO hb31
  have hlow31 : (if 2 ^ (O + 1) ∣ b then b else b - 2 ^ O) < 2 ^ 31 := by
    split <;> omega
  generalize hbud : (if 2 ^ (O + 1) ∣ b then b + 2 ^ O else b - 2 ^ O) = bud at *
  generalize hlowd : (if 2 ^ (O + 1) ∣ b then b else b - 2 ^ O) = low at *
  have hbne : bud ≠ b := by
    have := Chain.nodup (hM O hO0)
    rw [hL] at this
    intro e
    rw [e] at this
    simp at this
  have hna1 : ∀ f, f ∈ b :: a1 → some bud ≠ some f := by
    have := Chain.nodup (hM O hO0)
    rw [hL] at this
    intro f hf e
    have e' : bud = f := Option.some.inj e
    subst e'
    exact (List.nodup_append.mp this).2.2 hf (by simp)
  obtain ⟨s2, h2, hM2⟩ := @merge_block_spec F s L bud O fuel (b :: a1) a2 [] (a1 ++ a2) hM hO hbal
    (by rw [hinv]; exact hpb) hL (by rw [hinv]; rfl) hsep (by simp; omega) (by simp; omega)
    hbud31
  rw [hlow] at h2 hM2
  have hlal : 2 ^ (O + 1) ∣ low := by
    rw [← hlowd]
    by_cases h : 2 ^ (O + 1) ∣ b
    · simp [h]
    · simp only [h, if_false]; exact (buddy_low_aligned hal h).2
  have hhead : s._free_areas O = some b := by
    have := hM O hO0
    rw [hL] at this
    exact this.1
  obtain ⟨k, hk⟩ : ∃ k, MAX_ORDER - O = k + 1 := ⟨MAX_ORDER - O - 1, by omega⟩
  obtain ⟨m, hm⟩ : ∃ m, fuel = (b :: a1).length + (((L (O + 1)).length + 1 + m + 1) + 1) :=
    ⟨fuel - (a1.length + (L (O + 1)).length + 4), by simp; omega⟩
  have hfpos : 0 < fuel := by omega
  have hscan : mergingOfPgd.whileLoop F fuel O fuel s (some bud) (some b)
      = mergingOfPgd.whileLoop F fuel O (((L (O + 1)).length + 1 + m + 1) + 1) s (some bud)
          (some bud) := by
    have hc := hM O hO0
    rw [hL, hhead] at hc
    conv => lhs; arg 4; rw [hm]
    exact whileLoop_skip _ (b :: a1) (some b) hc hna1
  have hmerging : mergingOfPgd F s (some b) O fuel
      = (do
          let x ← mergingOfPgd.whileLoop F fuel O (((L (O + 1)).length + 1 + m + 1) + 1) s
            (some bud) (some bud)
          if x.1 then pure x.2.1
          else mergingOfPgd.forLoop F fuel k (O + 1) x.2.1 x.2.2.1 x.2.2.2) := by
    simp only [mergingOfPgd, hO, not_true_eq_false, if_false, buddy_of_ok F b hO hal hb31, hbud,
      pfn_to_pgd, hpbud, if_true, State.load, hO0, hhead, hk, mergingOfPgd.forLoop, hscan, bind,
      Except.bind]
  refine ⟨?_, ?_⟩
  · intro hmax
    rw [hmerging, whileLoop_hit]
    rw [hmax] at hlal
    simp only [h2, bind, Except.bind, hmax, buddy_of_max_order F low hlal]
  · intro hlt
    refine ⟨s2, ?_, hM2⟩
    rw [hmerging, whileLoop_hit]
    simp only [h2, bind, Except.bind, buddy_of_ok F low hlt hlal hlow31, pfn_to_pgd]
    by_cases hp2 : F.present (if 2 ^ (O + 1 + 1) ∣ low then low + 2 ^ (O + 1)
        else low - 2 ^ (O + 1)) = true
    · simp [hp2, pure, Except.pure]
    · simp only [hp2, if_false, ne_eq, not_true_eq_false]
      have hc2 := hM2 (O + 1) hO1
      rw [Function.update_same] at hc2
      have hh2 : s2._free_areas (O + 1) = some low := hc2.1
      have hmiss := @whileLoop_miss F fuel O s2 none m (low :: L (O + 1)) (some low)
        (by rw [← hh2]; exact hc2) (by simp)
      simp only [List.length_cons] at hmiss
      simp only [State.load, hO1, if_true, hh2, not_true_eq_false, if_false, hmiss,
        Bool.false_eq_true, pure, Except.pure]
      exact forLoop_idle hfpos s2 none k (O + 1)

theorem erase_split {a : Nat} {l1 l2 : List Nat} (h : (l1 ++ a :: l2).Nodup) :
    (l1 ++ a :: l2).erase a = l1 ++ l2 := by
  have hn : a ∉ l1 := fun e => (List.nodup_append.mp h).2.2 e (by simp)
  rw [List.erase_append_right _ hn, List.erase_cons_head]

/-- The call `free_pages(b, O)` when the buddy of `b` is not on free list `O`, or
`O = MAX_ORDER`: the block is put at the head of free list `O` and nothing is
merged. -/
theorem free_pages_no_merge {F : Frames} {s : State} {L : Nat → List Nat} {b O fuel : Nat}
    (hM : Models s L) (hO : O ≤ MAX_ORDER) (hal : 2 ^ O ∣ b)
    (hfresh : ∀ i, i ≤ MAX_ORDER → b ∉ L i)
    (hcase : O = MAX_ORDER ∨ (if 2 ^ (O + 1) ∣ b then b + 2 ^ O else b - 2 ^ O) ∉ L O)
    (hf : (L O).length + 3 ≤ fuel) (hb31 : b < 2 ^ 31) :
    ∃ s', free_pages F s (some b) O fuel = .ok s' ∧
      Models s' (Function.update L O (b :: L O)) := by
  have hfpos : 0 < fuel := by omega
  obtain ⟨s1, h1, hM1⟩ := insertFree_spec hM hO hfresh hfpos
  refine ⟨s1, ?_, hM1⟩
  by_cases hmax : O = MAX_ORDER
  · subst hmax
    simp [free_pages, alignment_ok b hO, hal, h1, bind, Except.bind, pure, Except.pure]
  · have hlt : O < MAX_ORDER := by omega
    have hbud : (if 2 ^ (O + 1) ∣ b then b + 2 ^ O else b - 2 ^ O) ∉ L O := by
      rcases hcase with e | e
      · exact absurd e hmax
      · exact e
    have hpos : 0 < 2 ^ O := Nat.two_pow_pos O
    have hbne : (if 2 ^ (O + 1) ∣ b then b + 2 ^ O else b - 2 ^ O) ≠ b := by
      by_cases h : 2 ^ (O + 1) ∣ b
      · simp only [h, if_true]; omega
      · simp only [h, if_false]
        have := (buddy_low_aligned hal h).1
        omega
    have hbo := buddy_of_ok F b hlt hal hb31
    generalize (if 2 ^ (O + 1) ∣ b then b + 2 ^ O else b - 2 ^ O) = bud at hbud hbne hbo
    have hc1 := hM1 O hO
    rw [Function.update_same] at hc1
    have hhead : s1._free_areas O = some b := hc1.1
    rw [hhead] at hc1
    obtain ⟨k, hk⟩ : ∃ k, MAX_ORDER - O = k + 1 := ⟨MAX_ORDER - O - 1, by omega⟩
    obtain ⟨m, hm⟩ : ∃ m, fuel = (b :: L O).length + m + 1 :=
      ⟨fuel - ((L O).length + 2), by simp; omega⟩
    have hmiss : mergingOfPgd.whileLoop F fuel O fuel s1 (pfn_to_pgd F bud) (some b)
        = .ok (false, s1, pfn_to_pgd F bud, none) := by
      conv => lhs; arg 4; rw [hm]
      apply whileLoop_miss m (b :: L O) (some b) hc1
      intro f hf e
      have e' : bud = f := by
        unfold pfn_to_pgd at e
        split at e
        · exact Option.some.inj e
        · simp at e
      subst e'
      rcases List.mem_cons.mp hf with e2 | e2
      · exact hbne e2
      · exact hbud e2
    simp only [free_pages, alignment_ok b hO, hal, decide_True, Bool.not_true, Bool.false_eq_true,
      if_false, h1, hlt, if_true, mergingOfPgd, not_true_eq_false, hbo,
      State.load, hO, hhead, hk, mergingOfPgd.forLoop, hmiss, bind, Except.bind]
    exact forLoop_idle hfpos s1 _ k (O + 1)

/-- The call `free_pages(b, O)` when the buddy of `b` is on free list `O`: the two are
merged; then the call either fails the assertion of `buddy_of` at `MAX_ORDER`
(when `O = MAX_ORDER - 1`) or returns after this single merge. -/
theorem free_pages_merge {F : Frames} {s : State} {L : Nat → List Nat} {b O fuel : Nat}
    (hM : Models s L) (hW : WellFormed F L) (hO : O < MAX_ORDER) (hal : 2 ^ O ∣ b)
    (hpb : F.present b = true) (hfresh : ∀ i, i ≤ MAX_ORDER → b ∉ L i)
    (hbud : (if 2 ^ (O + 1) ∣ b then b + 2 ^ O else b - 2 ^ O) ∈ L O)
    (hf : (L O).length + (L (O + 1)).length + 5 ≤ fuel) :
    (O + 1 = MAX_ORDER → free_pages F s (some b) O fuel = .error Fault.assertion) ∧
    (O + 1 < MAX_ORDER → ∃ s', free_pages F s (some b) O fuel = .ok s' ∧
      Models s' (Function.update
        (Function.update L O ((L O).erase (if 2 ^ (O + 1) ∣ b then b + 2 ^ O else b - 2 ^ O)))
        (O + 1) ((if 2 ^ (O + 1) ∣ b then b else b - 2 ^ O) :: L (O + 1)))) := by
  have hO0 : O ≤ MAX_ORDER := by omega
  have hne : O + 1 ≠ O := by omega
  have hfpos : 0 < fuel := by omega
  obtain ⟨s1, h1, hM1⟩ := insertFree_spec hM hO0 hfresh hfpos
  obtain ⟨a1, a2, ha⟩ := List.append_of_mem hbud
  have hn : (a1 ++ (if 2 ^ (O + 1) ∣ b then b + 2 ^ O else b - 2 ^ O) :: a2).Nodup := by
    have := hW.disjoint.1 O hO0
    rwa [ha] at this
  have hlen : (L O).length = a1.length + (a2.length + 1) := by rw [ha]; simp
  have hb31 : b < 2 ^ 31 := by
    have h2 := buddy_lt hO (hW.bounded O hO0 _ hbud)
    rw [(buddy_involution hal).2.1] at h2
    exact h2
  have hhit := @mergingOfPgd_hit F s1 _ b O fuel a1 a2 hM1 hO hal
    (by rw [Function.update_same, ha]; rfl) hpb
    (hW.present O hO0 _ hbud _ ⟨le_refl _, by have := Nat.two_pow_pos O; omega⟩)
    (by
      intro i hi hin q hq
      rw [Function.update_same] at hq
      rw [Function.update_noteq hin]
      rcases List.mem_cons.mp hq with e | e
      · subst e; exact hfresh i hi
      · exact hW.disjoint.sep hi hO0 hin e)
    (by rw [Function.update_noteq hne]; omega) hb31
  have hfree : free_pages F s (some b) O fuel = mergingOfPgd F s1 (some b) O fuel := by
    simp [free_pages, alignment_ok b hO0, hal, h1, hO, bind, Except.bind]
  rw [hfree, ha, erase_split hn]
  refine ⟨hhit.1, fun hlt => ?_⟩
  obtain ⟨s', h', hM'⟩ := hhit.2 hlt
  refine ⟨s', h', ?_⟩
  rw [Function.update_idem, Function.update_noteq hne] at hM'
  exact hM'

/-! ## Conservation of the free-frame total -/

theorem freeFrames_update (L : Nat → List Nat) {i : Nat} (hi : i ≤ MAX_ORDER) (l : List Nat) :
    freeFrames (Function.update L i l) + 2 ^ i * (L i).length
      = freeFrames L + 2 ^ i * l.length := by
  have hmem : i ∈ Finset.range (MAX_ORDER + 1) := Finset.mem_range.mpr (by omega)
  have e : (fun j => 2 ^ j * (Function.update L i l j).length)
      = Function.update (fun j => 2 ^ j * (L j).length) i (2 ^ i * l.length) := by
    funext j
    by_cases h : j = i
    · subst h; simp
    · simp [Function.update_noteq h]
  unfold freeFrames
  rw [e, Finset.sum_update_of_mem hmem, Finset.sdiff_singleton_eq_erase,
    ← Finset.add_sum_erase _ _ hmem]
  ring

theorem freeFrames_congr {L L' : Nat → List Nat} (h : ∀ j, j ≤ MAX_ORDER → L j = L' j) :
    freeFrames L = freeFrames L' := by
  unfold freeFrames
  apply Finset.sum_congr rfl
  intro j hj
  rw [h j (by have := Finset.mem_range.mp hj; omega)]


theorem not_mem_of_fresh {L : Nat → List Nat} {b O : Nat}
    (hfresh : ∀ i, i ≤ MAX_ORDER → ∀ q, q ∈ L i → ∀ f, InBlock b O f → ¬ InBlock q i f) :
    ∀ i, i ≤ MAX_ORDER → b ∉ L i := by
  intro i hi e
  have h1 := Nat.two_pow_pos O
  have h2 := Nat.two_pow_pos i
  exact hfresh i hi b e b ⟨le_refl _, by omega⟩ ⟨le_refl _, by omega⟩

/-- The effect of `free_pages(b, O)` on the free-frame total of a
well-formed store, for an aligned block `b` that overlaps no free block. When
`O = MAX_ORDER - 1` and the buddy of `b` is free at order `O`, the call merges
the two and then fails the assertion in `buddy_of(.., MAX_ORDER)`: it does not
return, so the total is not increased by `2 ^ O` there. In every other case
the call returns and the free-frame total has grown by exactly `2 ^ O`. -/
theorem free_pages_conservation {F : Frames} {s : State} {L : Nat → List Nat}
    {b O fuel : Nat}
    (hM : Models s L) (hW : WellFormed F L) (hO : O ≤ MAX_ORDER) (hal : 2 ^ O ∣ b)
    (hpb : F.present b = true)
    (hfresh : ∀ i, i ≤ MAX_ORDER → ∀ q, q ∈ L i → ∀ f, InBlock b O f → ¬ InBlock q i f)
    (hf : (L O).length + (L (O + 1)).length + 5 ≤ fuel) (hb31 : b < 2 ^ 31) :
    (O + 1 = MAX_ORDER ∧ (if 2 ^ (O + 1) ∣ b then b + 2 ^ O else b - 2 ^ O) ∈ L O →
      free_pages F s (some b) O fuel = .error Fault.assertion) ∧
    (¬ (O + 1 = MAX_ORDER ∧ (if 2 ^ (O + 1) ∣ b then b + 2 ^ O else b - 2 ^ O) ∈ L O) →
      ∃ s' L', free_pages F s (some b) O fuel = .ok s' ∧ Models s' L' ∧
        freeFrames L' = freeFrames L + 2 ^ O) := by
  have hnm := not_mem_of_fresh hfresh
  refine ⟨fun h => (free_pages_merge hM hW (by omega) hal hpb hnm h.2 hf).1 h.1, fun h => ?_⟩
  by_cases hcase : O = MAX_ORDER ∨ (if 2 ^ (O + 1) ∣ b then b + 2 ^ O else b - 2 ^ O) ∉ L O
  · obtain ⟨s', h1, hM'⟩ := @free_pages_no_merge F s L b O fuel hM hO hal hnm hcase (by omega)
      hb31
    refine ⟨s', _, h1, hM', ?_⟩
    have := freeFrames_update L hO (b :: L O)
    simp only [List.length_cons] at this
    have e : 2 ^ O * ((L O).length + 1) = 2 ^ O * (L O).length + 2 ^ O := by ring
    omega
  · have hlt : O < MAX_ORDER := by omega
    have hbud : (if 2 ^ (O + 1) ∣ b then b + 2 ^ O else b - 2 ^ O) ∈ L O := by
      by_contra e; exact hcase (Or.inr e)
    have hlt2 : O + 1 < MAX_ORDER := by
      have : O + 1 ≠ MAX_ORDER := fun e => h ⟨e, hbud⟩
      omega
    obtain ⟨s', h1, hM'⟩ := (free_pages_merge hM hW hlt hal hpb hnm hbud hf).2 hlt2
    refine ⟨s', _, h1, hM', ?_⟩
    have hne : O + 1 ≠ O := by omega
    have e1 := freeFrames_update
      (Function.update L O ((L O).erase (if 2 ^ (O + 1) ∣ b then b + 2 ^ O else b - 2 ^ O)))
      (show O + 1 ≤ MAX_ORDER by omega)
      ((if 2 ^ (O + 1) ∣ b then b else b - 2 ^ O) :: L (O + 1))
    have e2 := freeFrames_update L hO
      ((L O).erase (if 2 ^ (O + 1) ∣ b then b + 2 ^ O else b - 2 ^ O))
    rw [Function.update_noteq hne] at e1
    rw [List.length_erase_of_mem hbud] at e2
    simp only [List.length_cons] at e1
    have hpos : 0 < (L O).length := List.length_pos_of_mem hbud
    have e3 : 2 ^ (O + 1) * ((L (O + 1)).length + 1)
        = 2 ^ (O + 1) * (L (O + 1)).length + 2 * 2 ^ O := by rw [pow_succ]; ring
    have e4 : 2 ^ O * (L O).length = 2 ^ O * ((L O).length - 1) + 2 ^ O := by
      obtain ⟨n, hn⟩ : ∃ n, (L O).length = n + 1 := ⟨(L O).length - 1, by omega⟩
      rw [hn]; simp; ring
    omega

theorem freeFrames_splitDown {p order : Nat} :
    ∀ (n : Nat) (L : Nat → List Nat) (l1 l2 : List Nat), order + n ≤ MAX_ORDER →
      L (order + n) = l1 ++ p :: l2 → (∀ j, order ≤ j → j < order + n → L j = []) →
      freeFrames (fun j => if j = order + n then l1 ++ l2
          else if order ≤ j ∧ j < order + n then [p + 2 ^ j] else L j) + 2 ^ order
        = freeFrames L
  | 0, L, l1, l2, hk, hL, _ => by
    have e : freeFrames (fun j => if j = order + 0 then l1 ++ l2
          else if order ≤ j ∧ j < order + 0 then [p + 2 ^ j] else L j)
        = freeFrames (Function.update L order (l1 ++ l2)) := by
      apply freeFrames_congr
      intro j _
      by_cases hj : j = order
      · subst hj; simp
      · rw [Function.update_noteq hj]
        simp only [Nat.add_zero, hj, if_false]
        rw [if_neg (by omega)]
    rw [e]
    have h1 := freeFrames_update L (show order ≤ MAX_ORDER by omega) (l1 ++ l2)
    have hL' : L order = l1 ++ p :: l2 := hL
    rw [hL'] at h1
    simp only [List.length_append, List.length_cons] at h1
    have e2 : 2 ^ order * (l1.length + (l2.length + 1))
        = 2 ^ order * (l1.length + l2.length) + 2 ^ order := by ring
    omega
  | n + 1, L, l1, l2, hk, hL, hempty => by
    have hL' : L (order + n + 1) = l1 ++ p :: l2 := hL
    have hlow : L (order + n) = [] := hempty _ (by omega) (by omega)
    have hne : order + n ≠ order + n + 1 := by omega
    have ih := @freeFrames_splitDown p order n
      (Function.update (Function.update L (order + n + 1) (l1 ++ l2)) (order + n)
        [p + 2 ^ (order + n), p])
      [p + 2 ^ (order + n)] [] (by omega) (by simp)
      (by
        intro j hj1 hj2
        rw [Function.update_noteq (by omega), Function.update_noteq (by omega)]
        exact hempty j hj1 (by omega))
    have e : freeFrames (fun j => if j = order + (n + 1) then l1 ++ l2
          else if order ≤ j ∧ j < order + (n + 1) then [p + 2 ^ j] else L j)
        = freeFrames (fun j => if j = order + n then [p + 2 ^ (order + n)] ++ []
          else if order ≤ j ∧ j < order + n then [p + 2 ^ j]
          else Function.update (Function.update L (order + n + 1) (l1 ++ l2)) (order + n)
            [p + 2 ^ (order + n), p] j) := by
      symm
      apply freeFrames_congr
      intro j _
      by_cases hj1 : j = order + n
      · subst hj1
        simp
      · by_cases hj2 : j = order + (n + 1)
        · subst hj2
          rw [if_neg hj1, if_neg (by omega), Function.update_noteq hj1]
          simp only [if_true]
          exact Function.update_same _ _ _
        · have hj2' : j ≠ order + n + 1 := hj2
          rw [if_neg hj1, if_neg hj2, Function.update_noteq hj1, Function.update_noteq hj2']
          by_cases hj3 : order ≤ j ∧ j < order + n
          · rw [if_pos hj3, if_pos ⟨hj3.1, by omega⟩]
          · rw [if_neg hj3, if_neg (by omega)]
    rw [e, ih]
    have h1 := freeFrames_update (Function.update L (order + n + 1) (l1 ++ l2))
      (show order + n ≤ MAX_ORDER by omega) [p + 2 ^ (order + n), p]
    have h2 := freeFrames_update L (show order + n + 1 ≤ MAX_ORDER from hk) (l1 ++ l2)
    rw [Function.update_noteq hne, hlow] at h1
    rw [hL'] at h2
    simp only [List.length_append, List.length_cons, List.length_nil] at h1 h2
    have e2 : 2 ^ (order + n + 1) * (l1.length + (l2.length + 1))
        = 2 ^ (order + n + 1) * (l1.length + l2.length) + 2 * 2 ^ (order + n) := by
      rw [pow_succ]; ring
    omega

/-- A successful `allocate_pages(order)` on a well-formed store lowers the
free-frame total by exactly `2 ^ order`. -/
theorem allocate_pages_conservation {F : Frames} {s : State} {L : Nat → List Nat}
    {order k p fuel : Nat} {tail : List Nat}
    (hM : Models s L) (hW : WellFormed F L) (hok : order ≤ k) (hk : k ≤ MAX_ORDER)
    (hmin : ∀ j, order ≤ j → j < k → L j = []) (hhead : L k = p :: tail) (hf : 2 ≤ fuel) :
    ∃ s' L', allocate_pages F s order fuel = .ok (some p, s') ∧ Models s' L' ∧
      freeFrames L' + 2 ^ order = freeFrames L := by
  obtain ⟨s', h, hM'⟩ := allocate_pages_spec hM hW hok hk hmin hhead hf
  obtain ⟨n, rfl⟩ : ∃ n, k = order + n := ⟨k - order, by omega⟩
  refine ⟨s', _, h, hM', ?_⟩
  have := @freeFrames_splitDown p order n L [] tail hk (by simpa using hhead) hmin
  simpa using this

/-! ## Disjointness -/

theorem mem_update_cons {L : Nat → List Nat} {O b i p : Nat} :
    p ∈ Function.update L O (b :: L O) i ↔ (i = O ∧ p = b) ∨ p ∈ L i := by
  by_cases h : i = O
  · subst h
    simp
  · simp [Function.update_noteq h, h]

/-- Putting a block that overlaps no free block at the head of its free list
keeps the free blocks pairwise disjoint. -/
theorem DisjointBlocks.insert {L : Nat → List Nat} {b O : Nat} (hD : DisjointBlocks L)
    (hO : O ≤ MAX_ORDER)
    (hfresh : ∀ i, i ≤ MAX_ORDER → ∀ q, q ∈ L i → ∀ f, InBlock b O f → ¬ InBlock q i f) :
    DisjointBlocks (Function.update L O (b :: L O)) := by
  refine ⟨?_, ?_⟩
  · intro j hj
    by_cases h : j = O
    · subst h
      rw [Function.update_same]
      exact List.nodup_cons.mpr ⟨not_mem_of_fresh hfresh j hj, hD.1 j hj⟩
    · rw [Function.update_noteq h]; exact hD.1 j hj
  · intro i j p q f hi hj hp hq h1 h2
    have hp' := mem_update_cons.mp hp
    have hq' := mem_update_cons.mp hq
    clear hp hq
    rcases hp' with ⟨rfl, rfl⟩ | hp'
    · rcases hq' with ⟨rfl, rfl⟩ | hq'
      · exact ⟨rfl, rfl⟩
      · exact absurd h2 (hfresh j hj q hq' f h1)
    · rcases hq' with ⟨rfl, rfl⟩ | hq'
      · exact absurd h1 (hfresh i hi p hp' f h2)
      · exact hD.2 i j p q f hi hj hp' hq' h1 h2

theorem inBlock_merged {O b f : Nat} (hal : 2 ^ O ∣ b)
    (h : InBlock (if 2 ^ (O + 1) ∣ b then b else b - 2 ^ O) (O + 1) f) :
    InBlock b O f ∨ InBlock (if 2 ^ (O + 1) ∣ b then b + 2 ^ O else b - 2 ^ O) O f := by
  have e : 2 ^ (O + 1) = 2 ^ O + 2 ^ O := by rw [pow_succ]; ring
  unfold InBlock at *
  by_cases hb : 2 ^ (O + 1) ∣ b
  · simp only [hb, if_true] at h ⊢
    omega
  · simp only [hb, if_false] at h ⊢
    have := (buddy_low_aligned hal hb).1
    omega

theorem mem_merged {L : Nat → List Nat} {O low bud i p : Nat} (hn : (L O).Nodup) :
    p ∈ Function.update (Function.update L O ((L O).erase bud)) (O + 1) (low :: L (O + 1)) i ↔
      (i = O + 1 ∧ p = low) ∨ (p ∈ L i ∧ ¬ (i = O ∧ p = bud)) := by
  have hne : O + 1 ≠ O := by omega
  by_cases h1 : i = O + 1
  · subst h1
    rw [Function.update_same]
    simp
  · rw [Function.update_noteq h1]
    by_cases h2 : i = O
    · subst h2
      rw [Function.update_same, hn.mem_erase_iff]
      simp [h1]
      tauto
    · rw [Function.update_noteq h2]
      simp [h1, h2]

/-- Merging a freed block with its free buddy keeps the free blocks pairwise
disjoint. -/
theorem DisjointBlocks.merge {L : Nat → List Nat} {b O : Nat} (hD : DisjointBlocks L)
    (hO : O < MAX_ORDER) (hal : 2 ^ O ∣ b)
    (hfresh : ∀ i, i ≤ MAX_ORDER → ∀ q, q ∈ L i → ∀ f, InBlock b O f → ¬ InBlock q i f)
    (hbud : (if 2 ^ (O + 1) ∣ b then b + 2 ^ O else b - 2 ^ O) ∈ L O) :
    DisjointBlocks (Function.update
      (Function.update L O ((L O).erase (if 2 ^ (O + 1) ∣ b then b + 2 ^ O else b - 2 ^ O)))
      (O + 1) ((if 2 ^ (O + 1) ∣ b then b else b - 2 ^ O) :: L (O + 1))) := by
  have hO0 : O ≤ MAX_ORDER := by omega
  have hO1 : O + 1 ≤ MAX_ORDER := hO
  have hne : O + 1 ≠ O := by omega
  have hn := hD.1 O hO0
  have hpos : 0 < 2 ^ O := Nat.two_pow_pos O
  have hlowbud : InBlock (if 2 ^ (O + 1) ∣ b then b else b - 2 ^ O) (O + 1)
      (if 2 ^ (O + 1) ∣ b then b + 2 ^ O else b - 2 ^ O) := by
    have e : 2 ^ (O + 1) = 2 ^ O + 2 ^ O := by rw [pow_succ]; ring
    unfold InBlock
    by_cases hb : 2 ^ (O + 1) ∣ b
    · simp only [hb, if_true]; omega
    · simp only [hb, if_false]; omega
  have hmerged := @inBlock_merged O b
  generalize (if 2 ^ (O + 1) ∣ b then b + 2 ^ O else b - 2 ^ O) = bud at *
  generalize (if 2 ^ (O + 1) ∣ b then b else b - 2 ^ O) = low at *
  have hbudself : InBlock bud O bud := ⟨le_refl _, by omega⟩
  have key : ∀ j q f, j ≤ MAX_ORDER → q ∈ L j → ¬ (j = O ∧ q = bud) → InBlock low (O + 1) f →
      ¬ InBlock q j f := by
    intro j q f hj hq hnb h1 h2
    rcases hmerged hal h1 with h | h
    · exact hfresh j hj q hq f h h2
    · have := hD.2 O j bud q f hO0 hj hbud hq h h2
      exact hnb ⟨this.1.symm, this.2.symm⟩
  refine ⟨?_, ?_⟩
  · intro j hj
    by_cases h1 : j = O + 1
    · subst h1
      rw [Function.update_same]
      refine List.nodup_cons.mpr ⟨?_, hD.1 _ hj⟩
      intro e
      have hq : InBlock low (O + 1) low := ⟨le_refl _, by have := Nat.two_pow_pos (O + 1); omega⟩
      exact key (O + 1) low low hj e (by omega) hq hq
    · rw [Function.update_noteq h1]
      by_cases h2 : j = O
      · subst h2
        rw [Function.update_same]
        exact hn.erase _
      · rw [Function.update_noteq h2]; exact hD.1 j hj
  · intro i j p q f hi hj hp hq h1 h2
    have hp' := (mem_merged hn).mp hp
    have hq' := (mem_merged hn).mp hq
    clear hp hq
    rcases hp' with ⟨rfl, rfl⟩ | ⟨hp', hpn⟩
    · rcases hq' with ⟨rfl, rfl⟩ | ⟨hq', hqn⟩
      · exact ⟨rfl, rfl⟩
      · exact absurd h2 (key j q f hj hq' hqn h1)
    · rcases hq' with ⟨rfl, rfl⟩ | ⟨hq', hqn⟩
      · exact absurd h1 (key i p f hi hp' hpn h2)
      · exact hD.2 i j p q f hi hj hp' hq' h1 h2

/-- The effect of `free_pages(b, O)` on disjointness, on a well-formed
store and for an aligned block `b` that overlaps no free block. When
`O = MAX_ORDER - 1` and the buddy of `b` is free at order `O`, the call merges
the two and then fails the assertion in `buddy_of(.., MAX_ORDER)`: it does not
return with a store of disjoint free blocks. In every other case the call
returns and the free blocks are again pairwise disjoint, with no descriptor
listed twice. -/
theorem free_pages_disjointness {F : Frames} {s : State} {L : Nat → List Nat}
    {b O fuel : Nat}
    (hM : Models s L) (hW : WellFormed F L) (hO : O ≤ MAX_ORDER) (hal : 2 ^ O ∣ b)
    (hpb : F.present b = true)
    (hfresh : ∀ i, i ≤ MAX_ORDER → ∀ q, q ∈ L i → ∀ f, InBlock b O f → ¬ InBlock q i f)
    (hf : (L O).length + (L (O + 1)).length + 5 ≤ fuel) (hb31 : b < 2 ^ 31) :
    (O + 1 = MAX_ORDER ∧ (if 2 ^ (O + 1) ∣ b then b + 2 ^ O else b - 2 ^ O) ∈ L O →
      free_pages F s (some b) O fuel = .error Fault.assertion) ∧
    (¬ (O + 1 = MAX_ORDER ∧ (if 2 ^ (O + 1) ∣ b then b + 2 ^ O else b - 2 ^ O) ∈ L O) →
      ∃ s' L', free_pages F s (some b) O fuel = .ok s' ∧ Models s' L' ∧
        DisjointBlocks L') := by
  have hnm := not_mem_of_fresh hfresh
  refine ⟨fun h => (free_pages_merge hM hW (by omega) hal hpb hnm h.2 hf).1 h.1, fun h => ?_⟩
  by_cases hcase : O = MAX_ORDER ∨ (if 2 ^ (O + 1) ∣ b then b + 2 ^ O else b - 2 ^ O) ∉ L O
  · obtain ⟨s', h1, hM'⟩ := @free_pages_no_merge F s L b O fuel hM hO hal hnm hcase (by omega)
      hb31
    exact ⟨s', _, h1, hM', hW.disjoint.insert hO hfresh⟩
  · have hlt : O < MAX_ORDER := by omega
    have hbud : (if 2 ^ (O + 1) ∣ b then b + 2 ^ O else b - 2 ^ O) ∈ L O := by
      by_contra e; exact hcase (Or.inr e)
    have hlt2 : O + 1 < MAX_ORDER := by
      have : O + 1 ≠ MAX_ORDER := fun e => h ⟨e, hbud⟩
      omega
    obtain ⟨s', h1, hM'⟩ := (free_pages_merge hM hW hlt hal hpb hnm hbud hf).2 hlt2
    exact ⟨s', _, h1, hM', hW.disjoint.merge hlt hal hfresh hbud⟩

/-- The free lists that a successful `allocate_pages(order)` leaves hold
pairwise disjoint blocks, with no descriptor listed twice, when the free lists
before the call do. -/
theorem DisjointBlocks.allocate {L : Nat → List Nat} {order k p : Nat} {tail : List Nat}
    (hD : DisjointBlocks L) (hk : k ≤ MAX_ORDER) (hhead : L k = p :: tail) :
    DisjointBlocks (fun j => if j = k then tail
      else if order ≤ j ∧ j < k then [p + 2 ^ j] else L j) := by
  have hpk : p ∈ L k := by rw [hhead]; simp
  have hnd : (p :: tail).Nodup := by
    have := hD.1 k hk
    rwa [hhead] at this
  have hmem : ∀ j q, q ∈ (if j = k then tail
      else if order ≤ j ∧ j < k then [p + 2 ^ j] else L j) →
      (j < k ∧ q = p + 2 ^ j) ∨ (q ∈ L j ∧ ¬ (j = k ∧ q = p)) := by
    intro j q hq
    by_cases h1 : j = k
    · subst h1
      simp only [if_true] at hq
      refine Or.inr ⟨by rw [hhead]; exact List.mem_cons_of_mem _ hq, ?_⟩
      rintro ⟨_, rfl⟩
      exact (List.nodup_cons.mp hnd).1 hq
    · by_cases h2 : order ≤ j ∧ j < k
      · simp only [h1, h2, if_false, and_self, if_true, List.mem_singleton] at hq
        exact Or.inl ⟨h2.2, hq⟩
      · simp only [h1, h2, if_false] at hq
        exact Or.inr ⟨hq, fun e => h1 e.1⟩
  have hin : ∀ j f, j < k → InBlock (p + 2 ^ j) j f → InBlock p k f := by
    intro j f hj hf
    have h1 : 2 ^ (j + 1) ≤ 2 ^ k := Nat.pow_le_pow_right (by decide) hj
    have h2 : 2 ^ (j + 1) = 2 ^ j + 2 ^ j := by rw [pow_succ]; ring
    unfold InBlock at *
    omega
  have key : ∀ i j q f, i < k → j ≤ MAX_ORDER → q ∈ L j → ¬ (j = k ∧ q = p) →
      InBlock (p + 2 ^ i) i f → ¬ InBlock q j f := by
    intro i j q f hi hj hq hn h1 h2
    have := hD.2 k j p q f hk hj hpk hq (hin i f hi h1) h2
    exact hn ⟨this.1.symm, this.2.symm⟩
  refine ⟨?_, ?_⟩
  · intro j hj
    by_cases h1 : j = k
    · subst h1
      simp only [if_true]
      exact (List.nodup_cons.mp hnd).2
    · by_cases h2 : order ≤ j ∧ j < k
      · simp only [h1, h2, if_false, and_self, if_true]
        exact List.nodup_singleton _
      · simp only [h1, h2, if_false]
        exact hD.1 j hj
  · intro i j a c f hi hj ha hc h1 h2
    have ha' := hmem i a ha
    have hc' := hmem j c hc
    clear ha hc
    rcases ha' with ⟨hik, rfl⟩ | ⟨ha', han⟩
    · rcases hc' with ⟨hjk, rfl⟩ | ⟨hc', hcn⟩
      · have hij : i = j := by
          unfold InBlock at h1 h2
          rcases Nat.lt_trichotomy i j with hlt | heq | hgt
          · have e1 : 2 ^ (i + 1) ≤ 2 ^ j := Nat.pow_le_pow_right (by decide) hlt
            have e2 : 2 ^ (i + 1) = 2 ^ i + 2 ^ i := by rw [pow_succ]; ring
            omega
          · exact heq
          · have e1 : 2 ^ (j + 1) ≤ 2 ^ i := Nat.pow_le_pow_right (by decide) hgt
            have e2 : 2 ^ (j + 1) = 2 ^ j + 2 ^ j := by rw [pow_succ]; ring
            omega
        subst hij
        exact ⟨rfl, rfl⟩
      · exact absurd h2 (key i j c f hik hj hc' hcn h1)
    · rcases hc' with ⟨hjk, rfl⟩ | ⟨hc', hcn⟩
      · exact absurd h1 (key j i a f hjk hi ha' han h2)
      · exact hD.2 i j a c f hi hj ha' hc' h1 h2

/-- A successful `allocate_pages(order)` on a well-formed store leaves the
free blocks pairwise disjoint, with no descriptor listed twice. -/
theorem allocate_pages_disjoint {F : Frames} {s : State} {L : Nat → List Nat}
    {order k p fuel : Nat} {tail : List Nat}
    (hM : Models s L) (hW : WellFormed F L) (hok : order ≤ k) (hk : k ≤ MAX_ORDER)
    (hmin : ∀ j, order ≤ j → j < k → L j = []) (hhead : L k = p :: tail) (hf : 2 ≤ fuel) :
    ∃ s' L', allocate_pages F s order fuel = .ok (some p, s') ∧ Models s' L' ∧
      DisjointBlocks L' := by
  obtain ⟨s', h, hM'⟩ := allocate_pages_spec hM hW hok hk hmin hhead hf
  exact ⟨s', _, h, hM', hW.disjoint.allocate hk hhead⟩

theorem Aligned.update {L : Nat → List Nat} (hA : Aligned L) {O : Nat} {l : List Nat}
    (h : ∀ q, q ∈ l → 2 ^ O ∣ q) : Aligned (Function.update L O l) := by
  intro j hj q hq
  by_cases hjo : j = O
  · subst hjo
    rw [Function.update_same] at hq
    exact h q hq
  · rw [Function.update_noteq hjo] at hq
    exact hA j hj q hq

theorem buddy_ne {O b : Nat} (hal : 2 ^ O ∣ b) :
    (if 2 ^ (O + 1) ∣ b then b + 2 ^ O else b - 2 ^ O) ≠ b := by
  have hpos : 0 < 2 ^ O := Nat.two_pow_pos O
  by_cases h : 2 ^ (O + 1) ∣ b
  · simp only [h, if_true]; omega
  · simp only [h, if_false]
    have := (buddy_low_aligned hal h).1
    omega

theorem low_aligned {O b : Nat} (hal : 2 ^ O ∣ b) :
    2 ^ (O + 1) ∣ (if 2 ^ (O + 1) ∣ b then b else b - 2 ^ O) := by
  by_cases h : 2 ^ (O + 1) ∣ b
  · simp [h]
  · simp only [h, if_false]; exact (buddy_low_aligned hal h).2

/-- On a well-formed store with `b` on free list `l + 1`: `split_block(b, l + 1)`
returns `b`, takes it off free list `l + 1` and puts the upper half
`b + 2 ^ l` and then `b` at the head of free list `l`. -/
theorem split_block_erase {F : Frames} {s : State} {L : Nat → List Nat} {b l fuel : Nat}
    (hM : Models s L) (hW : WellFormed F L) (hl : l + 1 ≤ MAX_ORDER) (hb : b ∈ L (l + 1))
    (hf : (L (l + 1)).length ≤ fuel) :
    ∃ s', split_block F s (some b) (l + 1) fuel = .ok (some b, s') ∧
      Models s' (Function.update (Function.update L (l + 1) ((L (l + 1)).erase b)) l
        ((b + 2 ^ l) :: b :: L l)) := by
  have hpos : 0 < 2 ^ l := Nat.two_pow_pos l
  have hlt : 2 ^ l < 2 ^ (l + 1) := Nat.pow_lt_pow_right (by decide) (Nat.lt_succ_self l)
  obtain ⟨l1, l2, hL⟩ := List.append_of_mem hb
  have hn : (l1 ++ b :: l2).Nodup := by
    have := hW.disjoint.1 _ hl
    rwa [hL] at this
  have hlen : l1.length < fuel := by
    have : (L (l + 1)).length = l1.length + (l2.length + 1) := by rw [hL]; simp
    omega
  obtain ⟨s1, h1, hM1⟩ := split_block_spec hM hl hL (hW.aligned _ hl b hb)
    (hW.available _ hl b hb) (hW.present _ hl b hb _ ⟨by omega, by omega⟩)
    (fun i hi hin q hq => hW.disjoint.sep hi hl hin (by
      rw [hL]
      rcases List.mem_append.mp hq with e | e
      · exact List.mem_append_left _ e
      · have : q = b := by simpa using e
        subst this; simp))
    (fun i hi => hW.disjoint.inner hi hl hb hpos hlt) hlen (hW.bounded _ hl b hb)
  refine ⟨s1, h1, ?_⟩
  rw [hL, erase_split hn]
  exact hM1

theorem split_block_zero {F : Frames} {s : State} {b fuel : Nat}
    (hty : F.type b = PageDescriptorType.AVAILABLE) :
    split_block F s (some b) 0 fuel = .error Fault.assertion := by
  simp [split_block, alignment_ok b (Nat.zero_le _), pgd_to_pfn, hty, bind, Except.bind]

theorem merge_block_top {F : Frames} {s : State} {pgd : Option Nat} {fuel O : Nat}
    (h : MAX_ORDER ≤ O) : merge_block F s pgd O fuel = .error Fault.assertion := by
  have : ¬ (O ≤ MAX_ORDER - 1) := by unfold MAX_ORDER at *; omega
  simp [merge_block, this]

theorem mem_of_mem_erase' {l : List Nat} {a q : Nat} (h : q ∈ l.erase a) : q ∈ l :=
  List.mem_of_mem_erase h

/-- Either every free list from `order` up is empty, or there is a smallest
non-empty one. -/
theorem smallest_nonempty (L : Nat → List Nat) (order : Nat) :
    (∀ j, order ≤ j → j ≤ MAX_ORDER → L j = []) ∨
    ∃ k p tail, order ≤ k ∧ k ≤ MAX_ORDER ∧ (∀ j, order ≤ j → j < k → L j = []) ∧
      L k = p :: tail := by
  classical
  by_cases h : ∃ k, order ≤ k ∧ k ≤ MAX_ORDER ∧ L k ≠ []
  · right
    have hs := Nat.find_spec h
    have hm := fun j (hj : j < Nat.find h) => Nat.find_min h hj
    cases hl : L (Nat.find h) with
    | nil => exact absurd hl hs.2.2
    | cons p tail =>
      refine ⟨Nat.find h, p, tail, hs.1, hs.2.1, ?_, hl⟩
      intro j hj1 hj2
      by_contra e
      exact hm j hj2 ⟨hj1, by omega, e⟩
  · left
    intro j hj1 hj2
    by_contra e
    exact h ⟨j, hj1, hj2, e⟩

/-- On a store with aligned free lists, `insert_page_range` of a range that
overlaps no free block returns and the alignment invariant still holds. -/
theorem insert_page_range_keeps_aligned (fuel : Nat) (hfuel : 0 < fuel) :
    ∀ (n : Nat) (s : State) (L : Nat → List Nat) (start count : Nat), count < n →
      Models s L → Aligned L →
      (∀ i, i ≤ MAX_ORDER → ∀ q, q ∈ L i → ∀ f, start ≤ f → f < start + count →
        ¬ InBlock q i f) →
      ∃ s' L', insert_page_range.loop fuel n s (some start) count = .ok s' ∧ Models s' L' ∧
        Aligned L'
  | 0, _, _, _, _, h, _, _, _ => absurd h (by omega)
  | n + 1, s, L, start, count, h, hM, hA, hfresh => by
    by_cases hc : 0 < count
    · obtain ⟨o, h1, h2, h3, h4, _⟩ := pick_spec start count hc MAX_ORDER (le_refl _)
      have hpos : 0 < 2 ^ o := Nat.two_pow_pos o
      have hfr : ∀ i, i ≤ MAX_ORDER → ∀ q, q ∈ L i → ∀ f, InBlock start o f →
          ¬ InBlock q i f := by
        intro i hi q hq f hf
        exact hfresh i hi q hq f hf.1 (by have := hf.2; omega)
      obtain ⟨s1, hi1, hM1⟩ := insertFree_spec hM h2 (not_mem_of_fresh hfr) hfuel
      obtain ⟨s', L', h', hM', hA'⟩ := insert_page_range_keeps_aligned fuel hfuel n s1 _
        (start + 2 ^ o) (count - 2 ^ o) (by omega) hM1
        (Aligned.update hA (by
          intro q hq
          rcases List.mem_cons.mp hq with e | hq
          · subst e; exact h4
          · exact hA o h2 q hq))
        (by
          intro i hi q hq f hf1 hf2
          rcases mem_update_cons.mp hq with ⟨rfl, rfl⟩ | hq'
          · unfold InBlock; omega
          · exact hfresh i hi q hq' f (by omega) (by omega))
      refine ⟨s', L', ?_, hM', hA'⟩
      simp only [insert_page_range.loop, gt_iff_lt, hc, if_true, h1, alignment_ok start h2, h4,
        decide_True, Bool.not_true, blockPages_ok h2, bind, Except.bind, hi1,
        Bool.false_eq_true, if_false, Option.map_some']
      exact h'
    · have : count = 0 := by omega
      subst this
      exact ⟨s, L, by simp [insert_page_range.loop, pure, Except.pure], hM, hA⟩

theorem models_buddies : Models State.buddies twoBlocks := by
  intro j _
  by_cases h : j = 1 <;> simp [State.buddies, twoBlocks, h, Chain]

theorem mem_twoBlocks {j q : Nat} (h : q ∈ twoBlocks j) : j = 1 ∧ (q = 0 ∨ q = 2) := by
  by_cases hj : j = 1
  · subst hj
    simpa [twoBlocks] using h
  · simp [twoBlocks, hj] at h

theorem wellFormed_twoBlocks : WellFormed Frames.all twoBlocks where
  aligned := by
    intro j _ q hq
    obtain ⟨rfl, h | h⟩ := mem_twoBlocks hq <;> subst h <;> decide
  disjoint := by
    refine ⟨?_, ?_⟩
    · intro j _
      by_cases hj : j = 1 <;> simp [twoBlocks, hj]
    · intro i j a b f _ _ ha hb h1 h2
      have ha' := mem_twoBlocks ha
      have hb' := mem_twoBlocks hb
      unfold InBlock at h1 h2
      refine ⟨ha'.1.trans hb'.1.symm, ?_⟩
      rw [ha'.1] at h1
      rw [hb'.1] at h2
      have e : (2 : Nat) ^ 1 = 2 := rfl
      rw [e] at h1 h2
      omega
  available := fun _ _ _ _ => rfl
  present := fun _ _ _ _ _ _ => rfl
  bounded := by
    intro j _ q hq
    obtain ⟨_, h | h⟩ := mem_twoBlocks hq <;> subst h <;> norm_num

theorem twoBlocks_length (j : Nat) : (twoBlocks j).length ≤ 2 := by
  by_cases h : j = 1 <;> simp [twoBlocks, h]

/-! ## Seeding by `init` -/

/-- C12. The flag returned by `init(pool, count)` is true exactly when
`count > 0` and `pool` is non-null; and on a fresh store (every list head
empty, every `next_free` null) a successful `init` leaves exactly one free
block, the one starting at the first descriptor of the pool, on free list
`MAX_ORDER - 1`, with every other free list empty. -/
theorem init_seeds (s : State) (pool : Option Nat) (count : Nat) :
    ((init s pool count).2 = true ↔ (0 < count ∧ pool ≠ none)) ∧
    ((∀ j, s._free_areas j = none) → (∀ p, s.next_free p = none) →
      (init s pool count).2 = true →
      ∃ p, pool = some p ∧ Models (init s pool count).1 (oneBlock (MAX_ORDER - 1) p)) := by
  refine ⟨by simp [init], ?_⟩
  intro hh hn hs
  have hp : pool ≠ none := by
    simp [init] at hs
    exact hs.2
  obtain ⟨p, rfl⟩ := Option.ne_none_iff_exists'.mp hp
  refine ⟨p, rfl, ?_⟩
  intro j _
  by_cases hj : j = MAX_ORDER - 1
  · subst hj
    simp [init, oneBlock, Chain, hn]
  · simp [init, oneBlock, Chain, hj, Function.update_noteq hj, hh]

/-! ## `remove_page_range` on an order-4 block -/

/-- C13, from the store whose only free block is block 0 of order 4:
`remove_page_range(0, 1)` returns with block 0 of order 4 still on free
list 4 and nothing else free, so frame 0 was not removed and the remainder
`[1, 16)` was not decomposed; and `remove_page_range(0, 2)` leaves the blocks
1, 2, 4 and 8 of orders 0 to 3, so frame 1 of the range is still free. -/
theorem remove_page_range_order4 :
    (∃ s', remove_page_range Frames.all (State.single 4 0) 0 1 6 = .ok s' ∧
      s'.dump 6 =
        [some [], some [], some [], some [], some [0], some [], some [], some [], some [],
         some [], some [], some [], some [], some [], some [], some [], some [], some [],
         some []]) ∧
    (∃ s', remove_page_range Frames.all (State.single 4 0) 0 2 6 = .ok s' ∧
      s'.dump 6 =
        [some [1], some [2], some [4], some [8], some [], some [], some [], some [], some [],
         some [], some [], some [], some [], some [], some [], some [], some [], some [],
         some []]) :=
  ⟨⟨_, rfl, rfl⟩, ⟨_, rfl, rfl⟩⟩

/-! ## Buddy arithmetic -/

/-- At frame `2 ^ 31` the `int` of `buddy_of` is negative: for the order-0
block at that frame the source looks up frame `2 ^ 64 - 2 ^ 31 + 1` instead of
the buddy frame `2 ^ 31 + 1`. -/
theorem buddy_of_wraps :
    buddy_of Frames.all (some (2 ^ 31)) 0 = .ok (some (2 ^ 64 - 2 ^ 31 + 1)) :=
  rfl

/-! ## Contracts of `merge_block`, `split_block` and `buddy_of` -/

/-- C17, counterexample: on the empty store, block 0 is aligned to order 1, of
type `AVAILABLE` and on no free list, yet `split_block(block 0, 1)` returns it
and puts frames 1 and 0 on free list 0. -/
theorem split_block_accepts_unlisted :
    (State.seed (fun _ => none)).freeList 3 1 = some [] ∧
    ∃ s', split_block Frames.all (State.seed (fun _ => none)) (some 0) 1 3 = .ok (some 0, s') ∧
      s'.freeList 3 0 = some [1, 0] :=
  ⟨rfl, _, rfl, rfl⟩

/-- C17, amended. For every store and every source order up to `MAX_ORDER`:
if the block is not aligned to the source order, or the type of its
descriptor is not `AVAILABLE`, `split_block` returns null and leaves the
whole store (every list head and every `next_free` link) unchanged.
Otherwise it never returns null, whether or not the block is on the free list
of the source order: whenever the call returns, it returns the block. -/
theorem split_block_guard {F : Frames} {s : State} {b O : Nat} (fuel : Nat)
    (hO : O ≤ MAX_ORDER) :
    (¬ 2 ^ O ∣ b ∨ F.type b ≠ PageDescriptorType.AVAILABLE →
      split_block F s (some b) O fuel = .ok (none, s)) ∧
    (2 ^ O ∣ b → F.type b = PageDescriptorType.AVAILABLE →
      ∀ r s', split_block F s (some b) O fuel = .ok (r, s') → r = some b) := by
  refine ⟨?_, ?_⟩
  · intro h
    by_cases hal : 2 ^ O ∣ b
    · have hty : F.type b ≠ PageDescriptorType.AVAILABLE := by
        rcases h with h | h
        · exact absurd hal h
        · exact h
      simp [split_block, alignment_ok b hO, hal, pgd_to_pfn, hty, bind, Except.bind, pure,
        Except.pure]
    · simp [split_block, alignment_ok b hO, hal, bind, Except.bind, pure, Except.pure]
  · intro hal hty r s' h
    cases O with
    | zero =>
      simp [split_block, alignment_ok b hO, hal, pgd_to_pfn, hty, bind, Except.bind] at h
    | succ l =>
      simp only [split_block, alignment_ok b hO, hal, decide_True, Bool.not_true,
        Bool.false_eq_true, if_false, pgd_to_pfn, hty, ne_eq, not_true_eq_false, bind,
        Except.bind, pure, Except.pure] at h
      cases hb : buddy_of F (some b) l with
      | error e => rw [hb] at h; simp at h
      | ok other =>
        rw [hb] at h
        simp only at h
        cases h1 : removeFree s (some b) (l + 1) fuel with
        | error e => rw [h1] at h; simp at h
        | ok s1 =>
          rw [h1] at h
          simp only at h
          cases h2 : insertFree s1 (some b) l fuel with
          | error e => rw [h2] at h; simp at h
          | ok s2 =>
            rw [h2] at h
            simp only at h
            cases h3 : insertFree s2 other l fuel with
            | error e => rw [h3] at h; simp at h
            | ok s3 =>
              rw [h3] at h
              simp at h
              exact h.1.symm

/-- C17, amended, on the store with the order-1 buddies 0 and 2 free: frame 1
is not aligned to order 1 and is rejected; block 0, aligned and `AVAILABLE`,
is split and returned. -/
theorem split_block_guard_buddies :
    split_block Frames.all State.buddies (some 1) 1 3 = .ok (none, State.buddies) ∧
    (∀ r s', split_block Frames.all State.buddies (some 0) 1 3 = .ok (r, s') → r = some 0) ∧
    ∃ s', split_block Frames.all State.buddies (some 0) 1 3 = .ok (some 0, s') :=
  ⟨(split_block_guard 3 (by decide)).1 (Or.inl (by decide)),
    (split_block_guard 3 (by decide)).2 (by decide) rfl, _, rfl⟩

/-- C18, counterexample: at order 19 and at order -1, outside the range,
`buddy_of` does not return null but fails the assertion of `checkOrder`; and
at order `MAX_ORDER = 18` an aligned block gets no buddy descriptor either:
the call fails the assertion in `alignment(pgd, 19)`. -/
theorem buddy_of_aborts_outside_range :
    buddy_of.signed Frames.all (some 0) 19 = .error Fault.assertion ∧
    buddy_of.signed Frames.all (some 0) (-1) = .error Fault.assertion ∧
    buddy_of.signed Frames.all (some 0) 18 = .error Fault.assertion :=
  ⟨rfl, rfl, rfl⟩

/-- C18, amended. For a block aligned to `order` that starts below frame
`2 ^ 31` and whose buddy frame has a descriptor, `buddy_of` returns the
buddy's descriptor for every order with `0 ≤ order < MAX_ORDER`; for every
order outside `[0, MAX_ORDER]`, negative or above `MAX_ORDER`, it fails the
assertion of `checkOrder`, whatever the block. -/
theorem buddy_of_signed_order_range (F : Frames) (pgd : Option Nat) (p : Nat) (order : Int) :
    (0 ≤ order → order < MAX_ORDER → 2 ^ order.toNat ∣ p → p < 2 ^ 31 →
      F.present (if 2 ^ (order.toNat + 1) ∣ p then p + 2 ^ order.toNat
        else p - 2 ^ order.toNat) = true →
      buddy_of.signed F (some p) order
        = .ok (some (if 2 ^ (order.toNat + 1) ∣ p then p + 2 ^ order.toNat
            else p - 2 ^ order.toNat))) ∧
    (order < 0 ∨ (MAX_ORDER : Int) < order →
      buddy_of.signed F pgd order = .error Fault.assertion) := by
  refine ⟨?_, ?_⟩
  · intro h0 hO hal hp31 hb
    have hn : ¬ order < 0 := by omega
    have hO' : order.toNat < MAX_ORDER := by omega
    unfold buddy_of.signed
    rw [if_neg hn, buddy_of_ok F p hO' hal hp31]
    simp [pfn_to_pgd, hb]
  · intro h
    unfold buddy_of.signed
    by_cases hn : order < 0
    · rw [if_pos hn]
    · rw [if_neg hn]
      have hO : MAX_ORDER < order.toNat := by omega
      simp [buddy_of, alignment_out_of_range pgd hO, bind, Except.bind]

/-- C18, amended, at block 12: at order 2 `buddy_of` returns the descriptor of
frame 8; at the orders -3 and 40 it fails the assertion, with or without a
descriptor. -/
theorem buddy_of_signed_order_range_twelve :
    buddy_of.signed Frames.all (some 12) 2 = .ok (some 8) ∧
    buddy_of.signed Frames.all (some 12) (-3) = .error Fault.assertion ∧
    buddy_of.signed Frames.all none 40 = .error Fault.assertion :=
  ⟨(buddy_of_signed_order_range Frames.all none 12 2).1 (by decide) (by decide) (by decide)
      (by norm_num) rfl,
    (buddy_of_signed_order_range Frames.all (some 12) 0 (-3)).2 (Or.inl (by decide)),
    (buddy_of_signed_order_range Frames.all none 0 40).2 (Or.inr (by decide))⟩

/-! ## At most one merge per free -/

theorem models_steps : Models State.steps stepBlocks := by
  intro j _
  by_cases h0 : j = 0
  · subst h0; simp [State.steps, State.seed, stepBlocks, Chain]
  · by_cases h1 : j = 1
    · subst h1; simp [State.steps, State.seed, stepBlocks, Chain]
    · simp [State.steps, State.seed, stepBlocks, h0, h1, Chain]

theorem mem_stepBlocks {j q : Nat} (h : q ∈ stepBlocks j) :
    (j = 0 ∧ q = 1) ∨ (j = 1 ∧ q = 2) := by
  by_cases h0 : j = 0
  · subst h0
    left; simpa [stepBlocks] using h
  · by_cases h1 : j = 1
    · subst h1
      right; simpa [stepBlocks] using h
    · simp [stepBlocks, h0, h1] at h

theorem wellFormed_stepBlocks : WellFormed Frames.all stepBlocks where
  aligned := by
    intro j _ q hq
    rcases mem_stepBlocks hq with ⟨h1, h2⟩ | ⟨h1, h2⟩ <;> rw [h1, h2] <;> decide
  disjoint := by
    refine ⟨?_, ?_⟩
    · intro j _
      by_cases h0 : j = 0
      · simp [stepBlocks, h0]
      · by_cases h1 : j = 1 <;> simp [stepBlocks, h0, h1]
    · intro i j a b f _ _ ha hb h1 h2
      unfold InBlock at h1 h2
      rcases mem_stepBlocks ha with ⟨e1, e2⟩ | ⟨e1, e2⟩ <;>
        rcases mem_stepBlocks hb with ⟨e3, e4⟩ | ⟨e3, e4⟩ <;>
        rw [e1, e2] at h1 <;> rw [e3, e4] at h2 <;> simp at h1 h2 <;>
        first
          | exact ⟨e1.trans e3.symm, e2.trans e4.symm⟩
          | omega
  available := fun _ _ _ _ => rfl
  present := fun _ _ _ _ _ _ => rfl
  bounded := by
    intro j _ q hq
    rcases mem_stepBlocks hq with ⟨_, h⟩ | ⟨_, h⟩ <;> subst h <;> norm_num

theorem removeFree_near {s : State} {i p fuel : Nat} (hi : i ≤ MAX_ORDER) (hf : 2 ≤ fuel)
    (h : Near s i p) :
    ∃ s1, removeFree s (some p) i fuel = .ok s1 ∧
      ∀ j, j ≠ i → s1._free_areas j = s._free_areas j := by
  obtain ⟨n, rfl⟩ : ∃ n, fuel = n + 2 := ⟨fuel - 2, by omega⟩
  rcases h with h | ⟨o, hne, h1, h2⟩
  · refine ⟨_, by
      simp only [removeFree, removeFree.loop, State.load, hi, if_true, h, pgd_to_pfn,
        State.store, ne_eq, not_true_eq_false, if_false, bind, Except.bind, pure, Except.pure]
      rfl, ?_⟩
    intro j hj
    simp [State.setNext, Function.update_noteq hj]
  · have hne' : ¬ (p = o) := fun e => hne e.symm
    refine ⟨_, by
      simp only [removeFree, removeFree.loop, State.load, hi, if_true, h1, h2, pgd_to_pfn,
        State.store, ne_eq, Option.some.injEq, hne', not_false_eq_true, not_true_eq_false,
        if_false, bind, Except.bind, pure, Except.pure]
      rfl, ?_⟩
    intro j _
    simp [State.setNext]

theorem insertFree_empty {s : State} {j p fuel : Nat} (hj : j ≤ MAX_ORDER) (hf : 1 ≤ fuel)
    (h : s._free_areas j = none) :
    insertFree s (some p) j fuel
      = .ok { _free_areas := Function.update s._free_areas j (some p),
              next_free := Function.update s.next_free p none } := by
  obtain ⟨n, rfl⟩ : ∃ n, fuel = n + 1 := ⟨fuel - 1, by omega⟩
  simp [insertFree, insertFree.loop, State.load, hj, h, pgd_to_pfn, State.store, State.setNext,
    bind, Except.bind, pure, Except.pure]

theorem insertFree_other {s : State} {j o q fuel : Nat} (hj : j ≤ MAX_ORDER) (hf : 1 ≤ fuel)
    (h : s._free_areas j = some q) (hne : o ≠ q) :
    insertFree s (some o) j fuel
      = .ok { _free_areas := Function.update s._free_areas j (some o),
              next_free := Function.update s.next_free o (some q) } := by
  obtain ⟨n, rfl⟩ : ∃ n, fuel = n + 1 := ⟨fuel - 1, by omega⟩
  simp [insertFree, insertFree.loop, State.load, hj, h, hne, pgd_to_pfn, State.store,
    State.setNext, bind, Except.bind, pure, Except.pure]

theorem insertFree_null (s : State) {j fuel : Nat} (hj : j ≤ MAX_ORDER) (hf : 1 ≤ fuel) :
    insertFree s none j fuel = .error Fault.nullPointer := by
  obtain ⟨n, rfl⟩ : ∃ n, fuel = n + 1 := ⟨fuel - 1, by omega⟩
  cases h : s._free_areas j <;>
    simp [insertFree, insertFree.loop, State.load, hj, h, pgd_to_pfn, bind, Except.bind, pure,
      Except.pure]

theorem intToPfn_add_ne {p l : Nat} (hl : l < 32) : intToPfn (p + 2 ^ l) ≠ p := by
  intro e
  have h1 := intToPfn_mod (p + 2 ^ l)
  rw [e] at h1
  have h2 : p + 0 ≡ p + 2 ^ l [MOD 2 ^ 32] := by
    unfold Nat.ModEq
    rw [Nat.add_zero]
    exact h1
  have h3 : 0 ≡ 2 ^ l [MOD 2 ^ 32] := Nat.ModEq.add_left_cancel' p h2
  have h4 : (2 : Nat) ^ l < 2 ^ 32 := Nat.pow_lt_pow_right (by decide) hl
  unfold Nat.ModEq at h3
  rw [Nat.mod_eq_of_lt h4, Nat.zero_mod] at h3
  have := Nat.two_pow_pos l
  omega

theorem split_block_near {F : Frames} {s : State} {p l fuel : Nat} (hl : l + 1 ≤ MAX_ORDER)
    (hf : 2 ≤ fuel) (hn : Near s (l + 1) p) (he : s._free_areas l = none) :
    split_block F s (some p) (l + 1) fuel = .ok (none, s) ∨
    split_block F s (some p) (l + 1) fuel = .error Fault.nullPointer ∨
    ∃ s', split_block F s (some p) (l + 1) fuel = .ok (some p, s') ∧ Near s' l p ∧
      ∀ j, j < l → s'._free_areas j = s._free_areas j := by
  have hl0 : l ≤ MAX_ORDER := by omega
  have hl1 : l < MAX_ORDER := hl
  by_cases hal : 2 ^ (l + 1) ∣ p
  swap
  · left
    simp [split_block, alignment_ok p hl, hal, bind, Except.bind, pure, Except.pure]
  by_cases hty : F.type p = PageDescriptorType.AVAILABLE
  swap
  · left
    simp [split_block, alignment_ok p hl, hal, pgd_to_pfn, hty, bind, Except.bind, pure,
      Except.pure]
  right
  have hal0 : 2 ^ l ∣ p := pow_dvd_of_succ hal
  obtain ⟨s1, h1, hs1⟩ := @removeFree_near s (l + 1) p fuel hl hf hn
  have he1 : s1._free_areas l = none := by rw [hs1 l (by omega)]; exact he
  have h2 := @insertFree_empty s1 l p fuel hl0 (by omega) he1
  have hbo := buddy_of_eq F p hl1 hal0
  simp only [hal, if_true] at hbo
  by_cases hpr : F.present (intToPfn (p + 2 ^ l)) = true
  · right
    have hne : intToPfn (p + 2 ^ l) ≠ p :=
      intToPfn_add_ne (by unfold MAX_ORDER at hl1; omega)
    have h3 := @insertFree_other
      { _free_areas := Function.update s1._free_areas l (some p),
        next_free := Function.update s1.next_free p none } l (intToPfn (p + 2 ^ l)) p fuel hl0
      (by omega) (by simp) hne
    refine ⟨_, by
      simp only [split_block, alignment_ok p hl, hal, decide_True, Bool.not_true,
        Bool.false_eq_true, if_false, pgd_to_pfn, hty, ne_eq, not_true_eq_false, hbo, pfn_to_pgd,
        hpr, if_true, h1, h2, h3, bind, Except.bind, pure, Except.pure]
      rfl, ?_, ?_⟩
    · right
      exact ⟨intToPfn (p + 2 ^ l), hne, by simp, by simp⟩
    · intro j hj
      have hjl : j ≠ l := by omega
      simp only [Function.update_idem, Function.update_noteq hjl]
      exact hs1 j (by omega)
  · left
    simp only [split_block, alignment_ok p hl, hal, decide_True, Bool.not_true,
      Bool.false_eq_true, if_false, pgd_to_pfn, hty, ne_eq, not_true_eq_false, hbo, pfn_to_pgd,
      hpr, h1, h2, insertFree_null _ hl0 (show 1 ≤ fuel by omega), bind, Except.bind, pure,
      Except.pure]

theorem split_block_null_fault {F : Frames} {s : State} {i fuel : Nat} (hi : i ≤ MAX_ORDER) :
    split_block F s none i fuel = .error Fault.nullPointer := by
  simp [split_block, alignment, checkOrder, hi, pgd_to_pfn, bind, Except.bind]

theorem removeFree_null_fault {s : State} {j fuel : Nat} (hj : j ≤ MAX_ORDER) (hf : 1 ≤ fuel)
    (h : s._free_areas j = none) :
    removeFree s none j fuel = .error Fault.nullPointer := by
  obtain ⟨n, rfl⟩ : ∃ n, fuel = n + 1 := ⟨fuel - 1, by omega⟩
  simp [removeFree, removeFree.loop, State.load, hj, h, pgd_to_pfn, bind, Except.bind, pure,
    Except.pure]

/-- The split loop of `allocate_pages`, started on a block that a walk of its
free list meets within two steps, with the free lists below it empty: every
walk it makes ends within two steps, and so does the `removeFree` that follows
it. -/
theorem splitDown_near {F : Frames} {fuel lo : Nat} (hf : 2 ≤ fuel) :
    ∀ (n : Nat) (s : State) (pgd : Option Nat), lo + n ≤ MAX_ORDER →
      (∀ j, lo ≤ j → j < lo + n → s._free_areas j = none) →
      (∀ p, pgd = some p → Near s (lo + n) p) → (pgd = none → s._free_areas lo = none) →
      (do
        let x ← splitDown F fuel lo n s pgd
        let s2 ← removeFree x.2 x.1 lo fuel
        pure (x.1, s2)) ≠ .error Fault.outOfFuel
  | 0, s, pgd, hn, _, hp, hnone => by
    have hlo : lo ≤ MAX_ORDER := by omega
    cases pgd with
    | none =>
      simp [splitDown, removeFree_null_fault hlo (show 1 ≤ fuel by omega) (hnone rfl), bind,
        Except.bind, pure, Except.pure]
    | some p =>
      obtain ⟨s1, h1, _⟩ := @removeFree_near s lo p fuel hlo hf (hp p rfl)
      simp [splitDown, h1, bind, Except.bind, pure, Except.pure]
  | n + 1, s, pgd, hn, he, hp, _ => by
    have hl : lo + n + 1 ≤ MAX_ORDER := hn
    cases pgd with
    | none =>
      simp [splitDown, split_block_null_fault hl, bind, Except.bind]
    | some p =>
      have hlast : s._free_areas (lo + n) = none := he (lo + n) (by omega) (by omega)
      have hlo : s._free_areas lo = none := he lo (le_refl _) (by omega)
      rcases @split_block_near F s p (lo + n) fuel hl hf (hp p rfl) hlast with h | h | ⟨s', h, hN, hs'⟩
      · have ih := @splitDown_near F fuel lo hf n s none (by omega)
          (fun j a b => he j a (by omega)) (fun p e => by simp at e) (fun _ => hlo)
        simpa only [splitDown, h, bind, Except.bind] using ih
      · simp [splitDown, h, bind, Except.bind]
      · have ih := @splitDown_near F fuel lo hf n s' (some p) (by omega)
          (fun j a b => by rw [hs' j b]; exact he j a (by omega))
          (fun q e => by
            have : p = q := Option.some.inj e
            subst this; exact hN) (fun e => by simp at e)
        simpa only [splitDown, h, bind, Except.bind] using ih

theorem search_result (s : State) :
    ∀ (n t r : Nat), allocate_pages.search s n t = .ok r →
      t ≤ r ∧ (∀ j, t ≤ j → j < r → s._free_areas j = none) ∧
        (r < t + n → s._free_areas r ≠ none)
  | 0, t, r, h => by
    have : t = r := by simpa [allocate_pages.search, pure, Except.pure] using h
    subst this
    exact ⟨le_refl _, fun j a b => absurd b (by omega), fun a => absurd a (by omega)⟩
  | n + 1, t, r, h => by
    simp only [allocate_pages.search, bind, Except.bind] at h
    by_cases ht : t ≤ MAX_ORDER
    swap
    · simp [State.load, ht] at h
    simp only [State.load, ht, if_true] at h
    by_cases hh : s._free_areas t = none
    · simp only [hh, if_true] at h
      obtain ⟨h1, h2, h3⟩ := search_result s n (t + 1) r h
      refine ⟨by omega, ?_, fun a => h3 (by omega)⟩
      intro j a b
      by_cases e : j = t
      · subst e; exact hh
      · exact h2 j (by omega) b
    · simp only [hh, if_false] at h
      obtain ⟨h1, h2, _⟩ := search_result s n t r h
      have hrt : r = t := by
        by_contra e
        exact hh (h2 t (le_refl _) (by omega))
      subst hrt
      exact ⟨le_refl _, h2, fun _ => hh⟩

theorem search_fault (s : State) :
    ∀ (n t : Nat), allocate_pages.search s n t ≠ .error Fault.outOfFuel
  | 0, t => by simp [allocate_pages.search, pure, Except.pure]
  | n + 1, t => by
    simp only [allocate_pages.search, bind, Except.bind]
    by_cases ht : t ≤ MAX_ORDER
    · simp only [State.load, ht, if_true]
      exact search_fault s n _
    · simp [State.load, ht]

/-- On every store, `allocate_pages` ends once each walk may take two steps. -/
theorem allocate_pages_terminates (F : Frames) (s : State) (order : Nat) {fuel : Nat}
    (hf : 2 ≤ fuel) : allocate_pages F s order fuel ≠ .error Fault.outOfFuel := by
  by_cases ho : order ≤ MAX_ORDER
  swap
  · simp [allocate_pages, checkOrder, ho, bind, Except.bind]
  cases hs : allocate_pages.search s (MAX_ORDER + 1 - order) order with
  | error e =>
    have := search_fault s (MAX_ORDER + 1 - order) order
    rw [hs] at this
    simp only [allocate_pages, checkOrder_ok ho, hs, bind, Except.bind]
    intro e'
    apply this
    rw [Except.error.injEq] at e' ⊢
    exact e'
  | ok r =>
    obtain ⟨h1, h2, h3⟩ := search_result s _ _ r hs
    by_cases hr : r ≤ MAX_ORDER
    swap
    · simp [allocate_pages, checkOrder_ok ho, hs, State.load, hr, bind, Except.bind]
    have hhead := h3 (by omega)
    obtain ⟨p, hp⟩ := Option.ne_none_iff_exists'.mp hhead
    have hsum : order + (r - order) = r := by omega
    have := @splitDown_near F fuel order hf (r - order) s (some p) (by omega)
      (fun j a b => h2 j a (by omega))
      (fun q e => by
        have : p = q := Option.some.inj e
        subst this; rw [hsum]; exact Or.inl hp) (fun e => by simp at e)
    simpa only [allocate_pages, checkOrder_ok ho, hs, State.load, hr, if_true, hp, bind,
      Except.bind] using this

theorem bind_fault {α β : Type} {x : Except Fault α} {f : α → Except Fault β}
    (hx : x ≠ .error Fault.outOfFuel) (hf : ∀ a, x = .ok a → f a ≠ .error Fault.outOfFuel) :
    (x >>= f) ≠ .error Fault.outOfFuel := by
  cases x with
  | error e =>
    intro h
    apply hx
    simp only [bind, Except.bind, Except.error.injEq] at h
    rw [h]
  | ok a => exact hf a rfl

theorem checkOrder_fault (k : Nat) : checkOrder k ≠ .error Fault.outOfFuel := by
  unfold checkOrder
  split <;> simp

theorem blockPages_fault (k : Nat) : blockPages k ≠ .error Fault.outOfFuel := by
  unfold blockPages
  exact bind_fault (checkOrder_fault k) (fun _ _ => by simp [pure, Except.pure])

theorem blockPages_pos {k block : Nat} (h : blockPages k = .ok block) : 0 < block := by
  unfold blockPages at h
  cases hc : checkOrder k with
  | error e => simp [hc, bind, Except.bind] at h
  | ok u =>
    simp only [hc, bind, Except.bind, pure, Except.pure, Except.ok.injEq] at h
    rw [← h, Nat.shiftLeft_eq]
    have := Nat.two_pow_pos k
    omega

theorem pgd_to_pfn_fault (pgd : Option Nat) : pgd_to_pfn pgd ≠ .error Fault.outOfFuel := by
  cases pgd <;> simp [pgd_to_pfn]

theorem alignment_fault (pgd : Option Nat) (k : Nat) :
    alignment pgd k ≠ .error Fault.outOfFuel := by
  unfold alignment
  refine bind_fault (checkOrder_fault k) (fun _ _ => ?_)
  refine bind_fault (pgd_to_pfn_fault pgd) (fun _ _ => ?_)
  exact bind_fault (blockPages_fault k) (fun _ _ => by simp [pure, Except.pure])

theorem tooBig_fault (start : Option Nat) (count k : Nat) :
    insert_page_range.tooBig start count k ≠ .error Fault.outOfFuel := by
  unfold insert_page_range.tooBig
  refine bind_fault (blockPages_fault k) (fun block _ => ?_)
  split
  · simp [pure, Except.pure]
  · exact bind_fault (alignment_fault start k) (fun _ _ => by simp [pure, Except.pure])

theorem pick_fault (start : Option Nat) (count : Nat) :
    ∀ k, insert_page_range.pick start count k ≠ .error Fault.outOfFuel
  | 0 => by
    unfold insert_page_range.pick
    refine bind_fault (tooBig_fault start count 0) (fun b _ => ?_)
    cases b <;> simp [pure, Except.pure]
  | k + 1 => by
    unfold insert_page_range.pick
    refine bind_fault (tooBig_fault start count (k + 1)) (fun b _ => ?_)
    cases b
    · simp [pure, Except.pure]
    · simpa using pick_fault start count k

/-- A call of `insertFree` on a descriptor that is not its own `next_free` while
it heads a free list: the walk ends within two steps, only the `next_free` of
the descriptor changes, and a head either stays or becomes the descriptor. -/
theorem insertFree_two_steps {s : State} {p j fuel : Nat} (hf : 2 ≤ fuel)
    (hself : ∀ i, i ≤ MAX_ORDER → s._free_areas i = some p → s.next_free p ≠ some p) :
    insertFree s (some p) j fuel = .error Fault.outOfBounds ∨
    ∃ s', insertFree s (some p) j fuel = .ok s' ∧
      (∀ q, q ≠ p → s'.next_free q = s.next_free q) ∧
      (∀ i, s'._free_areas i = s._free_areas i ∨ s'._free_areas i = some p) := by
  obtain ⟨n, rfl⟩ : ∃ n, fuel = n + 2 := ⟨fuel - 2, by omega⟩
  by_cases hj : j ≤ MAX_ORDER
  swap
  · left
    simp [insertFree, insertFree.loop, State.load, hj, bind, Except.bind]
  right
  have harea : ∀ (v : Option Nat), s._free_areas j = v → v ≠ some p →
      insertFree.loop s (some p) (n + 2) (.area j) = .ok (.area j) := by
    intro v hv hne
    cases v with
    | none => simp [insertFree.loop, State.load, hj, hv, bind, Except.bind, pure, Except.pure]
    | some q =>
      have : ¬ (p = q) := fun e => hne (by rw [e])
      simp [insertFree.loop, State.load, hj, hv, this, bind, Except.bind, pure, Except.pure]
  by_cases hh : s._free_areas j = some p
  · have hnext := hself j hj hh
    have hloop : insertFree.loop s (some p) (n + 2) (.area j) = .ok (.link p) := by
      cases hv : s.next_free p with
      | none =>
        simp [insertFree.loop, State.load, hj, hh, hv, bind, Except.bind, pure, Except.pure]
      | some q =>
        have : ¬ (p = q) := fun e => hnext (by rw [hv, e])
        simp [insertFree.loop, State.load, hj, hh, hv, this, bind, Except.bind, pure,
          Except.pure]
    refine ⟨_, by
      simp only [insertFree, hloop, State.load, pgd_to_pfn, State.store, bind, Except.bind]
      rfl, ?_, ?_⟩
    · intro q hq
      simp [State.setNext, Function.update_noteq hq]
    · intro i
      left
      simp [State.setNext]
  · have hloop := harea _ rfl hh
    refine ⟨_, by
      simp only [insertFree, hloop, State.load, hj, if_true, pgd_to_pfn, State.store, bind,
        Except.bind]
      rfl, ?_, ?_⟩
    · intro q hq
      simp [State.setNext, Function.update_noteq hq]
    · intro i
      by_cases hij : i = j
      · right; subst hij; simp [State.setNext]
      · left; simp [State.setNext, Function.update_noteq hij]

/-- The outer loop of `insert_page_range` ends within `count + 1` iterations,
each walk of `insertFree` within two steps, when no head descriptor at or
above `start` is its own `next_free`. -/
theorem insert_page_range_loop_terminates {fuel : Nat} (hf : 2 ≤ fuel) :
    ∀ (n : Nat) (s : State) (start : Option Nat) (count : Nat), count < n →
      (∀ p, start = some p → ∀ q, p ≤ q → ∀ i, i ≤ MAX_ORDER → s._free_areas i = some q →
        s.next_free q ≠ some q) →
      insert_page_range.loop fuel n s start count ≠ .error Fault.outOfFuel
  | 0, _, _, _, hc, _ => absurd hc (by omega)
  | n + 1, s, start, count, hc, hinv => by
    unfold insert_page_range.loop
    by_cases h0 : count > 0
    swap
    · simp [h0, pure, Except.pure]
    simp only [h0, if_true]
    refine bind_fault (pick_fault start count MAX_ORDER) (fun oc _ => ?_)
    refine bind_fault (alignment_fault start oc) (fun a ha => ?_)
    cases a
    · simp
    simp only [Bool.not_true, Bool.false_eq_true, if_false]
    cases start with
    | none => exact absurd ha (alignment_null oc true)
    | some p =>
      have hins := @insertFree_two_steps s p oc fuel hf
        (fun i hi hh => hinv p rfl p (le_refl _) i hi hh)
      rcases hins with hins | ⟨s1, hins, hnext, hheads⟩
      · simp [hins, bind, Except.bind]
      simp only [hins, bind, Except.bind]
      cases hb : blockPages oc with
      | error e =>
        have := blockPages_fault oc
        rw [hb] at this
        intro e'
        apply this
        rw [Except.error.injEq] at e' ⊢
        exact e'
      | ok block =>
        have hpos := blockPages_pos hb
        apply insert_page_range_loop_terminates hf n s1 _ (count - block) (by omega)
        intro p' hp' q hq i hi hh
        have e : p' = p + block := by
          simp only [Option.map_some', Option.some.injEq] at hp'
          exact hp'.symm
        have hqp : q ≠ p := by omega
        rw [hnext q hqp]
        rcases hheads i with h1 | h1
        · rw [h1] at hh
          exact hinv p rfl q (by omega) i hi hh
        · rw [h1] at hh
          exact absurd (Option.some.inj hh).symm hqp

theorem head_not_self_loop {s : State} {L : Nat → List Nat} (hM : Models s L) {i q : Nat}
    (hi : i ≤ MAX_ORDER) (hh : s._free_areas i = some q) : s.next_free q ≠ some q := by
  have hc := hM i hi
  rw [hh] at hc
  cases hl : L i with
  | nil =>
    rw [hl] at hc
    exact absurd hc (by simp [Chain])
  | cons r t =>
    rw [hl] at hc
    have e : q = r := Option.some.inj hc.1
    subst e
    intro hs
    have hc2 := hc.2
    rw [hs] at hc2
    cases ht : t with
    | nil =>
      rw [ht] at hc2
      exact absurd hc2 (by simp [Chain])
    | cons r' t' =>
      rw [ht] at hc2
      have e : q = r' := Option.some.inj hc2.1
      have := Chain.not_mem_tail hc
      rw [ht, ← e] at this
      simp at this

/-- On a store whose free lists are finite and acyclic, `insert_page_range`
ends for every start and count. -/
theorem insert_page_range_terminates {s : State} {L : Nat → List Nat} (hM : Models s L)
    (start : Option Nat) (count : Nat) {fuel : Nat} (hf : count + 2 ≤ fuel) :
    insert_page_range s start count fuel ≠ .error Fault.outOfFuel :=
  insert_page_range_loop_terminates (by omega) fuel s start count (by omega)
    (fun _ _ _ _ _ hi hh => head_not_self_loop hM hi hh)

/-- The call `free_pages(b, O)` below `MAX_ORDER` when the scan of free list
`O` never meets the buddy descriptor (it is not on the list, or the lookup of
its frame number is null): the block is put at the head of free list `O` and
nothing is merged. -/
theorem free_pages_miss {F : Frames} {s : State} {L : Nat → List Nat} {b O fuel : Nat}
    (hM : Models s L) (hlt : O < MAX_ORDER) (hal : 2 ^ O ∣ b)
    (hfresh : ∀ i, i ≤ MAX_ORDER → b ∉ L i)
    (hmiss : ∀ f, f ∈ L O →
      pfn_to_pgd F (if 2 ^ (O + 1) ∣ b then b + 2 ^ O else b - 2 ^ O) ≠ some f)
    (hf : (L O).length + 3 ≤ fuel) (hb31 : b < 2 ^ 31) :
    ∃ s', free_pages F s (some b) O fuel = .ok s' ∧
      Models s' (Function.update L O (b :: L O)) := by
  have hO : O ≤ MAX_ORDER := by omega
  have hfpos : 0 < fuel := by omega
  obtain ⟨s1, h1, hM1⟩ := insertFree_spec hM hO hfresh hfpos
  refine ⟨s1, ?_, hM1⟩
  have hbne : (if 2 ^ (O + 1) ∣ b then b + 2 ^ O else b - 2 ^ O) ≠ b := buddy_ne hal
  have hbo := buddy_of_ok F b hlt hal hb31
  generalize (if 2 ^ (O + 1) ∣ b then b + 2 ^ O else b - 2 ^ O) = bud at hmiss hbne hbo
  have hc1 := hM1 O hO
  rw [Function.update_same] at hc1
  have hhead : s1._free_areas O = some b := hc1.1
  rw [hhead] at hc1
  obtain ⟨k, hk⟩ : ∃ k, MAX_ORDER - O = k + 1 := ⟨MAX_ORDER - O - 1, by omega⟩
  obtain ⟨m, hm⟩ : ∃ m, fuel = (b :: L O).length + m + 1 :=
    ⟨fuel - ((L O).length + 2), by simp; omega⟩
  have hscan : mergingOfPgd.whileLoop F fuel O fuel s1 (pfn_to_pgd F bud) (some b)
      = .ok (false, s1, pfn_to_pgd F bud, none) := by
    conv => lhs; arg 4; rw [hm]
    apply whileLoop_miss m (b :: L O) (some b) hc1
    intro f hf e
    rcases List.mem_cons.mp hf with e2 | e2
    · have e' : bud = f := by
        unfold pfn_to_pgd at e
        split at e
        · exact Option.some.inj e
        · simp at e
      exact hbne (e'.trans e2)
    · exact hmiss f e2 e
  simp only [free_pages, alignment_ok b hO, hal, decide_True, Bool.not_true, Bool.false_eq_true,
    if_false, h1, hlt, if_true, mergingOfPgd, not_true_eq_false, hbo,
    State.load, hO, hhead, hk, mergingOfPgd.forLoop, hscan, bind, Except.bind]
  exact forLoop_idle hfpos s1 _ k (O + 1)

/-- The call `free_pages(b, O)` when the buddy of `b` is on free list `O` and no
descriptor of that list is on another list: the two are merged; then the call
either fails the assertion of `buddy_of` at `MAX_ORDER` (when
`O = MAX_ORDER - 1`) or returns after this single merge. -/
theorem free_pages_merge_sep {F : Frames} {s : State} {L : Nat → List Nat} {b O fuel : Nat}
    (hM : Models s L) (hO : O < MAX_ORDER) (hal : 2 ^ O ∣ b)
    (hpb : F.present b = true) (hfresh : ∀ i, i ≤ MAX_ORDER → b ∉ L i)
    (hbud : (if 2 ^ (O + 1) ∣ b then b + 2 ^ O else b - 2 ^ O) ∈ L O)
    (hpbud : F.present (if 2 ^ (O + 1) ∣ b then b + 2 ^ O else b - 2 ^ O) = true)
    (hsep : ∀ i, i ≤ MAX_ORDER → i ≠ O → ∀ q, q ∈ L O → q ∉ L i)
    (hf : (L O).length + (L (O + 1)).length + 5 ≤ fuel) (hb31 : b < 2 ^ 31) :
    (O + 1 = MAX_ORDER → free_pages F s (some b) O fuel = .error Fault.assertion) ∧
    (O + 1 < MAX_ORDER → ∃ s', free_pages F s (some b) O fuel = .ok s' ∧
      Models s' (Function.update
        (Function.update L O ((L O).erase (if 2 ^ (O + 1) ∣ b then b + 2 ^ O else b - 2 ^ O)))
        (O + 1) ((if 2 ^ (O + 1) ∣ b then b else b - 2 ^ O) :: L (O + 1)))) := by
  have hO0 : O ≤ MAX_ORDER := by omega
  have hne : O + 1 ≠ O := by omega
  have hfpos : 0 < fuel := by omega
  obtain ⟨s1, h1, hM1⟩ := insertFree_spec hM hO0 hfresh hfpos
  obtain ⟨a1, a2, ha⟩ := List.append_of_mem hbud
  have hn : (a1 ++ (if 2 ^ (O + 1) ∣ b then b + 2 ^ O else b - 2 ^ O) :: a2).Nodup := by
    have := Chain.nodup (hM O hO0)
    rwa [ha] at this
  have hlen : (L O).length = a1.length + (a2.length + 1) := by rw [ha]; simp
  have hhit := @mergingOfPgd_hit F s1 _ b O fuel a1 a2 hM1 hO hal
    (by rw [Function.update_same, ha]; rfl) hpb hpbud
    (by
      intro i hi hin q hq
      rw [Function.update_same] at hq
      rw [Function.update_noteq hin]
      rcases List.mem_cons.mp hq with e | e
      · subst e; exact hfresh i hi
      · exact hsep i hi hin q e)
    (by rw [Function.update_noteq hne]; omega) hb31
  have hfree : free_pages F s (some b) O fuel = mergingOfPgd F s1 (some b) O fuel := by
    simp [free_pages, alignment_ok b hO0, hal, h1, hO, bind, Except.bind]
  rw [hfree, ha, erase_split hn]
  refine ⟨hhit.1, fun hlt => ?_⟩
  obtain ⟨s', h', hM'⟩ := hhit.2 hlt
  refine ⟨s', h', ?_⟩
  rw [Function.update_idem, Function.update_noteq hne] at hM'
  exact hM'

/-- On a store whose free lists are finite, acyclic and share no descriptor,
`free_pages` of a block that is on no free list ends. -/
theorem free_pages_terminates {F : Frames} {s : State} {L : Nat → List Nat} (hM : Models s L)
    (hD : ∀ i j, i ≤ MAX_ORDER → j ≤ MAX_ORDER → i ≠ j → ∀ q, q ∈ L i → q ∉ L j)
    {b O fuel : Nat} (hb31 : b < 2 ^ 31) (hpb : F.present b = true)
    (hfresh : ∀ i, i ≤ MAX_ORDER → b ∉ L i)
    (hf : (L O).length + (L (O + 1)).length + 5 ≤ fuel) :
    free_pages F s (some b) O fuel ≠ .error Fault.outOfFuel := by
  by_cases hO : O ≤ MAX_ORDER
  swap
  · simp [free_pages, alignment_out_of_range (some b) (show MAX_ORDER < O by omega), bind,
      Except.bind]
  by_cases hal : 2 ^ O ∣ b
  swap
  · simp [free_pages, alignment_ok b hO, hal, bind, Except.bind]
  by_cases hmax : O = MAX_ORDER
  · obtain ⟨s', h, _⟩ := @free_pages_no_merge F s L b O fuel hM hO hal hfresh (Or.inl hmax)
      (by omega) hb31
    rw [h]; simp
  have hlt : O < MAX_ORDER := by omega
  by_cases hmiss : ∀ f, f ∈ L O →
      pfn_to_pgd F (if 2 ^ (O + 1) ∣ b then b + 2 ^ O else b - 2 ^ O) ≠ some f
  · obtain ⟨s', h, _⟩ := @free_pages_miss F s L b O fuel hM hlt hal hfresh hmiss (by omega)
      hb31
    rw [h]; simp
  · push_neg at hmiss
    obtain ⟨f, hfm, he⟩ := hmiss
    have hpbud : F.present (if 2 ^ (O + 1) ∣ b then b + 2 ^ O else b - 2 ^ O) = true := by
      by_contra hc
      simp [pfn_to_pgd, hc] at he
    have hbf : (if 2 ^ (O + 1) ∣ b then b + 2 ^ O else b - 2 ^ O) = f := by
      simp only [pfn_to_pgd, hpbud, if_true] at he
      exact Option.some.inj he
    rw [← hbf] at hfm
    have hm := @free_pages_merge_sep F s L b O fuel hM hlt hal hpb hfresh hfm hpbud
      (fun i hi hin q hq => hD O i hO hi (fun e => hin e.symm) q hq) hf hb31
    by_cases hmax1 : O + 1 = MAX_ORDER
    · rw [hm.1 hmax1]; simp
    · obtain ⟨s', h, _⟩ := hm.2 (by omega)
      rw [h]; simp

theorem whileLoop_self_loop (F : Frames) (fuel t : Nat) {s : State} {q : Nat}
    (h : s.next_free q = some q) :
    ∀ n, mergingOfPgd.whileLoop F fuel t n s none (some q) = .error Fault.outOfFuel
  | 0 => rfl
  | n + 1 => by
    simp only [mergingOfPgd.whileLoop, ne_eq, not_false_eq_true, if_true, h]
    simpa using whileLoop_self_loop F fuel t h n

/-- On the store `State.shared`, `free_pages(frame 1, 0)` merges frames 0 and 1
into block 0 of order 1, which leaves descriptor 0 as its own `next_free` at
the head of free list 1, finds no descriptor for frame 2, and goes on to scan
free list 1 for a null buddy. -/
theorem shared_rescan (k : Nat) :
    ∃ (s2 : State) (g : Bool × State × Option Nat × Option Nat → Except Fault State),
      free_pages Frames.pair State.shared (some 1) 0 (k + 2)
        = (mergingOfPgd.whileLoop Frames.pair (k + 2) 0 k s2 none (some 0) >>= g) ∧
      s2.next_free 0 = some 0 :=
  ⟨_, _, rfl, rfl⟩

theorem models_shared : Models State.shared sharedBlocks := by
  intro j hj
  by_cases h : j ≤ 1
  · simp [State.shared, State.seed, sharedBlocks, h, Chain]
  · simp [State.shared, State.seed, sharedBlocks, h, Chain]

/-- C14, counterexample. In the store `State.shared` the free lists 0 and 1 are
finite and acyclic (each is the one descriptor 0), frame 1 is aligned to order
0, has a descriptor and is on no free list, and frame 2 has no descriptor. The
call `free_pages(frame 1, 0)` never ends: whatever bound is put on the number
of loop iterations, the call uses it up. -/
theorem free_pages_diverges_on_shared_descriptor :
    Models State.shared sharedBlocks ∧ (∀ j, 1 ∉ sharedBlocks j) ∧
    Frames.pair.present 1 = true ∧ alignment (some 1) 0 = .ok true ∧
    ∀ fuel, free_pages Frames.pair State.shared (some 1) 0 fuel = .error Fault.outOfFuel := by
  refine ⟨models_shared, ?_, rfl, rfl, ?_⟩
  · intro j
    unfold sharedBlocks
    split <;> simp
  · intro fuel
    match fuel with
    | 0 => rfl
    | 1 => rfl
    | k + 2 =>
      obtain ⟨s2, g, h, hs⟩ := shared_rescan k
      rw [h, whileLoop_self_loop Frames.pair (k + 2) 0 hs k]
      rfl

/-- C14, amended. Bounded completion on a store whose free lists are finite and
acyclic (the store holds lists `L`), every loop being allowed `fuel`
iterations. The call `allocate_pages(order)` ends for every order once
`fuel` is 2. The call `insert_page_range(start, count)` ends for every start
and count once `fuel` is `count + 2`. The call `free_pages(b, order)`,
cascading-merge loop included, ends for every order and every block `b` that
has a descriptor, starts below frame `2 ^ 31` and is on no free list, once
`fuel` is the length of the free lists `order` and `order + 1` plus 5,
provided no descriptor is on two free lists. A call ends by returning or by a
failed assertion, a null dereference or a read outside `_free_areas`: it never
uses up the iterations allowed. -/
theorem bounded_completion {F : Frames} {s : State} {L : Nat → List Nat} (hM : Models s L)
    (fuel : Nat) :
    (∀ order, 2 ≤ fuel → allocate_pages F s order fuel ≠ .error Fault.outOfFuel) ∧
    (∀ start count, count + 2 ≤ fuel →
      insert_page_range s start count fuel ≠ .error Fault.outOfFuel) ∧
    ((∀ i j, i ≤ MAX_ORDER → j ≤ MAX_ORDER → i ≠ j → ∀ q, q ∈ L i → q ∉ L j) →
      ∀ b order, b < 2 ^ 31 → F.present b = true → (∀ i, i ≤ MAX_ORDER → b ∉ L i) →
        (L order).length + (L (order + 1)).length + 5 ≤ fuel →
        free_pages F s (some b) order fuel ≠ .error Fault.outOfFuel) :=
  ⟨fun order hf => allocate_pages_terminates F s order hf,
    fun start count hf => insert_page_range_terminates hM start count hf,
    fun hD _ _ hb31 hpb hfresh hf => free_pages_terminates hM hD hb31 hpb hfresh hf⟩

/-- C14, amended, on the store with block 1 on free list 0 and block 2 on free
list 1, with 9 iterations allowed: `allocate_pages(0)`,
`insert_page_range(frame 4, 4)` and `free_pages(frame 0, 0)` end. -/
theorem bounded_completion_steps :
    Models State.steps stepBlocks ∧
    allocate_pages Frames.all State.steps 0 9 ≠ .error Fault.outOfFuel ∧
    insert_page_range State.steps (some 4) 4 9 ≠ .error Fault.outOfFuel ∧
    free_pages Frames.all State.steps (some 0) 0 9 ≠ .error Fault.outOfFuel := by
  have h := @bounded_completion Frames.all State.steps stepBlocks models_steps 9
  refine ⟨models_steps, h.1 0 (by decide), h.2.1 (some 4) 4 (by decide),
    h.2.2 ?_ 0 0 (by norm_num) rfl ?_ (by decide)⟩
  · intro i j _ _ hij q hi hj
    rcases mem_stepBlocks hi with ⟨a, b⟩ | ⟨a, b⟩ <;>
      rcases mem_stepBlocks hj with ⟨c, d⟩ | ⟨c, d⟩ <;> omega
  · intro i _ hi
    rcases mem_stepBlocks hi with ⟨_, b⟩ | ⟨_, b⟩ <;> omega

/-! ## Disjointness after every call that returns -/

theorem allocate_pages_out_of_range {F : Frames} {s : State} {order fuel : Nat}
    (h : ¬ order ≤ MAX_ORDER) : allocate_pages F s order fuel = .error Fault.assertion := by
  simp [allocate_pages, checkOrder, h, bind, Except.bind]

theorem empty_heads {s : State} {L : Nat → List Nat} (hM : Models s L) {order : Nat}
    (h : ∀ j, order ≤ j → j ≤ MAX_ORDER → L j = []) :
    ∀ j, order ≤ j → j ≤ MAX_ORDER → s._free_areas j = none := by
  intro j h1 h2
  have := hM j h2
  rw [h j h1 h2] at this
  exact this

theorem insertFree_null_not_ok (s : State) (j fuel : Nat) :
    ∀ x, insertFree s none j fuel ≠ .ok x := by
  intro x h
  unfold insertFree at h
  simp only [bind, Except.bind] at h
  cases h1 : insertFree.loop s none fuel (.area j) with
  | error e => rw [h1] at h; simp at h
  | ok pos =>
    rw [h1] at h
    simp only at h
    cases h2 : s.load pos with
    | error e => rw [h2] at h; simp at h
    | ok cur => rw [h2] at h; simp [pgd_to_pfn] at h

/-- A call of `split_block` that returns on an aligned block of type
`AVAILABLE` has found a descriptor for the buddy frame. -/
theorem split_block_other {F : Frames} {s s' : State} {p l fuel : Nat} {r : Option Nat}
    (hl : l + 1 ≤ MAX_ORDER) (hal : 2 ^ (l + 1) ∣ p)
    (hty : F.type p = PageDescriptorType.AVAILABLE)
    (h : split_block F s (some p) (l + 1) fuel = .ok (r, s')) :
    ∃ o, buddy_of F (some p) l = .ok (some o) := by
  simp only [split_block, alignment_ok p hl, hal, decide_True, Bool.not_true,
    Bool.false_eq_true, if_false, pgd_to_pfn, hty, ne_eq, not_true_eq_false, bind,
    Except.bind, pure, Except.pure] at h
  cases hb : buddy_of F (some p) l with
  | error e => rw [hb] at h; simp at h
  | ok other =>
    rw [hb] at h
    simp only at h
    cases h1 : removeFree s (some p) (l + 1) fuel with
    | error e => rw [h1] at h; simp at h
    | ok s1 =>
      rw [h1] at h
      simp only at h
      cases h2 : insertFree s1 (some p) l fuel with
      | error e => rw [h2] at h; simp at h
      | ok s2 =>
        rw [h2] at h
        simp only at h
        cases h3 : insertFree s2 other l fuel with
        | error e => rw [h3] at h; simp at h
        | ok s3 =>
          cases other with
          | none => exact absurd h3 (insertFree_null_not_ok s2 l fuel s3)
          | some o => exact ⟨o, rfl⟩

theorem split_block_checks {F : Frames} {s s' : State} {p O fuel : Nat} {r : Option Nat}
    (hO : O ≤ MAX_ORDER) (h : split_block F s (some p) O fuel = .ok (r, s'))
    (hn : ¬ (2 ^ O ∣ p ∧ F.type p = PageDescriptorType.AVAILABLE)) : r = none := by
  have hc : ¬ 2 ^ O ∣ p ∨ F.type p ≠ PageDescriptorType.AVAILABLE := by
    by_cases h1 : 2 ^ O ∣ p
    · exact Or.inr (fun e => hn ⟨h1, e⟩)
    · exact Or.inl h1
  have e : split_block F s (some p) O fuel = .ok (none, s) := by
    by_cases hal : 2 ^ O ∣ p
    · have hty : F.type p ≠ PageDescriptorType.AVAILABLE := by
        rcases hc with h | h
        · exact absurd hal h
        · exact h
      simp [split_block, alignment_ok p hO, hal, pgd_to_pfn, hty, bind, Except.bind, pure,
        Except.pure]
    · simp [split_block, alignment_ok p hO, hal, bind, Except.bind, pure, Except.pure]
  rw [e] at h
  have := Except.ok.inj h
  exact (Prod.mk.inj this).1.symm

/-- When the split loop returns a block, every split it made passed the checks
of `split_block` and found a descriptor for the upper half. -/
theorem splitDown_ok_pre {F : Frames} {fuel lo p : Nat} (hp31 : p < 2 ^ 31) :
    ∀ (n : Nat) (s s1 : State) (q : Nat), lo + n ≤ MAX_ORDER →
      splitDown F fuel lo n s (some p) = .ok (some q, s1) →
      (0 < n → 2 ^ (lo + n) ∣ p ∧ F.type p = PageDescriptorType.AVAILABLE) ∧
        ∀ j, lo ≤ j → j < lo + n → F.present (p + 2 ^ j) = true
  | 0, _, _, _, _, _ => ⟨fun h => absurd h (by omega), fun j h1 h2 => absurd h2 (by omega)⟩
  | n + 1, s, s1, q, hn, h => by
    have hl : lo + n + 1 ≤ MAX_ORDER := hn
    simp only [splitDown, bind, Except.bind] at h
    cases hs : split_block F s (some p) (lo + n + 1) fuel with
    | error e => rw [hs] at h; simp at h
    | ok x =>
      obtain ⟨r1, s2⟩ := x
      rw [hs] at h
      simp only at h
      by_cases hc : 2 ^ (lo + n + 1) ∣ p ∧ F.type p = PageDescriptorType.AVAILABLE
      swap
      · have e := split_block_checks hl hs hc
        subst e
        rcases splitDown_result n s2 s1 none (some q) h with e | e
        · exact absurd e (by simp)
        · exact absurd e.1 (by simp)
      obtain ⟨hal, hty⟩ := hc
      have hr1 : r1 = some p := by
        rcases split_block_result hs with e | e
        · subst e
          rcases splitDown_result n s2 s1 none (some q) h with e | e
          · exact absurd e (by simp)
          · exact absurd e.1 (by simp)
        · exact e
      subst hr1
      obtain ⟨o, ho⟩ := split_block_other hl hal hty hs
      have hpres : F.present (p + 2 ^ (lo + n)) = true := by
        rw [buddy_of_ok F p (show lo + n < MAX_ORDER from hl) (pow_dvd_of_succ hal) hp31] at ho
        simp only [hal, if_true] at ho
        by_contra hc
        simp [pfn_to_pgd, hc] at ho
      obtain ⟨_, ih⟩ := splitDown_ok_pre hp31 n s2 s1 q (by omega) h
      refine ⟨fun _ => ⟨hal, hty⟩, ?_⟩
      intro j h1 h2
      by_cases hj : j = lo + n
      · subst hj; exact hpres
      · exact ih j h1 (by omega)

/-- What a returning `allocate_pages(order)` has done, on a store with pairwise
disjoint free blocks below frame `2 ^ 31` whose smallest non-empty free list
at or above `order` is `k`, with head `p`. -/
theorem allocate_pages_ok {F : Frames} {s s' : State} {L : Nat → List Nat}
    {order k p fuel : Nat} {tail : List Nat} {r : Option Nat}
    (hM : Models s L) (hD : DisjointBlocks L)
    (hB : ∀ j, j ≤ MAX_ORDER → ∀ q, q ∈ L j → q < 2 ^ 31)
    (hok : order ≤ k) (hk : k ≤ MAX_ORDER)
    (hmin : ∀ j, order ≤ j → j < k → L j = []) (hhead : L k = p :: tail) (hf : 2 ≤ fuel)
    (h : allocate_pages F s order fuel = .ok (r, s')) :
    r = some p ∧ Models s' (fun j => if j = k then tail
      else if order ≤ j ∧ j < k then [p + 2 ^ j] else L j) := by
  obtain ⟨n, rfl⟩ : ∃ n, k = order + n := ⟨k - order, by omega⟩
  have hpk : p ∈ L (order + n) := by rw [hhead]; simp
  have hp31 := hB _ hk p hpk
  have hheadk : s._free_areas (order + n) = some p := by
    have := hM _ hk
    rw [hhead] at this
    exact this.1
  have hsearch : allocate_pages.search s (MAX_ORDER + 1 - order) order = .ok (order + n) := by
    apply search_found s hk (by rw [hheadk]; simp) _ _ (by omega) (by omega)
    intro j hj1 hj2
    have := hM j (by omega)
    rw [hmin j hj1 hj2] at this
    exact this
  have hsub : order + n - order = n := by omega
  simp only [allocate_pages, checkOrder_ok (show order ≤ MAX_ORDER by omega), hsearch,
    State.load, hk, if_true, hheadk, hsub, bind, Except.bind, pure, Except.pure] at h
  cases hs : splitDown F fuel order n s (some p) with
  | error e => rw [hs] at h; simp at h
  | ok x =>
    obtain ⟨r1, s1⟩ := x
    rw [hs] at h
    simp only at h
    cases hr : removeFree s1 r1 order fuel with
    | error e => rw [hr] at h; simp at h
    | ok s2 =>
      rw [hr] at h
      have hrs : r1 = r ∧ s2 = s' := by
        have := Except.ok.inj h
        exact Prod.mk.inj this
      obtain ⟨e1, e2⟩ := hrs
      subst e1; subst e2
      have hr1 : r1 = some p := by
        rcases splitDown_result n s s1 (some p) r1 hs with e | e
        · exact e
        · rw [e.1] at hr
          exact absurd hr (removeFree_null s2)
      subst hr1
      refine ⟨rfl, ?_⟩
      obtain ⟨hpre1, hpre2⟩ := splitDown_ok_pre hp31 n s s1 p hk hs
      have hsepk : ∀ i, i ≤ MAX_ORDER → i ≠ order + n → ∀ q, q ∈ ([] : List Nat) ++ [p] →
          q ∉ L i := by
        intro i hi hin q hq
        have : q = p := by simpa using hq
        subst this
        exact hD.sep hi hk hin hpk
      by_cases hn0 : n = 0
      · subst hn0
        obtain ⟨s3, h3, hM3⟩ := @removeFree_spec s L p (order + 0) fuel [] tail hM hk
          (by simpa using hhead) hsepk (by simp; omega)
        simp only [splitDown, pure, Except.pure] at hs
        have es : s = s1 := by
          have := Except.ok.inj hs
          exact (Prod.mk.inj this).2
        subst es
        have h3' : removeFree s (some p) order fuel = .ok s3 := h3
        rw [h3'] at hr
        have e3 : s3 = s2 := Except.ok.inj hr
        subst e3
        refine hM3.congr ?_
        intro j _
        by_cases hj : j = order + 0
        · subst hj; simp
        · rw [Function.update_noteq hj, if_neg hj, if_neg (by omega)]
      · obtain ⟨hal, hty⟩ := hpre1 (by omega)
        obtain ⟨s3, s4, h3, h4, hM4⟩ := splitDown_removeFree_spec hty hf hp31 n s L [] tail
          hM hk (by simpa using hhead) hmin hsepk
          (by
            intro i hi j hj1 hj2
            exact hD.inner hi hk hpk (Nat.two_pow_pos j)
              (Nat.pow_lt_pow_right (by decide) hj2))
          hal hpre2 (by simp; omega)
        rw [h3] at hs
        have es : s3 = s1 := by
          have := Except.ok.inj hs
          exact (Prod.mk.inj this).2
        subst es
        rw [h4] at hr
        have e4 : s4 = s2 := Except.ok.inj hr
        subst e4
        exact hM4.congr (fun j _ => by simp)

theorem crossed_rescan (k : Nat) :
    ∃ (s2 : State) (g : Bool × State × Option Nat × Option Nat → Except Fault State),
      free_pages Frames.wrapped State.crossed (some (2 ^ 32)) 0 (k + 2)
        = (mergingOfPgd.whileLoop Frames.wrapped (k + 2) 0 k s2 none (some 0) >>= g) ∧
      s2.next_free 0 = some 0 :=
  ⟨_, _, rfl, rfl⟩

theorem models_crossed : Models State.crossed crossedBlocks := by
  intro j _
  by_cases h0 : j = 0
  · subst h0; simp [State.crossed, State.seed, crossedBlocks, Chain]
  · by_cases h1 : j = 1
    · subst h1; simp [State.crossed, State.seed, crossedBlocks, Chain]
    · simp [State.crossed, State.seed, crossedBlocks, h0, h1, Chain]

theorem mem_crossedBlocks {j q : Nat} (h : q ∈ crossedBlocks j) :
    (j = 0 ∧ q = 1) ∨ (j = 1 ∧ q = 0) := by
  by_cases h0 : j = 0
  · subst h0
    left; simpa [crossedBlocks] using h
  · by_cases h1 : j = 1
    · subst h1
      right; simpa [crossedBlocks] using h
    · simp [crossedBlocks, h0, h1] at h

/-- Why bounded completion of `free_pages` needs the block below frame
`2 ^ 31`. In the store `State.crossed` the free lists are finite and acyclic
and no descriptor is on two of them; the block at frame `2 ^ 32` is aligned to
order 0, has a descriptor and is on no free list. In `free_pages(frame 2 ^ 32, 0)`
the `int` of `buddy_of` holds 1 for the buddy frame `2 ^ 32 + 1`, so the call
merges descriptor 1 with descriptor 0, which heads free list 1: `insertFree`
links descriptor 0 to itself, frame 2 has no descriptor, and the rescan of
free list 1 never ends. -/
theorem free_pages_diverges_on_wrapped_buddy :
    Models State.crossed crossedBlocks ∧
    (∀ i j, i ≤ MAX_ORDER → j ≤ MAX_ORDER → i ≠ j → ∀ q, q ∈ crossedBlocks i →
      q ∉ crossedBlocks j) ∧
    (∀ j, 2 ^ 32 ∉ crossedBlocks j) ∧
    Frames.wrapped.present (2 ^ 32) = true ∧ alignment (some (2 ^ 32)) 0 = .ok true ∧
    ∀ fuel, free_pages Frames.wrapped State.crossed (some (2 ^ 32)) 0 fuel
      = .error Fault.outOfFuel := by
  refine ⟨models_crossed, ?_, ?_, by decide, rfl, ?_⟩
  · intro i j _ _ hij q hi hj
    rcases mem_crossedBlocks hi with ⟨a, b⟩ | ⟨a, b⟩ <;>
      rcases mem_crossedBlocks hj with ⟨c, d⟩ | ⟨c, d⟩ <;> omega
  · intro j hj
    rcases mem_crossedBlocks hj with ⟨_, b⟩ | ⟨_, b⟩ <;> norm_num at b
  · intro fuel
    match fuel with
    | 0 => rfl
    | 1 => rfl
    | k + 2 =>
      obtain ⟨s2, g, h, hs⟩ := crossed_rescan k
      rw [h, whileLoop_self_loop Frames.wrapped (k + 2) 0 hs k]
      rfl

/-- C1, counterexample. Three stores whose free lists are acyclic and hold only
blocks that are aligned to their order and of type `AVAILABLE`. In
`State.shared`, where descriptor 0 heads the free lists 0 and 1,
`allocate_pages(0)` returns frame 0 and empties free list 0, but frame 0 is
still on free list 1 afterwards. With block 0 of order 2 free and no
descriptor for frame 2, `allocate_pages(0)` dereferences null instead of
returning frame 0. With the order-1 block at frame `2 ^ 31` free,
`allocate_pages(0)` returns it and leaves on free list 0 the block at frame
`2 ^ 64 - 2 ^ 31 + 1`, not the upper half `2 ^ 31 + 1`. -/
theorem allocate_pages_outside_invariants :
    (Models State.shared sharedBlocks ∧ Aligned sharedBlocks ∧ sharedBlocks 0 = [0] ∧
      ∃ s', allocate_pages Frames.all State.shared 0 2 = .ok (some 0, s') ∧
        s'.freeList 2 0 = some [] ∧ s'.freeList 2 1 = some [0] ∧ OnFreeList s' 1 0) ∧
    (Models (State.single 2 0) (oneBlock 2 0) ∧ Aligned (oneBlock 2 0) ∧
      Frames.pair.type 0 = PageDescriptorType.AVAILABLE ∧
      allocate_pages Frames.pair (State.single 2 0) 0 2 = .error Fault.nullPointer) ∧
    (Models (State.single 1 (2 ^ 31)) (oneBlock 1 (2 ^ 31)) ∧
      Aligned (oneBlock 1 (2 ^ 31)) ∧
      ∃ s', allocate_pages Frames.all (State.single 1 (2 ^ 31)) 0 2
          = .ok (some (2 ^ 31), s') ∧
        s'.freeList 2 0 = some [2 ^ 64 - 2 ^ 31 + 1]) := by
  have hA : ∀ k p, 2 ^ k ∣ p → Aligned (oneBlock k p) := by
    intro k p h j _ q hq
    by_cases hj : j = k
    · subst hj
      have : q = p := by simpa [oneBlock] using hq
      subst this; exact h
    · simp [oneBlock, hj] at hq
  refine ⟨⟨models_shared, ?_, rfl, _, rfl, rfl, rfl, OnFreeList.head rfl⟩,
    ⟨models_single 2 0, hA 2 0 (dvd_zero _), rfl, rfl⟩,
    ⟨models_single 1 (2 ^ 31), hA 1 (2 ^ 31) (by norm_num), _, rfl, rfl⟩⟩
  intro j _ p hp
  unfold sharedBlocks at hp
  split at hp
  · have : p = 0 := by simpa using hp
    subst this; exact dvd_zero _
  · simp at hp

theorem aligned_stepBlocks : Aligned stepBlocks := wellFormed_stepBlocks.aligned

/-- C11, counterexample. In the store `State.steps` every block on free list
`j` starts at a multiple of `2 ^ j` (block 1 on free list 0, block 2 on free
list 1). The call `free_pages(frame 2, 0)` passes its assertion and returns;
it has linked descriptor 2 in front of descriptor 1, so free list 1 is now
`[2, 1]` and holds frame 1, which is not divisible by 2. -/
theorem free_pages_breaks_alignment :
    Models State.steps stepBlocks ∧ Aligned stepBlocks ∧
    ∃ s', free_pages Frames.all State.steps (some 2) 0 4 = .ok s' ∧
      s'.freeList 4 0 = some [2, 1] ∧ s'.freeList 4 1 = some [2, 1] ∧ ¬ 2 ^ 1 ∣ 1 :=
  ⟨models_steps, aligned_stepBlocks, _, rfl, rfl, rfl, by decide⟩

/-! ## Alignment after every call that returns -/

/-- A call of `merge_block` that returns on an aligned block has found a
descriptor for the buddy frame. -/
theorem merge_block_other {F : Frames} {s s' : State} {b O fuel : Nat} {r : Option Nat}
    (hO : O < MAX_ORDER) (hal : 2 ^ O ∣ b)
    (h : merge_block F s (some b) O fuel = .ok (r, s')) :
    ∃ o, buddy_of F (some b) O = .ok (some o) := by
  have hO0 : O ≤ MAX_ORDER := by omega
  have hO2 : O ≤ MAX_ORDER - 1 := by omega
  simp only [merge_block, hO2, not_true_eq_false, if_false, alignment_ok b hO0, hal,
    decide_True, Bool.not_true, Bool.false_eq_true, bind, Except.bind] at h
  cases hb : buddy_of F (some b) O with
  | error e => rw [hb] at h; simp at h
  | ok other =>
    rw [hb] at h
    simp only at h
    cases h1 : removeFree s (some b) O fuel with
    | error e => rw [h1] at h; simp at h
    | ok s1 =>
      rw [h1] at h
      simp only at h
      cases h2 : removeFree s1 other O fuel with
      | error e => rw [h2] at h; simp at h
      | ok s2 =>
        cases other with
        | none => exact absurd h2 (removeFree_null s2)
        | some o => exact ⟨o, rfl⟩

/-- The call `split_block(b, l + 1)` on an aligned block `b` of type `AVAILABLE`
that is on free list `l + 1`, on a store of pairwise disjoint free blocks. -/
theorem split_block_listed {F : Frames} {s : State} {L : Nat → List Nat} {b l fuel : Nat}
    (hM : Models s L) (hD : DisjointBlocks L) (hl : l + 1 ≤ MAX_ORDER) (hb : b ∈ L (l + 1))
    (hal : 2 ^ (l + 1) ∣ b) (hty : F.type b = PageDescriptorType.AVAILABLE)
    (hpr : F.present (b + 2 ^ l) = true) (hb31 : b < 2 ^ 31)
    (hf : (L (l + 1)).length ≤ fuel) :
    ∃ s', split_block F s (some b) (l + 1) fuel = .ok (some b, s') ∧
      Models s' (Function.update (Function.update L (l + 1) ((L (l + 1)).erase b)) l
        ((b + 2 ^ l) :: b :: L l)) := by
  have hpos : 0 < 2 ^ l := Nat.two_pow_pos l
  have hlt : 2 ^ l < 2 ^ (l + 1) := Nat.pow_lt_pow_right (by decide) (Nat.lt_succ_self l)
  obtain ⟨l1, l2, hL⟩ := List.append_of_mem hb
  have hn : (l1 ++ b :: l2).Nodup := by
    have := hD.1 _ hl
    rwa [hL] at this
  have hlen : l1.length < fuel := by
    have : (L (l + 1)).length = l1.length + (l2.length + 1) := by rw [hL]; simp
    omega
  obtain ⟨s1, h1, hM1⟩ := split_block_spec hM hl hL hal hty hpr
    (fun i hi hin q hq => hD.sep hi hl hin (by
      rw [hL]
      rcases List.mem_append.mp hq with e | e
      · exact List.mem_append_left _ e
      · have : q = b := by simpa using e
        subst this; simp))
    (fun i hi => hD.inner hi hl hb hpos hlt) hlen hb31
  refine ⟨s1, h1, ?_⟩
  rw [hL, erase_split hn]
  exact hM1

/-- The call `merge_block(b, O)` on an aligned block `b` that is on free list
`O` together with its buddy, on a store of pairwise disjoint free blocks. -/
theorem merge_block_listed {F : Frames} {s : State} {L : Nat → List Nat} {b O fuel : Nat}
    (hM : Models s L) (hD : DisjointBlocks L) (hO : O < MAX_ORDER) (hb : b ∈ L O)
    (hbud : (if 2 ^ (O + 1) ∣ b then b + 2 ^ O else b - 2 ^ O) ∈ L O)
    (hal : 2 ^ O ∣ b)
    (hpr : F.present (if 2 ^ (O + 1) ∣ b then b + 2 ^ O else b - 2 ^ O) = true)
    (hb31 : b < 2 ^ 31) (hf : (L O).length ≤ fuel) :
    ∃ s', merge_block F s (some b) O fuel
        = .ok (some (if 2 ^ (O + 1) ∣ b then b else b - 2 ^ O), s') ∧
      Models s' (Function.update
        (Function.update L O
          (((L O).erase b).erase (if 2 ^ (O + 1) ∣ b then b + 2 ^ O else b - 2 ^ O)))
        (O + 1) ((if 2 ^ (O + 1) ∣ b then b else b - 2 ^ O) :: L (O + 1))) := by
  have hO0 : O ≤ MAX_ORDER := by omega
  have hne := buddy_ne hal
  obtain ⟨l1, l2, hL⟩ := List.append_of_mem hb
  have hn : (l1 ++ b :: l2).Nodup := by
    have := hD.1 O hO0
    rwa [hL] at this
  have hbud' : (if 2 ^ (O + 1) ∣ b then b + 2 ^ O else b - 2 ^ O) ∈ l1 ++ l2 := by
    rw [hL] at hbud
    rcases List.mem_append.mp hbud with e | e
    · exact List.mem_append_left _ e
    · rcases List.mem_cons.mp e with e | e
      · exact absurd e hne
      · exact List.mem_append_right _ e
  obtain ⟨m1, m2, hL2⟩ := List.append_of_mem hbud'
  have hn2 : (m1 ++ (if 2 ^ (O + 1) ∣ b then b + 2 ^ O else b - 2 ^ O) :: m2).Nodup := by
    rw [← hL2]
    have : (l1 ++ l2).Sublist (l1 ++ b :: l2) :=
      List.Sublist.append (List.Sublist.refl _) (List.sublist_cons_self _ _)
    exact hn.sublist this
  have hlen1 : (L O).length = l1.length + (l2.length + 1) := by rw [hL]; simp
  have hlen2 : l1.length + l2.length = m1.length + (m2.length + 1) := by
    have := congrArg List.length hL2
    simpa using this
  obtain ⟨s', h, hM'⟩ := @merge_block_spec F s L b O fuel l1 l2 m1 m2 hM hO hal hpr
    hL hL2 (fun i hi hin q hq => hD.sep hi hO0 hin hq) (by omega) (by omega) hb31
  refine ⟨s', h, ?_⟩
  rw [hL, erase_split hn, hL2, erase_split hn2]
  exact hM'

/-- The three ways in which `free_pages(b, O)` ends, for an aligned block `b`
(with a descriptor, below frame `2 ^ 31`) that is on no free list of a store
whose free lists share no descriptor: it fails the assertion of
`buddy_of(.., MAX_ORDER)` after a merge at `O = MAX_ORDER - 1`; or it returns
with `b` put on free list `O`; or it returns with `b` and its buddy merged
into one block on free list `O + 1`. -/
theorem free_pages_cases {F : Frames} {s : State} {L : Nat → List Nat} {b O fuel : Nat}
    (hM : Models s L)
    (hsep : ∀ i j, i ≤ MAX_ORDER → j ≤ MAX_ORDER → i ≠ j → ∀ q, q ∈ L i → q ∉ L j)
    (hO : O ≤ MAX_ORDER) (hal : 2 ^ O ∣ b) (hb31 : b < 2 ^ 31) (hpb : F.present b = true)
    (hnm : ∀ i, i ≤ MAX_ORDER → b ∉ L i)
    (hf : (L O).length + (L (O + 1)).length + 5 ≤ fuel) :
    ((O + 1 = MAX_ORDER ∧ (if 2 ^ (O + 1) ∣ b then b + 2 ^ O else b - 2 ^ O) ∈ L O ∧
        F.present (if 2 ^ (O + 1) ∣ b then b + 2 ^ O else b - 2 ^ O) = true) ∧
      free_pages F s (some b) O fuel = .error Fault.assertion) ∨
    (∃ s', free_pages F s (some b) O fuel = .ok s' ∧
      Models s' (Function.update L O (b :: L O))) ∨
    (O < MAX_ORDER ∧ (if 2 ^ (O + 1) ∣ b then b + 2 ^ O else b - 2 ^ O) ∈ L O ∧
      ∃ s', free_pages F s (some b) O fuel = .ok s' ∧
        Models s' (Function.update
          (Function.update L O
            ((L O).erase (if 2 ^ (O + 1) ∣ b then b + 2 ^ O else b - 2 ^ O)))
          (O + 1) ((if 2 ^ (O + 1) ∣ b then b else b - 2 ^ O) :: L (O + 1)))) := by
  by_cases hmax : O = MAX_ORDER
  · obtain ⟨s1, h1, hM1⟩ := @free_pages_no_merge F s L b O fuel hM hO hal hnm (Or.inl hmax)
      (by omega) hb31
    exact Or.inr (Or.inl ⟨s1, h1, hM1⟩)
  have hlt : O < MAX_ORDER := by omega
  by_cases hmiss : ∀ f, f ∈ L O →
      pfn_to_pgd F (if 2 ^ (O + 1) ∣ b then b + 2 ^ O else b - 2 ^ O) ≠ some f
  · obtain ⟨s1, h1, hM1⟩ := @free_pages_miss F s L b O fuel hM hlt hal hnm hmiss
      (by omega) hb31
    exact Or.inr (Or.inl ⟨s1, h1, hM1⟩)
  · push_neg at hmiss
    obtain ⟨f, hfm, he⟩ := hmiss
    have hpbud : F.present (if 2 ^ (O + 1) ∣ b then b + 2 ^ O else b - 2 ^ O) = true := by
      by_contra hc
      simp [pfn_to_pgd, hc] at he
    have hbf : (if 2 ^ (O + 1) ∣ b then b + 2 ^ O else b - 2 ^ O) = f := by
      simp only [pfn_to_pgd, hpbud, if_true] at he
      exact Option.some.inj he
    rw [← hbf] at hfm
    have hm := @free_pages_merge_sep F s L b O fuel hM hlt hal hpb hnm hfm hpbud
      (fun i hi hin q hq => hsep O i hO hi (fun e => hin e.symm) q hq) hf hb31
    by_cases hmax1 : O + 1 = MAX_ORDER
    · exact Or.inl ⟨⟨hmax1, hfm, hpbud⟩, hm.1 hmax1⟩
    · obtain ⟨s1, h1, hM1⟩ := hm.2 (by omega)
      exact Or.inr (Or.inr ⟨hlt, hfm, s1, h1, hM1⟩)

/-- C11, amended. On a store whose free lists are aligned and hold pairwise
disjoint blocks, with no descriptor listed twice, the alignment invariant
still holds whenever one of these calls returns: `split_block` on a block of
a free list and `merge_block` on a block that is on a free list together with
its buddy (the block below frame `2 ^ 31`), `allocate_pages` (the free blocks
below frame `2 ^ 31`), `free_pages` of an aligned block (with a descriptor,
below frame `2 ^ 31`) that overlaps no free block, and `insert_page_range` of
a range that overlaps no free block: every block on every free list `j` of the
resulting store starts at a frame number divisible by `2 ^ j`. -/
theorem alignment_invariant_preserved {F : Frames} {s : State} {L : Nat → List Nat}
    {fuel : Nat}
    (hM : Models s L) (hA : Aligned L) (hD : DisjointBlocks L)
    (hf : ∀ j, j ≤ MAX_ORDER → (L j).length + (L (j + 1)).length + 5 ≤ fuel) :
    (∀ b O r s', O ≤ MAX_ORDER → b ∈ L O → b < 2 ^ 31 →
      split_block F s (some b) O fuel = .ok (r, s') → ∃ L', Models s' L' ∧ Aligned L') ∧
    (∀ b O r s', O ≤ MAX_ORDER → b ∈ L O → b < 2 ^ 31 →
      (if 2 ^ (O + 1) ∣ b then b + 2 ^ O else b - 2 ^ O) ∈ L O →
      merge_block F s (some b) O fuel = .ok (r, s') → ∃ L', Models s' L' ∧ Aligned L') ∧
    ((∀ j, j ≤ MAX_ORDER → ∀ q, q ∈ L j → q < 2 ^ 31) →
      ∀ order r s', allocate_pages F s order fuel = .ok (r, s') →
        ∃ L', Models s' L' ∧ Aligned L') ∧
    (∀ b O s', O ≤ MAX_ORDER → 2 ^ O ∣ b → b < 2 ^ 31 → F.present b = true →
      (∀ i, i ≤ MAX_ORDER → ∀ q, q ∈ L i → ∀ f, InBlock b O f → ¬ InBlock q i f) →
      free_pages F s (some b) O fuel = .ok s' → ∃ L', Models s' L' ∧ Aligned L') ∧
    (∀ start count s', count < fuel →
      (∀ i, i ≤ MAX_ORDER → ∀ q, q ∈ L i → ∀ f, start ≤ f → f < start + count →
        ¬ InBlock q i f) →
      insert_page_range s (some start) count fuel = .ok s' →
      ∃ L', Models s' L' ∧ Aligned L') := by
  have hf2 : 2 ≤ fuel := by have := hf 0 (Nat.zero_le _); omega
  refine ⟨?_, ?_, ?_, ?_, ?_⟩
  · intro b O r s' hO hb hb31 h
    have hal := hA O hO b hb
    by_cases hty : F.type b = PageDescriptorType.AVAILABLE
    swap
    · have e : split_block F s (some b) O fuel = .ok (none, s) := by
        simp [split_block, alignment_ok b hO, hal, pgd_to_pfn, hty, bind, Except.bind, pure,
          Except.pure]
      rw [e] at h
      have e2 : s = s' := (Prod.mk.inj (Except.ok.inj h)).2
      subst e2
      exact ⟨L, hM, hA⟩
    cases O with
    | zero =>
      rw [split_block_zero hty] at h
      exact absurd h (by simp)
    | succ l =>
      obtain ⟨o, ho⟩ := split_block_other hO hal hty h
      have hpr : F.present (b + 2 ^ l) = true := by
        rw [buddy_of_ok F b (show l < MAX_ORDER from hO) (pow_dvd_of_succ hal) hb31] at ho
        simp only [hal, if_true] at ho
        by_contra hc
        simp [pfn_to_pgd, hc] at ho
      have hfl : (L (l + 1)).length ≤ fuel := by have := hf (l + 1) hO; omega
      obtain ⟨s1, h1, hM1⟩ := @split_block_listed F s L b l fuel hM hD hO hb hal hty hpr hb31 hfl
      rw [h1] at h
      have e : s1 = s' := (Prod.mk.inj (Except.ok.inj h)).2
      subst e
      refine ⟨_, hM1, ?_⟩
      have hal' : 2 ^ l ∣ b := pow_dvd_of_succ hal
      apply Aligned.update
      · apply Aligned.update hA
        intro q hq
        exact hA _ hO q (List.mem_of_mem_erase hq)
      · intro q hq
        rcases List.mem_cons.mp hq with e | hq
        · subst e; exact Dvd.dvd.add hal' (dvd_refl _)
        · rcases List.mem_cons.mp hq with e | hq
          · subst e; exact hal'
          · exact hA l (by omega) q hq
  · intro b O r s' hO hb hb31 hbud h
    have hal := hA O hO b hb
    by_cases hlt : O < MAX_ORDER
    · obtain ⟨o, ho⟩ := merge_block_other hlt hal h
      have hpr : F.present (if 2 ^ (O + 1) ∣ b then b + 2 ^ O else b - 2 ^ O) = true := by
        rw [buddy_of_ok F b hlt hal hb31] at ho
        by_contra hc
        simp [pfn_to_pgd, hc] at ho
      have hfl : (L O).length ≤ fuel := by have := hf O hO; omega
      obtain ⟨s1, h1, hM1⟩ := @merge_block_listed F s L b O fuel hM hD hlt hb hbud hal hpr hb31 hfl
      rw [h1] at h
      have e : s1 = s' := (Prod.mk.inj (Except.ok.inj h)).2
      subst e
      refine ⟨_, hM1, ?_⟩
      apply Aligned.update
      · apply Aligned.update hA
        intro q hq
        exact hA _ hO q (List.mem_of_mem_erase (List.mem_of_mem_erase hq))
      · intro q hq
        rcases List.mem_cons.mp hq with e | hq
        · subst e; exact low_aligned hal
        · exact hA (O + 1) hlt q hq
    · rw [merge_block_top (by omega)] at h
      exact absurd h (by simp)
  · intro hB order r s' h
    by_cases ho : order ≤ MAX_ORDER
    swap
    · rw [allocate_pages_out_of_range ho] at h
      exact absurd h (by simp)
    rcases smallest_nonempty L order with he | ⟨k, p, tail, hok, hk, hmin, hhead⟩
    · rw [allocate_pages_exhausted fuel ho (empty_heads hM he)] at h
      exact absurd h (by simp)
    · obtain ⟨_, hM'⟩ := allocate_pages_ok hM hD hB hok hk hmin hhead hf2 h
      refine ⟨_, hM', ?_⟩
      have hpk : p ∈ L k := by rw [hhead]; simp
      intro j hj q hq
      by_cases h1 : j = k
      · subst h1
        simp only [if_true] at hq
        exact hA j hj q (by rw [hhead]; exact List.mem_cons_of_mem _ hq)
      · by_cases h2 : order ≤ j ∧ j < k
        · simp only [h1, h2, if_false, and_self, if_true, List.mem_singleton] at hq
          subst hq
          have : 2 ^ j ∣ p :=
            Dvd.dvd.trans (pow_dvd_pow 2 (Nat.le_of_lt h2.2)) (hA k hk p hpk)
          exact Dvd.dvd.add this (dvd_refl _)
        · simp only [h1, h2, if_false] at hq
          exact hA j hj q hq
  · intro b O s' hO hal hb31 hpb hfresh h
    have hnm := not_mem_of_fresh hfresh
    rcases free_pages_cases hM (fun i j hi hj hij q hq => hD.sep hj hi (fun e => hij e.symm) hq)
      hO hal hb31 hpb hnm (hf O hO) with ⟨_, he⟩ | ⟨s1, h1, hM1⟩ | ⟨hlt, hbud, s1, h1, hM1⟩
    · rw [he] at h
      exact absurd h (by simp)
    · rw [h1] at h
      have e : s1 = s' := Except.ok.inj h
      subst e
      refine ⟨_, hM1, Aligned.update hA ?_⟩
      intro q hq
      rcases List.mem_cons.mp hq with e | hq
      · subst e; exact hal
      · exact hA O hO q hq
    · rw [h1] at h
      have e : s1 = s' := Except.ok.inj h
      subst e
      refine ⟨_, hM1, ?_⟩
      apply Aligned.update
      · apply Aligned.update hA
        intro q hq
        exact hA _ hO q (List.mem_of_mem_erase hq)
      · intro q hq
        rcases List.mem_cons.mp hq with e | hq
        · subst e; exact low_aligned hal
        · exact hA (O + 1) hlt q hq
  · intro start count s' hc hfresh h
    obtain ⟨s1, L1, h1, hM1, hA1⟩ := insert_page_range_keeps_aligned fuel (by omega) fuel s L
      start count hc hM hA hfresh
    have e : s1 = s' := by
      unfold insert_page_range at h
      rw [h1] at h
      exact Except.ok.inj h
    subst e
    exact ⟨L1, hM1, hA1⟩

/-- C11, amended, on the store with the order-1 buddies 0 and 2 free: each of
the five operations returns there and leaves aligned free lists. -/
theorem alignment_invariant_preserved_buddies :
    (∃ s' L', split_block Frames.all State.buddies (some 0) 1 9 = .ok (some 0, s') ∧
      Models s' L' ∧ Aligned L') ∧
    (∃ s' L', merge_block Frames.all State.buddies (some 0) 1 9 = .ok (some 0, s') ∧
      Models s' L' ∧ Aligned L') ∧
    (∃ s' L', allocate_pages Frames.all State.buddies 0 9 = .ok (some 0, s') ∧
      Models s' L' ∧ Aligned L') ∧
    (∃ s' L', free_pages Frames.all State.buddies (some 4) 0 9 = .ok s' ∧
      Models s' L' ∧ Aligned L') ∧
    (∃ s' L', insert_page_range State.buddies (some 8) 3 9 = .ok s' ∧
      Models s' L' ∧ Aligned L') := by
  have T := @alignment_invariant_preserved Frames.all State.buddies twoBlocks 9 models_buddies
    wellFormed_twoBlocks.aligned wellFormed_twoBlocks.disjoint (fun j _ => by
      have h1 := twoBlocks_length j
      have h2 := twoBlocks_length (j + 1)
      omega)
  refine ⟨?_, ?_, ?_, ?_, ?_⟩
  · obtain ⟨s', h⟩ : ∃ s', split_block Frames.all State.buddies (some 0) 1 9
        = .ok (some 0, s') := ⟨_, rfl⟩
    obtain ⟨L', hM', hA'⟩ := T.1 0 1 _ s' (by decide) (by simp [twoBlocks]) (by norm_num) h
    exact ⟨s', L', h, hM', hA'⟩
  · obtain ⟨s', h⟩ : ∃ s', merge_block Frames.all State.buddies (some 0) 1 9
        = .ok (some 0, s') := ⟨_, rfl⟩
    obtain ⟨L', hM', hA'⟩ := T.2.1 0 1 _ s' (by decide) (by simp [twoBlocks])
      (by norm_num) (by simp [twoBlocks]) h
    exact ⟨s', L', h, hM', hA'⟩
  · obtain ⟨s', h⟩ : ∃ s', allocate_pages Frames.all State.buddies 0 9
        = .ok (some 0, s') := ⟨_, rfl⟩
    obtain ⟨L', hM', hA'⟩ := T.2.2.1 wellFormed_twoBlocks.bounded 0 _ s' h
    exact ⟨s', L', h, hM', hA'⟩
  · obtain ⟨s', h⟩ : ∃ s', free_pages Frames.all State.buddies (some 4) 0 9 = .ok s' :=
      ⟨_, rfl⟩
    obtain ⟨L', hM', hA'⟩ := T.2.2.2.1 4 0 s' (by decide) (by simp) (by norm_num) rfl
      (by
        intro i _ q hq f h1 h2
        obtain ⟨hi, hq⟩ := mem_twoBlocks hq
        unfold InBlock at h1 h2
        rw [hi] at h2
        have e : (2 : Nat) ^ 1 = 2 := rfl
        rw [e] at h2
        simp at h1
        omega) h
    exact ⟨s', L', h, hM', hA'⟩
  · obtain ⟨s', h⟩ : ∃ s', insert_page_range State.buddies (some 8) 3 9 = .ok s' := ⟨_, rfl⟩
    obtain ⟨L', hM', hA'⟩ := T.2.2.2.2 8 3 s' (by decide)
      (by
        intro i _ q hq f h1 h2
        obtain ⟨hi, hq⟩ := mem_twoBlocks hq
        unfold InBlock
        rw [hi]
        have e : (2 : Nat) ^ 1 = 2 := rfl
        rw [e]
        omega) h
    exact ⟨s', L', h, hM', hA'⟩

/-! ## Conservation after every call that returns -/

end Buddy

namespace MultipleQueuePriorityScheduler

/-! ## Strict priority with FIFO rotation -/

theorem rotate_cons (e : Nat) (t : List Nat) : rotate (e :: t) = (t ++ [e], some e) := by
  simp [rotate, dequeue, enqueue, last]

theorem picks_realtime (s : Queues) (hr : s.runqueue ≠ []) :
    ∀ (done todo : List Nat), s.realtime = todo ++ done →
      picks todo.length s = (todo.map some, { s with realtime := done ++ todo })
  | done, [], h => by
    simp [picks]
    cases s
    simp at h
    simp [h]
  | done, e :: todo, h => by
    have hre : s.realtime = e :: (todo ++ done) := by simpa using h
    have hp : pick_next_entity s = (some e, { s with realtime := todo ++ (done ++ [e]) }) := by
      simp [pick_next_entity, hr, hre, rotate_cons]
    have ih := picks_realtime { s with realtime := todo ++ (done ++ [e]) } hr (done ++ [e]) todo
      rfl
    simp only [List.length_cons, picks, hp, ih, List.map_cons]
    simp

theorem picks_interactive (s : Queues) (hr : s.runqueue ≠ []) (h0 : s.realtime = []) :
    ∀ (done todo : List Nat), s.interactive = todo ++ done →
      picks todo.length s = (todo.map some, { s with interactive := done ++ todo })
  | done, [], h => by
    simp [picks]
    cases s
    simp at h
    simp [h]
  | done, e :: todo, h => by
    have hre : s.interactive = e :: (todo ++ done) := by simpa using h
    have hp : pick_next_entity s = (some e, { s with interactive := todo ++ (done ++ [e]) }) := by
      simp [pick_next_entity, hr, h0, hre, rotate_cons]
    have ih := picks_interactive { s with interactive := todo ++ (done ++ [e]) } hr h0 (done ++ [e]) todo
      rfl
    simp only [List.length_cons, picks, hp, ih, List.map_cons]
    simp

theorem picks_normal (s : Queues) (hr : s.runqueue ≠ []) (h0 : s.realtime = []) (h1 : s.interactive = []) :
    ∀ (done todo : List Nat), s.normal = todo ++ done →
      picks todo.length s = (todo.map some, { s with normal := done ++ todo })
  | done, [], h => by
    simp [picks]
    cases s
    simp at h
    simp [h]
  | done, e :: todo, h => by
    have hre : s.normal = e :: (todo ++ done) := by simpa using h
    have hp : pick_next_entity s = (some e, { s with normal := todo ++ (done ++ [e]) }) := by
      simp [pick_next_entity, hr, h0, h1, hre, rotate_cons]
    have ih := picks_normal { s with normal := todo ++ (done ++ [e]) } hr h0 h1 (done ++ [e]) todo
      rfl
    simp only [List.length_cons, picks, hp, ih, List.map_cons]
    simp

theorem picks_daemon (s : Queues) (hr : s.runqueue ≠ []) (h0 : s.realtime = []) (h1 : s.interactive = []) (h2 : s.normal = []) :
    ∀ (done todo : List Nat), s.daemon = todo ++ done →
      picks todo.length s = (todo.map some, { s with daemon := done ++ todo })
  | done, [], h => by
    simp [picks]
    cases s
    simp at h
    simp [h]
  | done, e :: todo, h => by
    have hre : s.daemon = e :: (todo ++ done) := by simpa using h
    have hp : pick_next_entity s = (some e, { s with daemon := todo ++ (done ++ [e]) }) := by
      simp [pick_next_entity, hr, h0, h1, h2, hre, rotate_cons]
    have ih := picks_daemon { s with daemon := todo ++ (done ++ [e]) } hr h0 h1 h2 (done ++ [e]) todo
      rfl
    simp only [List.length_cons, picks, hp, ih, List.map_cons]
    simp

/-- C20. Strict priority with FIFO rotation. The function `pick_next_entity`
returns null and changes nothing when `runqueue` is empty. Otherwise, scanning
the tiers realtime, interactive, normal, daemon, it returns the entity at the
head of the first non-empty tier, moves exactly that entity to the tail of the
same tier and leaves `runqueue` and the other tiers unchanged (and returns
null, changing nothing, when all four tiers are empty); so no entity of a
lower tier is returned while a higher tier is non-empty. And `n` consecutive
calls, when the first non-empty tier holds `n` entities, return each of them
once, in queue order, and leave all queues as they were. -/
theorem pick_next_entity_priority (s : Queues) :
    (s.runqueue = [] → pick_next_entity s = (none, s)) ∧
    (s.runqueue ≠ [] → ∀ e t, s.realtime = e :: t →
      pick_next_entity s = (some e, { s with realtime := t ++ [e] })) ∧
    (s.runqueue ≠ [] → s.realtime = [] → ∀ e t, s.interactive = e :: t →
      pick_next_entity s = (some e, { s with interactive := t ++ [e] })) ∧
    (s.runqueue ≠ [] → s.realtime = [] → s.interactive = [] → ∀ e t, s.normal = e :: t →
      pick_next_entity s = (some e, { s with normal := t ++ [e] })) ∧
    (s.runqueue ≠ [] → s.realtime = [] → s.interactive = [] → s.normal = [] →
      ∀ e t, s.daemon = e :: t →
      pick_next_entity s = (some e, { s with daemon := t ++ [e] })) ∧
    (s.realtime = [] → s.interactive = [] → s.normal = [] → s.daemon = [] →
      pick_next_entity s = (none, s)) ∧
    (s.runqueue ≠ [] → picks s.realtime.length s = (s.realtime.map some, s)) ∧
    (s.runqueue ≠ [] → s.realtime = [] →
      picks s.interactive.length s = (s.interactive.map some, s)) ∧
    (s.runqueue ≠ [] → s.realtime = [] → s.interactive = [] →
      picks s.normal.length s = (s.normal.map some, s)) ∧
    (s.runqueue ≠ [] → s.realtime = [] → s.interactive = [] → s.normal = [] →
      picks s.daemon.length s = (s.daemon.map some, s)) := by
  refine ⟨?_, ?_, ?_, ?_, ?_, ?_, ?_, ?_, ?_, ?_⟩
  · intro h
    simp [pick_next_entity, h]
  · intro hr e t h
    simp [pick_next_entity, hr, h, rotate_cons]
  · intro hr h1 e t h
    simp [pick_next_entity, hr, h1, h, rotate_cons]
  · intro hr h1 h2 e t h
    simp [pick_next_entity, hr, h1, h2, h, rotate_cons]
  · intro hr h1 h2 h3 e t h
    simp [pick_next_entity, hr, h1, h2, h3, h, rotate_cons]
  · intro h1 h2 h3 h4
    simp [pick_next_entity, h1, h2, h3, h4]
  · intro hr
    have := picks_realtime s hr [] s.realtime (by simp)
    simpa using this
  · intro hr h1
    have := picks_interactive s hr h1 [] s.interactive (by simp)
    simpa using this
  · intro hr h1 h2
    have := picks_normal s hr h1 h2 [] s.normal (by simp)
    simpa using this
  · intro hr h1 h2 h3
    have := picks_daemon s hr h1 h2 h3 [] s.daemon (by simp)
    simpa using this

end MultipleQueuePriorityScheduler
